import Mathlib

/-! # RVVM command-line front end (`src/main.c`)

A shallow embedding of the argument parser (`get_arg`, `cmp_arg`, `parse_args`)
and of the machine bring-up (`rvvm_run_with_args`, `rvvm_main`) of `main.c`,
followed by theorems about them.

Conventions of the embedding:

* a C string is the list of its characters before the NUL terminator;
* a `const char*` that may be `NULL` is an `Option`;
* `argv` is the list of its `argc` strings, `argv[argc]` being `NULL`;
* a pointer into a string (`&s[k]`, `s + k`) is the suffix `s.drop k`;
* `size_t` is 64 bits wide, `uint32_t` 32 bits wide.
-/

namespace RVVM

/-- A C string: its characters up to, and without, the NUL terminator. -/
abbrev CStr := List Char

/-! ## The configuration record -/

/-- The record `vm_args_t`. -/
structure vm_args_t where
  bootrom : Option CStr
  kernel : Option CStr
  dtb : Option CStr
  dumpdtb : Option CStr
  image : Option CStr
  mem : Nat
  smp : Nat
  fb_x : Nat
  fb_y : Nat
  rv64 : Bool
  sbi_align_fix : Bool
  nogui : Bool
deriving DecidableEq, Repr

/-- The initialiser `vm_args_t args = {0}` of `rvvm_main`. -/
def vm_args_zero : vm_args_t :=
  { bootrom := none, kernel := none, dtb := none, dumpdtb := none, image := none,
    mem := 0, smp := 0, fb_x := 0, fb_y := 0,
    rv64 := false, sbi_align_fix := false, nogui := false }

/-! ## `get_arg` and `cmp_arg` -/

/-- The `for` loop of `get_arg` (lines 79-85): scans the text for the first `=`
and returns the text after it, or `none` when the terminator is reached. -/
def find_eq : CStr → Option CStr
  | [] => none
  | c :: cs => if c = '=' then some cs else find_eq cs

/-- The result of `get_arg`: the returned token count and the two out-pointers. -/
structure Arg where
  argpair : Nat
  arg_name : CStr
  arg_val : CStr
deriving DecidableEq, Repr

/-- The function `get_arg` (lines 74-101). `arg0` is `argv[0]`, `arg1` is
`argv[1]` (`none` when it is `NULL`). -/
def get_arg (arg0 : CStr) (arg1 : Option CStr) : Arg :=
  if arg0.head? = some '-' then
    let offset := if arg0.tail.head? = some '-' then 2 else 1
    let arg_name := arg0.drop offset
    match find_eq arg_name with
    | some v => { argpair := 1, arg_name := arg_name, arg_val := v }
    | none =>
      match arg1 with
      | none => { argpair := 1, arg_name := arg_name, arg_val := [] }
      | some a1 =>
        if a1.head? = some '-' then
          { argpair := 1, arg_name := arg_name, arg_val := [] }
        else
          { argpair := 2, arg_name := arg_name, arg_val := a1 }
  else
    { argpair := 1, arg_name := "bootrom".toList, arg_val := arg0 }

/-- The function `cmp_arg` (lines 103-109): walks `arg` up to its terminator or
its first `=`, comparing with `name` position by position; the terminator of
`name` differs from every character of `arg` that the loop can reach. -/
def cmp_arg : CStr → CStr → Bool
  | [], _ => true
  | c :: cs, name =>
    if c = '=' then true
    else
      match name with
      | [] => false
      | n :: ns => if c ≠ n then false else cmp_arg cs ns

/-! ## The C library helpers used by the handlers -/

/-- The predicate `isspace` of the C locale. -/
def isspace (c : Char) : Bool :=
  c = ' ' || c = '\t' || c = '\n' || c = '\x0b' || c = '\x0c' || c = '\r'

/-- The predicate `isdigit`. -/
def isdigit (c : Char) : Bool := 48 ≤ c.toNat && c.toNat ≤ 57

/-- The digit loop of `atoi`: accumulates decimal digits until the first
character that is not one. -/
def atoi_digits (acc : Nat) : CStr → Nat
  | [] => acc
  | c :: cs => if isdigit c then atoi_digits (acc * 10 + (c.toNat - 48)) cs else acc

/-- The C library function `atoi`: leading white space is skipped, an optional
sign is read, then the longest run of decimal digits; no digits give 0. The
value is not reduced to the range of `int` here (C leaves a result that does
not fit `int` undefined). -/
def atoi (s : CStr) : Int :=
  match s.dropWhile isspace with
  | '-' :: cs => - (atoi_digits 0 cs : Int)
  | '+' :: cs => (atoi_digits 0 cs : Int)
  | cs => (atoi_digits 0 cs : Int)

/-- Conversion of an `int` to `size_t` (64 bits). -/
def to_size_t (z : Int) : Nat := (z % 2 ^ 64).toNat

/-- Conversion of an `int` to `uint32_t`. -/
def to_uint32 (z : Int) : Nat := (z % 2 ^ 32).toNat

/-- The shift `x << s` on `size_t`. -/
def shl_size_t (x s : Nat) : Nat := (x * 2 ^ s) % 2 ^ 64

/-- The loop of the `res` handler (line 197): the text after the first `x`, or
`none` when the value has no `x`. -/
def find_x : CStr → Option CStr
  | [] => none
  | c :: cs => if c = 'x' then some cs else find_x cs

/-! ## Observable calls -/

/-- The two keyboard-controller clients of `altps2_init`. -/
inductive Ps2 where
  | ps2_mouse
  | ps2_keyboard
deriving DecidableEq, Repr

/-- A call that leaves `main.c`: console output and the functions of the
virtualization library, with the arguments they are given. Handles (machine,
distributor, bus) are natural numbers. -/
inductive Call where
  | print_help
  | rvvm_error (fmt : String) (arg : Option CStr)
  | printf_usage (argv0 : Option CStr)
  | rvvm_set_args (argv : List CStr)
  | rvvm_create_machine (mem_base mem smp : Nat) (rv64 : Bool)
  | rvvm_load_bootrom (machine : Nat) (path : Option CStr)
  | rvvm_load_kernel (machine : Nat) (path : Option CStr)
  | rvvm_load_dtb (machine : Nat) (path : Option CStr)
  | clint_init_auto (machine : Nat)
  | plic_init_auto (machine : Nat)
  | pci_bus_init_auto (machine plic : Nat)
  | ns16550a_init_auto (machine plic : Nat)
  | syscon_init_auto (machine : Nat)
  | rvvm_cmdline_append (machine : Nat) (str : String)
  | nvme_init (pci_bus : Nat) (image : CStr) (rw : Bool)
  | ps2_mouse_create
  | ps2_keyboard_create
  | plic_alloc_irq (plic : Nat)
  | altps2_init (machine base plic irq : Nat) (dev : Ps2)
  | init_fb (machine base fb_x fb_y : Nat)
  | ethoc_init_auto (machine plic : Nat)
  | rtc_goldfish_init_auto (machine plic : Nat)
  | rvvm_dump_dtb (machine : Nat) (path : CStr)
  | rvvm_enable_builtin_eventloop (enabled : Bool)
  | rvvm_start_machine (machine : Nat)
  | rvvm_run_eventloop
  | rvvm_free_machine (machine : Nat)
deriving DecidableEq, Repr

/-! ## `parse_args` -/

/-- How one pass through the body of the `for` loop of `parse_args` ends. -/
inductive Iter where
  /-- The end of the `if` chain is reached: the loop tests `i < argc` again. -/
  | next (i : Nat) (args : vm_args_t)
  /-- The body executes `return false`, after the given output. -/
  | ret_false (out : Call) (args : vm_args_t)
deriving DecidableEq, Repr

/-- The body of the `for` loop of `parse_args` (lines 180-217) at cursor `i`
(the loop runs it only for `i < argc`). `mss` is `mem_suffix_shift` of
`utils.h`. -/
def parse_iter (mss : Char → Nat) (argv : List CStr) (i : Nat) (args : vm_args_t) : Iter :=
  let a := get_arg (argv.getD i []) argv[i + 1]?
  let arg_name := a.arg_name
  let arg_val := a.arg_val
  let argpair := a.argpair
  let i := i + argpair
  if cmp_arg arg_name "dtb".toList then
    .next i { args with dtb := some arg_val }
  else if cmp_arg arg_name "image".toList then
    .next i { args with image := some arg_val }
  else if cmp_arg arg_name "bootrom".toList then
    .next i { args with bootrom := some arg_val }
  else if cmp_arg arg_name "kernel".toList then
    .next i { args with kernel := some arg_val }
  else if cmp_arg arg_name "mem".toList then
    match arg_val.getLast? with
    | none => .next i args
    | some last =>
      .next i { args with mem := shl_size_t (to_size_t (atoi arg_val)) (mss last) }
  else if cmp_arg arg_name "smp".toList then
    .next i { args with smp := to_uint32 (atoi arg_val) }
  else if cmp_arg arg_name "res".toList then
    match find_x arg_val with
    | none =>
      .ret_false (.rvvm_error "Invalid resoulution: %s, expects 640x480" (some arg_val)) args
    | some rest =>
      .next i { args with fb_x := to_uint32 (atoi arg_val), fb_y := to_uint32 (atoi rest) }
  else if cmp_arg arg_name "dumpdtb".toList then
    .next i { args with dumpdtb := some arg_val }
  else if cmp_arg arg_name "rv64".toList then
    .next (if argpair = 2 then i - 1 else i) { args with rv64 := true }
  else if cmp_arg arg_name "nogui".toList then
    .next (if argpair = 2 then i - 1 else i) { args with nogui := true }
  else if cmp_arg arg_name "help".toList
       || cmp_arg arg_name "h".toList
       || cmp_arg arg_name "H".toList then
    .ret_false .print_help args
  else
    .next i args

/-- What `parse_args` leaves behind: its return value, the record behind the
`args` pointer and what it printed. -/
structure Parsed where
  ok : Bool
  args : vm_args_t
  out : List Call
deriving DecidableEq, Repr

/-- The `for` loop of `parse_args` (line 179) from cursor `i`, running at most
`fuel` passes through the body; `none` when the passes run out first. -/
def parse_loop (mss : Char → Nat) (argv : List CStr) :
    Nat → Nat → vm_args_t → Option Parsed
  | 0, i, args =>
    if i < argv.length then none else some { ok := true, args := args, out := [] }
  | fuel + 1, i, args =>
    if i < argv.length then
      match parse_iter mss argv i args with
      | .next i' args' => parse_loop mss argv fuel i' args'
      | .ret_false out args' => some { ok := false, args := args', out := [out] }
    else some { ok := true, args := args, out := [] }

/-- The defaults written by `parse_args` before its loop (lines 173-177). -/
def parse_defaults (args : vm_args_t) : vm_args_t :=
  { args with smp := 1, mem := 256 <<< 20, fb_x := 640, fb_y := 480 }

/-- The function `parse_args` (lines 167-220); `argc` is `argv.length`. The
loop is given `argc` passes, which it never exhausts (`parse_args_total`). -/
def parse_args (mss : Char → Nat) (argv : List CStr) (args : vm_args_t) : Option Parsed :=
  parse_loop mss argv argv.length 1 (parse_defaults args)

/-! ## The virtualization library and the machine bring-up -/

/-- The parts of the build and of the virtualization library that `main.c`
depends on: the compile-time switches, two items of its headers, and the
results of the library calls whose result `main.c` inspects or passes on. -/
structure Lib where
  USE_FB : Bool
  USE_NET : Bool
  USE_RTC : Bool
  RVVM_DEFAULT_MEMBASE : Nat
  mem_suffix_shift : Char → Nat
  /-- The new machine handle, `none` for `NULL`. -/
  rvvm_create_machine : Nat → Nat → Nat → Bool → Option Nat
  rvvm_load_bootrom : Nat → Option CStr → Bool
  rvvm_load_kernel : Nat → Option CStr → Bool
  rvvm_load_dtb : Nat → Option CStr → Bool
  plic_init_auto : Nat → Nat
  pci_bus_init_auto : Nat → Nat → Nat
  nvme_init : Nat → CStr → Bool → Bool
  /-- The line handed out by the distributor at the `k`-th request `main.c`
  makes (`k = 0, 1`). -/
  plic_alloc_irq : Nat → Nat → Nat

/-- The display block of `rvvm_run_with_args` (lines 253-264). -/
def fb_block (lib : Lib) (machine plic : Nat) (args : vm_args_t) : List Call :=
  if lib.USE_FB && !args.nogui then
    [ .ps2_mouse_create,
      .plic_alloc_irq plic,
      .altps2_init machine 0x20000000 plic (lib.plic_alloc_irq plic 0) .ps2_mouse,
      .ps2_keyboard_create,
      .plic_alloc_irq plic,
      .altps2_init machine 0x20001000 plic (lib.plic_alloc_irq plic 1) .ps2_keyboard,
      .init_fb machine 0x30000000 args.fb_x args.fb_y,
      .rvvm_cmdline_append machine "console=tty0" ]
  else []

/-- The end of `rvvm_run_with_args` (lines 267-282). -/
def run_tail (lib : Lib) (machine plic : Nat) (args : vm_args_t) : List Call :=
  (if lib.USE_NET then [Call.ethoc_init_auto machine plic] else [])
  ++ (if lib.USE_RTC then [Call.rtc_goldfish_init_auto machine plic] else [])
  ++ (match args.dumpdtb with
      | some path => [Call.rvvm_dump_dtb machine path]
      | none => [])
  ++ [ .rvvm_enable_builtin_eventloop false,
       .rvvm_start_machine machine,
       .rvvm_run_eventloop,
       .rvvm_free_machine machine ]

/-- The device part of `rvvm_run_with_args` (lines 237-282), once the machine
exists and the boot artifacts are loaded. -/
def attach_devices (lib : Lib) (machine : Nat) (args : vm_args_t) : List Call :=
  let plic := lib.plic_init_auto machine
  let pci_bus := lib.pci_bus_init_auto machine plic
  let t := [ Call.clint_init_auto machine,
             .plic_init_auto machine,
             .pci_bus_init_auto machine plic,
             .ns16550a_init_auto machine plic,
             .syscon_init_auto machine ]
  match args.image with
  | some image =>
    let t := t ++ [ .rvvm_cmdline_append machine "root=/dev/nvme0n1 rootflags=discard rw",
                    .nvme_init pci_bus image true ]
    if !lib.nvme_init pci_bus image true then
      t ++ [.rvvm_error "Unable to open image file %s" (some image)]
    else
      t ++ fb_block lib machine plic args ++ run_tail lib machine plic args
  | none =>
    t ++ fb_block lib machine plic args ++ run_tail lib machine plic args

/-- The function `rvvm_run_with_args` (lines 222-283): the calls it makes, in
order. -/
def rvvm_run_with_args (lib : Lib) (args : vm_args_t) : List Call :=
  let t := [Call.rvvm_create_machine lib.RVVM_DEFAULT_MEMBASE args.mem args.smp args.rv64]
  match lib.rvvm_create_machine lib.RVVM_DEFAULT_MEMBASE args.mem args.smp args.rv64 with
  | none => t ++ [.rvvm_error "Failed to create VM" none]
  | some machine =>
    let t := t ++ [.rvvm_load_bootrom machine args.bootrom]
    if !lib.rvvm_load_bootrom machine args.bootrom then
      t ++ [.rvvm_error "Failed to initialize VM" none]
    else
      let t := t ++ [.rvvm_load_kernel machine args.kernel]
      if !lib.rvvm_load_kernel machine args.kernel then
        t ++ [.rvvm_error "Failed to initialize VM" none]
      else
        let t := t ++ [.rvvm_load_dtb machine args.dtb]
        if !lib.rvvm_load_dtb machine args.dtb then
          t ++ [.rvvm_error "Failed to initialize VM" none]
        else
          t ++ attach_devices lib machine args

/-- The function `rvvm_main` (lines 285-298): the calls it makes, in order
(it always returns 0); `none` only if the loop of `parse_args` ran out of
passes. -/
def rvvm_main (lib : Lib) (argv : List CStr) : Option (List Call) :=
  match parse_args lib.mem_suffix_shift argv vm_args_zero with
  | none => none
  | some p =>
    let t := [Call.rvvm_set_args argv] ++ p.out
    if !p.ok then some t
    else
      match p.args.bootrom with
      | none => some (t ++ [.printf_usage argv.head?])
      | some _ => some (t ++ rvvm_run_with_args lib p.args)

/-- Modelled from the spec: `mem_suffix_shift` of `utils.h`, a header that is
not among the sources. The specification gives the last characters `K`, `M`,
`G` the multipliers 2^10, 2^20, 2^30 and every other last character the
multiplier 1. Used where a concrete run needs a shift function. -/
def mem_suffix_shift_spec (c : Char) : Nat :=
  if c = 'K' then 10 else if c = 'M' then 20 else if c = 'G' then 30 else 0


/-! ## Vocabulary for the statements -/

/-- The branches of the `if` chain of `parse_args` (lines 182-217), `ignored`
standing for the missing final `else`. -/
inductive Handler where
  | dtb | image | bootrom | kernel | mem | smp | res | dumpdtb | rv64 | nogui | help
  | ignored
deriving DecidableEq, Repr

/-- The branch of the `if` chain that a name takes: the conditions of lines
182-214, tested in the order of the source. -/
def branch (arg_name : CStr) : Handler :=
  if cmp_arg arg_name "dtb".toList then .dtb
  else if cmp_arg arg_name "image".toList then .image
  else if cmp_arg arg_name "bootrom".toList then .bootrom
  else if cmp_arg arg_name "kernel".toList then .kernel
  else if cmp_arg arg_name "mem".toList then .mem
  else if cmp_arg arg_name "smp".toList then .smp
  else if cmp_arg arg_name "res".toList then .res
  else if cmp_arg arg_name "dumpdtb".toList then .dumpdtb
  else if cmp_arg arg_name "rv64".toList then .rv64
  else if cmp_arg arg_name "nogui".toList then .nogui
  else if cmp_arg arg_name "help".toList
       || cmp_arg arg_name "h".toList
       || cmp_arg arg_name "H".toList then .help
  else .ignored

/-- The option that `get_arg` reads at cursor `i` of `argv`. -/
def opt_at (argv : List CStr) (i : Nat) : Arg :=
  get_arg (argv.getD i []) argv[i + 1]?

/-- The cursors and records at the head of the loop of `parse_args`, in the
order the loop reaches them: it starts at cursor 1 with the defaults written,
and a pass of the body that does not return leads to the next one. -/
inductive Reach (mss : Char → Nat) (argv : List CStr) (args0 : vm_args_t) :
    Nat → vm_args_t → Prop where
  | start : Reach mss argv args0 1 (parse_defaults args0)
  | step {i i' : Nat} {args args' : vm_args_t} :
      Reach mss argv args0 i args → i < argv.length →
      parse_iter mss argv i args = .next i' args' → Reach mss argv args0 i' args'

/-- The bodies of the branches of the `if` chain, by branch; `i` is the cursor
after `i += argpair`. -/
def run_handler (mss : Char → Nat) (h : Handler) (arg_val : CStr) (argpair i : Nat)
    (args : vm_args_t) : Iter :=
  match h with
  | .dtb => .next i { args with dtb := some arg_val }
  | .image => .next i { args with image := some arg_val }
  | .bootrom => .next i { args with bootrom := some arg_val }
  | .kernel => .next i { args with kernel := some arg_val }
  | .mem =>
    match arg_val.getLast? with
    | none => .next i args
    | some last =>
      .next i { args with mem := shl_size_t (to_size_t (atoi arg_val)) (mss last) }
  | .smp => .next i { args with smp := to_uint32 (atoi arg_val) }
  | .res =>
    match find_x arg_val with
    | none =>
      .ret_false (.rvvm_error "Invalid resoulution: %s, expects 640x480" (some arg_val)) args
    | some rest =>
      .next i { args with fb_x := to_uint32 (atoi arg_val), fb_y := to_uint32 (atoi rest) }
  | .dumpdtb => .next i { args with dumpdtb := some arg_val }
  | .rv64 => .next (if argpair = 2 then i - 1 else i) { args with rv64 := true }
  | .nogui => .next (if argpair = 2 then i - 1 else i) { args with nogui := true }
  | .help => .ret_false .print_help args
  | .ignored => .next i args

/-- The name part of a token that begins with `-`: the text after its one or
two leading dashes (line 77-78). -/
def opt_name (arg0 : CStr) : CStr :=
  arg0.drop (if arg0.tail.head? = some '-' then 2 else 1)

/-- The option at cursor `i` makes `parse_args` return false: it is handled as
`res` and its value has no `x`, or it is handled as `help`/`h`/`H`. -/
def fails_at (argv : List CStr) (i : Nat) : Prop :=
  (branch (opt_at argv i).arg_name = .res ∧ 'x' ∉ (opt_at argv i).arg_val) ∨
    branch (opt_at argv i).arg_name = .help

instance (argv : List CStr) (i : Nat) : Decidable (fails_at argv i) := by
  unfold fails_at
  infer_instance

/-- The calls that create, load, equip, start, run or free a machine: every
call except console output and `rvvm_set_args`. -/
def touches_machine : Call → Bool
  | .print_help => false
  | .rvvm_error _ _ => false
  | .printf_usage _ => false
  | .rvvm_set_args _ => false
  | _ => true

/-- The calls to `rvvm_create_machine`. -/
def is_create : Call → Bool
  | .rvvm_create_machine _ _ _ _ => true
  | _ => false

/-- A build with display, network and clock compiled in and a library in
which every call succeeds, for concrete runs. -/
def lib_all_ok : Lib :=
  { USE_FB := true, USE_NET := true, USE_RTC := true,
    RVVM_DEFAULT_MEMBASE := 0x80000000,
    mem_suffix_shift := mem_suffix_shift_spec,
    rvvm_create_machine := fun _ _ _ _ => some 1,
    rvvm_load_bootrom := fun _ _ => true,
    rvvm_load_kernel := fun _ _ => true,
    rvvm_load_dtb := fun _ _ => true,
    plic_init_auto := fun _ => 2,
    pci_bus_init_auto := fun _ _ => 3,
    nvme_init := fun _ _ _ => true,
    plic_alloc_irq := fun _ k => k + 1 }

/-- The names that the `if` chain of `parse_args` compares with, in its order. -/
def known_names : List CStr :=
  [ "dtb".toList, "image".toList, "bootrom".toList, "kernel".toList, "mem".toList,
    "smp".toList, "res".toList, "dumpdtb".toList, "rv64".toList, "nogui".toList,
    "help".toList, "h".toList, "H".toList ]

/-- The name of an option: the text `arg_name` points to, up to its first `=`
or its end. -/
def name_part (arg_name : CStr) : CStr := arg_name.takeWhile (· ≠ '=')

/-- The options that take a value into a field of the record. -/
def value_options : List Handler :=
  [.dtb, .image, .bootrom, .kernel, .mem, .smp, .res, .dumpdtb]

/-- The option at cursor `i` is an occurrence of the option `X`: the `if`
chain handles it in the branch of `X`. -/
def occurs (argv : List CStr) (i : Nat) (X : Handler) : Prop :=
  branch (opt_at argv i).arg_name = X

/-- The option at cursor `i` is an occurrence of `X` that assigns the field of
`X`: every occurrence does, except a `mem` with an empty value (line 191). -/
def assigns (argv : List CStr) (i : Nat) (X : Handler) : Prop :=
  branch (opt_at argv i).arg_name = X ∧ (X = .mem → (opt_at argv i).arg_val ≠ [])

instance (argv : List CStr) (i : Nat) (X : Handler) : Decidable (occurs argv i X) := by
  unfold occurs
  infer_instance

instance (argv : List CStr) (i : Nat) (X : Handler) : Decidable (assigns argv i X) := by
  unfold assigns
  infer_instance

/-- The memory size that a value of `mem` denotes: its leading integer, shifted
by the unit of its last character; the empty value has no digits and denotes
0, whatever the unit. -/
def mem_value (mss : Char → Nat) (v : CStr) : Nat :=
  shl_size_t (to_size_t (atoi v))
    (match v.getLast? with
     | some last => mss last
     | none => 0)

/-- The field of the option `X` in the record `c` holds what the value `v`
gives it. -/
def field_holds (mss : Char → Nat) : Handler → CStr → vm_args_t → Prop
  | .dtb, v, c => c.dtb = some v
  | .image, v, c => c.image = some v
  | .bootrom, v, c => c.bootrom = some v
  | .kernel, v, c => c.kernel = some v
  | .mem, v, c => c.mem = mem_value mss v
  | .smp, v, c => c.smp = to_uint32 (atoi v)
  | .res, v, c =>
    ∃ rest, find_x v = some rest ∧
      c.fb_x = to_uint32 (atoi v) ∧ c.fb_y = to_uint32 (atoi rest)
  | .dumpdtb, v, c => c.dumpdtb = some v
  | .rv64, _, c => c.rv64 = true
  | .nogui, _, c => c.nogui = true
  | .help, _, _ => True
  | .ignored, _, _ => True

/-- Two records have the same content in the field (for `res`, the two
fields) that the branch `X` writes. -/
def agree : Handler → vm_args_t → vm_args_t → Prop
  | .dtb, a, b => a.dtb = b.dtb
  | .image, a, b => a.image = b.image
  | .bootrom, a, b => a.bootrom = b.bootrom
  | .kernel, a, b => a.kernel = b.kernel
  | .mem, a, b => a.mem = b.mem
  | .smp, a, b => a.smp = b.smp
  | .res, a, b => a.fb_x = b.fb_x ∧ a.fb_y = b.fb_y
  | .dumpdtb, a, b => a.dumpdtb = b.dumpdtb
  | .rv64, a, b => a.rv64 = b.rv64
  | .nogui, a, b => a.nogui = b.nogui
  | .help, _, _ => True
  | .ignored, _, _ => True

/-- The loop of `parse_args` on a token list of its own, from its first
token. -/
def run_from (mss : Char → Nat) (toks : List CStr) (a : vm_args_t) : Option Parsed :=
  parse_loop mss toks toks.length 0 a

/-- The result of a pass of the loop body, seen from `n` tokens further left. -/
def Iter.shift (n : Nat) : Iter → Iter
  | .next i a => .next (n + i) a
  | .ret_false out a => .ret_false out a

/-- A complete option, as a list of one or two tokens: a positional token, a
token `-name=value`, a token without `=` handled as the switch `rv64` or
`nogui` (`-rv64` and `-nogui` are such tokens), or a pair `-name value` whose
value does not begin with `-`. -/
def complete_option (u : List CStr) : Prop :=
  match u with
  | [t] =>
    t.head? ≠ some '-' ∨
    (t.head? = some '-' ∧ '=' ∈ t) ∨
    (t.head? = some '-' ∧ '=' ∉ t ∧
      (branch (opt_name t) = .rv64 ∨ branch (opt_name t) = .nogui))
  | [t, v] => t.head? = some '-' ∧ '=' ∉ t ∧ v.head? ≠ some '-'
  | _ => False

instance (u : List CStr) : Decidable (complete_option u) := by
  unfold complete_option
  split <;> infer_instance

/-- The branches of the `if` chain that the loop runs for an option given as a
list of tokens, each with the value it is run with: the branch of the name;
and, when that branch is a switch and `get_arg` took a second token, the
`bootrom` branch too, for the token that the switch gives back. -/
def option_actions (u : List CStr) : List (Handler × CStr) :=
  match u with
  | [] => []
  | t :: rest =>
    let a := get_arg t rest.head?
    if (branch a.arg_name = .rv64 ∨ branch a.arg_name = .nogui) ∧ a.argpair = 2 then
      [(branch a.arg_name, a.arg_val), (.bootrom, a.arg_val)]
    else [(branch a.arg_name, a.arg_val)]

/-- The body of the branch `hv.1`, run with the value `hv.2`, writes the field
of the branch `X`: it is the branch `X`, which has a field (`help` and the
missing `else` have none), and for `mem` the value is not empty (line 191). -/
def writes (hv : Handler × CStr) (X : Handler) : Prop :=
  hv.1 = X ∧ X ≠ .help ∧ X ≠ .ignored ∧ (X = .mem → hv.2 ≠ [])

instance (hv : Handler × CStr) (X : Handler) : Decidable (writes hv X) := by
  unfold writes
  infer_instance

/-- The option `u` sets the field of the branch `X`: one of the branches that
the loop runs for it writes that field. An option with an unknown name, and a
`mem` option with an empty value, set no field. -/
def option_sets (u : List CStr) (X : Handler) : Prop :=
  ∃ hv ∈ option_actions u, writes hv X

instance (u : List CStr) (X : Handler) : Decidable (option_sets u X) := by
  unfold option_sets
  infer_instance

/-- The record after the body of a branch, `none` when the body returns false. -/
def apply_branch (mss : Char → Nat) (hv : Handler × CStr) (a : vm_args_t) : Option vm_args_t :=
  match run_handler mss hv.1 hv.2 1 1 a with
  | .next _ a' => some a'
  | .ret_false _ _ => none

/-- The record after the bodies of a list of branches, run in order. -/
def apply_all (mss : Char → Nat) : List (Handler × CStr) → vm_args_t → Option vm_args_t
  | [], a => some a
  | hv :: l, a =>
    match apply_branch mss hv a with
    | some a' => apply_all mss l a'
    | none => none

/-- The machine handle with which `rvvm_run_with_args` reaches its device part
(line 237): the machine was created and the three boot artifacts loaded;
`none` when one of these four calls failed. -/
def boot_ok (lib : Lib) (args : vm_args_t) : Option Nat :=
  match lib.rvvm_create_machine lib.RVVM_DEFAULT_MEMBASE args.mem args.smp args.rv64 with
  | none => none
  | some machine =>
    if lib.rvvm_load_bootrom machine args.bootrom && lib.rvvm_load_kernel machine args.kernel
        && lib.rvvm_load_dtb machine args.dtb then some machine
    else none

/-- The calls of the creation and loading part of `rvvm_run_with_args` (lines
224-235) and its error reports. -/
def boot_call : Call → Bool
  | .rvvm_create_machine _ _ _ _ => true
  | .rvvm_load_bootrom _ _ => true
  | .rvvm_load_kernel _ _ => true
  | .rvvm_load_dtb _ _ => true
  | .rvvm_error _ _ => true
  | _ => false

/-- The calls that `rvvm_run_with_args` makes after its storage step (lines
252-282): the display chain with its command-line entry, the network adapter,
the clock, the device-tree dump, the start, the event loop and the release of
the machine. -/
def after_storage : Call → Bool
  | .ps2_mouse_create => true
  | .ps2_keyboard_create => true
  | .plic_alloc_irq _ => true
  | .altps2_init _ _ _ _ _ => true
  | .init_fb _ _ _ _ => true
  | .rvvm_cmdline_append _ str => decide (str = "console=tty0")
  | .ethoc_init_auto _ _ => true
  | .rtc_goldfish_init_auto _ _ => true
  | .rvvm_dump_dtb _ _ => true
  | .rvvm_enable_builtin_eventloop _ => true
  | .rvvm_start_machine _ => true
  | .rvvm_run_eventloop => true
  | .rvvm_free_machine _ => true
  | _ => false

/-- A library in which every call succeeds, except that the storage controller
cannot open its image. -/
def lib_nvme_fails : Lib := { lib_all_ok with nvme_init := fun _ _ _ => false }

/-- The record that `parse_args` gives for
`rvvm -mem 128M -smp 2 -image disk.img boot.bin`. -/
def args_with_image : vm_args_t :=
  { parse_defaults vm_args_zero with
    mem := 128 * 2 ^ 20, smp := 2, image := some "disk.img".toList,
    bootrom := some "boot.bin".toList }

/-- The strings appended to the boot command-line buffer by a list of calls,
in order. -/
def cmdline_appends (t : List Call) : List String :=
  t.filterMap (fun c =>
    match c with
    | .rvvm_cmdline_append _ str => some str
    | _ => none)

/-- The storage step lets `rvvm_run_with_args` go on (lines 244-250): no image
is configured, or `nvme_init` succeeds on it. -/
def storage_ok (lib : Lib) (m : Nat) (args : vm_args_t) : Bool :=
  match args.image with
  | some image => lib.nvme_init (lib.pci_bus_init_auto m (lib.plic_init_auto m)) image true
  | none => true

/-- The requests for an interrupt line and the calls that are given one. -/
def irq_calls (t : List Call) : List Call :=
  t.filter (fun c =>
    match c with
    | .plic_alloc_irq _ => true
    | .altps2_init _ _ _ _ _ => true
    | _ => false)

/-- The field of the branch `X` has its initial content: the default that
`parse_args` writes for mem, smp and the display size, and the zero of
`vm_args_t args = {0}` for the paths and flags. -/
def field_default : Handler → vm_args_t → Prop
  | .dtb, c => c.dtb = none
  | .image, c => c.image = none
  | .bootrom, c => c.bootrom = none
  | .kernel, c => c.kernel = none
  | .mem, c => c.mem = 256 * 2 ^ 20
  | .smp, c => c.smp = 1
  | .res, c => c.fb_x = 640 ∧ c.fb_y = 480
  | .dumpdtb, c => c.dumpdtb = none
  | .rv64, c => c.rv64 = false
  | .nogui, c => c.nogui = false
  | .help, _ => True
  | .ignored, _ => True

/-- The loop of `cmp_arg` (lines 105-107) with the positions of `name` that it
reads: the result, and the indices read, in order. `name` is the text from
index `i` on, its end being the terminator. -/
def cmp_arg_traced : CStr → CStr → Nat → Bool × List Nat
  | [], _, _ => (true, [])
  | c :: cs, name, i =>
    if c = '=' then (true, [])
    else
      match name with
      | [] => (false, [i])
      | n :: ns =>
        if c ≠ n then (false, [i])
        else ((cmp_arg_traced cs ns (i + 1)).1, i :: (cmp_arg_traced cs ns (i + 1)).2)

/-- The names of the `if` chain of `parse_args`, in its order, each with the
branch whose body follows it. -/
def dispatch_table : List (CStr × Handler) :=
  [ ("dtb".toList, .dtb), ("image".toList, .image), ("bootrom".toList, .bootrom),
    ("kernel".toList, .kernel), ("mem".toList, .mem), ("smp".toList, .smp),
    ("res".toList, .res), ("dumpdtb".toList, .dumpdtb), ("rv64".toList, .rv64),
    ("nogui".toList, .nogui), ("help".toList, .help), ("h".toList, .help),
    ("H".toList, .help) ]

/-- The branch of the first name of the dispatch table of which the name part
of `arg_name` is a prefix; `ignored` when there is none. -/
def first_match (arg_name : CStr) : Handler :=
  match dispatch_table.find? (fun e => decide (name_part arg_name <+: e.1)) with
  | some e => e.2
  | none => .ignored

/-- The steps of the life of a machine. -/
inductive Step where
  | create | load_bootrom | load_kernel | load_dtb | attach | dump | start | run | free
deriving DecidableEq, Repr

/-- The step that a call belongs to: the device constructors, the requests for
interrupt lines and the command-line entries all belong to the attach step;
console output and `rvvm_enable_builtin_eventloop` belong to none. -/
def step_of : Call → Option Step
  | .rvvm_create_machine _ _ _ _ => some .create
  | .rvvm_load_bootrom _ _ => some .load_bootrom
  | .rvvm_load_kernel _ _ => some .load_kernel
  | .rvvm_load_dtb _ _ => some .load_dtb
  | .clint_init_auto _ => some .attach
  | .plic_init_auto _ => some .attach
  | .pci_bus_init_auto _ _ => some .attach
  | .ns16550a_init_auto _ _ => some .attach
  | .syscon_init_auto _ => some .attach
  | .rvvm_cmdline_append _ _ => some .attach
  | .nvme_init _ _ _ => some .attach
  | .ps2_mouse_create => some .attach
  | .ps2_keyboard_create => some .attach
  | .plic_alloc_irq _ => some .attach
  | .altps2_init _ _ _ _ _ => some .attach
  | .init_fb _ _ _ _ => some .attach
  | .ethoc_init_auto _ _ => some .attach
  | .rtc_goldfish_init_auto _ _ => some .attach
  | .rvvm_dump_dtb _ _ => some .dump
  | .rvvm_start_machine _ => some .start
  | .rvvm_run_eventloop => some .run
  | .rvvm_free_machine _ => some .free
  | .print_help => none
  | .rvvm_error _ _ => none
  | .printf_usage _ => none
  | .rvvm_set_args _ => none
  | .rvvm_enable_builtin_eventloop _ => none

/-- A list of steps in which every run of consecutive `attach` is one `attach`;
the other steps are kept as they are, repeated or not. -/
def merge_attach : List Step → List Step
  | [] => []
  | s :: l =>
    if s = .attach ∧ l.head? = some .attach then merge_attach l
    else s :: merge_attach l

/-- The steps of a list of calls, in order. -/
def steps (t : List Call) : List Step := merge_attach (t.filterMap step_of)

/-- The full life of a machine, with or without the device-tree dump. -/
def lifecycle (dump : Bool) : List Step :=
  [.create, .load_bootrom, .load_kernel, .load_dtb, .attach]
  ++ (if dump then [.dump] else []) ++ [.start, .run, .free]

/-- The calls to `rvvm_free_machine`. -/
def is_free : Call → Bool
  | .rvvm_free_machine _ => true
  | _ => false

/-- The calls that construct a device. -/
def is_constructor : Call → Bool
  | .clint_init_auto _ => true
  | .plic_init_auto _ => true
  | .pci_bus_init_auto _ _ => true
  | .ns16550a_init_auto _ _ => true
  | .syscon_init_auto _ => true
  | .nvme_init _ _ _ => true
  | .ps2_mouse_create => true
  | .ps2_keyboard_create => true
  | .altps2_init _ _ _ _ _ => true
  | .init_fb _ _ _ _ => true
  | .ethoc_init_auto _ _ => true
  | .rtc_goldfish_init_auto _ _ => true
  | _ => false

/-- The fixed order of the device constructors as the specification gives it
(section 4.2): core-local timer unit, interrupt distributor, bus controller,
serial console, system controller; the storage controller when an image is
configured; pointer, keyboard and framebuffer when the display is enabled;
network adapter and real-time clock when compiled in. The distributor and bus
handles passed on are those that the library returned for machine `m`. -/
def device_order (lib : Lib) (m : Nat) (args : vm_args_t) : List Call :=
  [ .clint_init_auto m, .plic_init_auto m,
    .pci_bus_init_auto m (lib.plic_init_auto m),
    .ns16550a_init_auto m (lib.plic_init_auto m), .syscon_init_auto m ]
  ++ (match args.image with
      | some image =>
        [.nvme_init (lib.pci_bus_init_auto m (lib.plic_init_auto m)) image true]
      | none => [])
  ++ (if (lib.USE_FB && !args.nogui) = true then
        [ .ps2_mouse_create,
          .altps2_init m 0x20000000 (lib.plic_init_auto m)
            (lib.plic_alloc_irq (lib.plic_init_auto m) 0) .ps2_mouse,
          .ps2_keyboard_create,
          .altps2_init m 0x20001000 (lib.plic_init_auto m)
            (lib.plic_alloc_irq (lib.plic_init_auto m) 1) .ps2_keyboard,
          .init_fb m 0x30000000 args.fb_x args.fb_y ]
      else [])
  ++ (if lib.USE_NET = true then [.ethoc_init_auto m (lib.plic_init_auto m)] else [])
  ++ (if lib.USE_RTC = true then [.rtc_goldfish_init_auto m (lib.plic_init_auto m)] else [])

/-- The distributor handle that a call is given, if any. -/
def uses_plic : Call → Option Nat
  | .pci_bus_init_auto _ plic => some plic
  | .ns16550a_init_auto _ plic => some plic
  | .plic_alloc_irq plic => some plic
  | .altps2_init _ _ plic _ _ => some plic
  | .ethoc_init_auto _ plic => some plic
  | .rtc_goldfish_init_auto _ plic => some plic
  | _ => none

/-- The bus handle that a call is given, if any. -/
def uses_bus : Call → Option Nat
  | .nvme_init pci_bus _ _ => some pci_bus
  | _ => none

/-- The names of the options that take a value. -/
def value_names : List CStr :=
  [ "dtb".toList, "image".toList, "bootrom".toList, "kernel".toList, "mem".toList,
    "smp".toList, "res".toList, "dumpdtb".toList ]

/-- The option at cursor `i` is named `res` and its value has no `x`, or it is
named `help`, `h` or `H`: the name, up to its first `=`, is exactly that. -/
def named_fails_at (argv : List CStr) (i : Nat) : Prop :=
  (name_part (opt_at argv i).arg_name = "res".toList ∧ 'x' ∉ (opt_at argv i).arg_val) ∨
    name_part (opt_at argv i).arg_name ∈ ["help".toList, "h".toList, "H".toList]

instance (argv : List CStr) (i : Nat) : Decidable (named_fails_at argv i) := by
  unfold named_fails_at
  infer_instance

/-- The names for which the `if` chain runs the body of `res`: the nonempty
prefixes of `res`, none of which is a prefix of a name tested before it. -/
def res_names : List CStr := ["r".toList, "re".toList, "res".toList]

/-- The names for which the `if` chain runs the body of `help`, `h`, `H`: the
nonempty prefixes of `help` (`h` among them) and `H`, none of which is a prefix
of a name tested before. -/
def help_names : List CStr :=
  ["h".toList, "he".toList, "hel".toList, "help".toList, "H".toList]

/-- The argument list of a command line given as strings. -/
def cmdline (l : List String) : List CStr := l.map String.toList

/-! ## Basic facts about `get_arg`, `cmp_arg` and the loop -/

theorem find_eq_append (pre v : CStr) (h : '=' ∉ pre) :
    find_eq (pre ++ '=' :: v) = some v := by
  induction pre with
  | nil => simp [find_eq]
  | cons c cs ih =>
    have hc : c ≠ '=' := fun e => h (by simp [e])
    have hcs : '=' ∉ cs := fun e => h (by simp [e])
    simp [find_eq, hc, ih hcs]

theorem find_eq_none (s : CStr) (h : '=' ∉ s) : find_eq s = none := by
  induction s with
  | nil => rfl
  | cons c cs ih =>
    have hc : c ≠ '=' := fun e => h (by simp [e])
    have hcs : '=' ∉ cs := fun e => h (by simp [e])
    simp [find_eq, hc, ih hcs]

theorem find_eq_some_mem (s v : CStr) (h : find_eq s = some v) : '=' ∈ s := by
  by_contra hn
  rw [find_eq_none s hn] at h
  cases h

theorem get_arg_argpair (arg0 : CStr) (arg1 : Option CStr) :
    (get_arg arg0 arg1).argpair = 1 ∨
      ((get_arg arg0 arg1).argpair = 2 ∧ ∃ a1, arg1 = some a1) := by
  unfold get_arg
  split
  · dsimp only
    split
    · exact Or.inl rfl
    · split
      · exact Or.inl rfl
      · split
        · exact Or.inl rfl
        · exact Or.inr ⟨rfl, _, rfl⟩
  · exact Or.inl rfl

/-- The body of the loop is the body of the branch that the name takes. -/
theorem parse_iter_eq (mss : Char → Nat) (argv : List CStr) (i : Nat) (args : vm_args_t) :
    parse_iter mss argv i args =
      run_handler mss (branch (opt_at argv i).arg_name) (opt_at argv i).arg_val
        (opt_at argv i).argpair (i + (opt_at argv i).argpair) args := by
  unfold parse_iter branch opt_at
  generalize get_arg (argv.getD i []) argv[i + 1]? = a
  dsimp only
  by_cases h0 : cmp_arg a.arg_name "dtb".toList = true
  · rw [if_pos h0, if_pos h0]; rfl
  rw [if_neg h0, if_neg h0]
  by_cases h1 : cmp_arg a.arg_name "image".toList = true
  · rw [if_pos h1, if_pos h1]; rfl
  rw [if_neg h1, if_neg h1]
  by_cases h2 : cmp_arg a.arg_name "bootrom".toList = true
  · rw [if_pos h2, if_pos h2]; rfl
  rw [if_neg h2, if_neg h2]
  by_cases h3 : cmp_arg a.arg_name "kernel".toList = true
  · rw [if_pos h3, if_pos h3]; rfl
  rw [if_neg h3, if_neg h3]
  by_cases h4 : cmp_arg a.arg_name "mem".toList = true
  · rw [if_pos h4, if_pos h4]; rfl
  rw [if_neg h4, if_neg h4]
  by_cases h5 : cmp_arg a.arg_name "smp".toList = true
  · rw [if_pos h5, if_pos h5]; rfl
  rw [if_neg h5, if_neg h5]
  by_cases h6 : cmp_arg a.arg_name "res".toList = true
  · rw [if_pos h6, if_pos h6]; rfl
  rw [if_neg h6, if_neg h6]
  by_cases h7 : cmp_arg a.arg_name "dumpdtb".toList = true
  · rw [if_pos h7, if_pos h7]; rfl
  rw [if_neg h7, if_neg h7]
  by_cases h8 : cmp_arg a.arg_name "rv64".toList = true
  · rw [if_pos h8, if_pos h8]; rfl
  rw [if_neg h8, if_neg h8]
  by_cases h9 : cmp_arg a.arg_name "nogui".toList = true
  · rw [if_pos h9, if_pos h9]; rfl
  rw [if_neg h9, if_neg h9]
  by_cases hh : (cmp_arg a.arg_name "help".toList || cmp_arg a.arg_name "h".toList
      || cmp_arg a.arg_name "H".toList) = true
  · rw [if_pos hh, if_pos hh]; rfl
  rw [if_neg hh, if_neg hh]; rfl

theorem run_handler_cursor (mss : Char → Nat) (h : Handler) (v : CStr) (p j : Nat)
    (a a' : vm_args_t) (i' : Nat) (hr : run_handler mss h v p j a = .next i' a') :
    i' = j ∨ (p = 2 ∧ i' = j - 1) := by
  cases h <;> simp only [run_handler] at hr
  case mem =>
    split at hr <;> (injection hr with h1 h2; exact Or.inl h1.symm)
  case res =>
    split at hr
    · cases hr
    · injection hr with h1 h2; exact Or.inl h1.symm
  case rv64 =>
    injection hr with h1 h2
    by_cases hp : p = 2
    · rw [if_pos hp] at h1; exact Or.inr ⟨hp, h1.symm⟩
    · rw [if_neg hp] at h1; exact Or.inl h1.symm
  case nogui =>
    injection hr with h1 h2
    by_cases hp : p = 2
    · rw [if_pos hp] at h1; exact Or.inr ⟨hp, h1.symm⟩
    · rw [if_neg hp] at h1; exact Or.inl h1.symm
  case help => cases hr
  all_goals (injection hr with h1 h2; exact Or.inl h1.symm)

theorem opt_at_argpair (argv : List CStr) (i : Nat) :
    (opt_at argv i).argpair = 1 ∨ ((opt_at argv i).argpair = 2 ∧ i + 2 ≤ argv.length) := by
  rcases get_arg_argpair (argv.getD i []) argv[i + 1]? with h | ⟨h, a1, ha1⟩
  · exact Or.inl h
  · refine Or.inr ⟨h, ?_⟩
    have : i + 1 < argv.length := by
      by_contra hn
      rw [List.getElem?_eq_none (by omega)] at ha1
      cases ha1
    omega

/-- A pass of the loop body that does not return moves the cursor forward by
one or two tokens and never beyond `argc`. -/
theorem parse_iter_cursor (mss : Char → Nat) (argv : List CStr) (i i' : Nat)
    (a a' : vm_args_t) (hi : i < argv.length)
    (h : parse_iter mss argv i a = .next i' a') :
    i < i' ∧ i' ≤ i + 2 ∧ i' ≤ argv.length := by
  rw [parse_iter_eq] at h
  have hc := run_handler_cursor _ _ _ _ _ _ _ _ h
  rcases opt_at_argpair argv i with h1 | ⟨h2, hlen⟩
  · rw [h1] at hc
    rcases hc with hc | ⟨hc, _⟩
    · omega
    · omega
  · rw [h2] at hc
    rcases hc with hc | ⟨_, hc⟩ <;> omega

theorem parse_loop_done (mss : Char → Nat) (argv : List CStr) (fuel i : Nat) (a : vm_args_t)
    (hi : argv.length ≤ i) :
    parse_loop mss argv fuel i a = some { ok := true, args := a, out := [] } := by
  have hi' : ¬ i < argv.length := by omega
  cases fuel <;> simp only [parse_loop, if_neg hi']

theorem parse_loop_succ (mss : Char → Nat) (argv : List CStr) (fuel i : Nat) (a : vm_args_t) :
    parse_loop mss argv (fuel + 1) i a =
      if i < argv.length then
        match parse_iter mss argv i a with
        | .next i' args' => parse_loop mss argv fuel i' args'
        | .ret_false out args' => some { ok := false, args := args', out := [out] }
      else some { ok := true, args := a, out := [] } := rfl

/-- With enough passes the loop returns, and its result does not depend on how
many passes it was given. -/
theorem parse_loop_fuel (mss : Char → Nat) (argv : List CStr) :
    ∀ (fuel i : Nat) (a : vm_args_t), argv.length ≤ i + fuel →
      (∃ p, parse_loop mss argv fuel i a = some p) ∧
      ∀ fuel', argv.length ≤ i + fuel' →
        parse_loop mss argv fuel' i a = parse_loop mss argv fuel i a := by
  intro fuel
  induction fuel with
  | zero =>
    intro i a h
    have hi : argv.length ≤ i := by omega
    refine ⟨⟨_, parse_loop_done mss argv 0 i a hi⟩, ?_⟩
    intro fuel' _
    rw [parse_loop_done mss argv 0 i a hi, parse_loop_done mss argv fuel' i a hi]
  | succ n ih =>
    intro i a h
    by_cases hi : i < argv.length
    · simp only [parse_loop, if_pos hi]
      cases hit : parse_iter mss argv i a with
      | next i' a' =>
        have hc := parse_iter_cursor mss argv i i' a a' hi hit
        have hn : argv.length ≤ i' + n := by omega
        refine ⟨(ih i' a' hn).1, ?_⟩
        intro fuel' hf
        cases fuel' with
        | zero => omega
        | succ m =>
          simp only [parse_loop, if_pos hi, hit]
          exact (ih i' a' hn).2 m (by omega)
      | ret_false out a' =>
        refine ⟨⟨_, rfl⟩, ?_⟩
        intro fuel' hf
        cases fuel' with
        | zero => omega
        | succ m => simp only [parse_loop, if_pos hi, hit]
    · have hi' : argv.length ≤ i := by omega
      refine ⟨⟨_, parse_loop_done mss argv _ i a hi'⟩, ?_⟩
      intro fuel' _
      rw [parse_loop_done mss argv (n + 1) i a hi', parse_loop_done mss argv fuel' i a hi']

/-- The loop, given `argc` passes, at a cursor below `argc`: one pass of the
body, then the loop again. -/
theorem parse_loop_step (mss : Char → Nat) (argv : List CStr) (i : Nat) (a : vm_args_t)
    (hi : i < argv.length) :
    parse_loop mss argv argv.length i a =
      match parse_iter mss argv i a with
      | .next i' a' => parse_loop mss argv argv.length i' a'
      | .ret_false out a' => some { ok := false, args := a', out := [out] } := by
  obtain ⟨n, hn⟩ : ∃ n, argv.length = n + 1 := ⟨argv.length - 1, by omega⟩
  have e : parse_loop mss argv argv.length i a = parse_loop mss argv (n + 1) i a := by
    rw [hn]
  rw [e, parse_loop_succ, if_pos hi]
  cases hit : parse_iter mss argv i a with
  | next i' a' =>
    have hc := parse_iter_cursor mss argv i i' a a' hi hit
    exact ((parse_loop_fuel mss argv argv.length i' a' (by omega)).2 n (by omega))
  | ret_false out a' => rfl

/-- The function `parse_args` always returns: the loop never uses up the `argc`
passes it is given. -/
theorem parse_args_total (mss : Char → Nat) (argv : List CStr) (args : vm_args_t) :
    ∃ p, parse_args mss argv args = some p := by
  cases argv with
  | nil => exact ⟨_, rfl⟩
  | cons x xs =>
    exact (parse_loop_fuel mss (x :: xs) (x :: xs).length 1 (parse_defaults args)
      (by simp)).1

/-- From every cursor and record the loop reaches, the rest of the loop gives
the result of `parse_args`. -/
theorem parse_args_of_reach (mss : Char → Nat) (argv : List CStr) (args0 : vm_args_t)
    (i : Nat) (a : vm_args_t) (h : Reach mss argv args0 i a) :
    1 ≤ i ∧ parse_args mss argv args0 = parse_loop mss argv argv.length i a := by
  induction h with
  | start => exact ⟨le_refl _, rfl⟩
  | step hr hi hit ih =>
    rename_i i i' a a'
    have hc := parse_iter_cursor mss argv i i' a a' hi hit
    refine ⟨by omega, ?_⟩
    rw [ih.2, parse_loop_step mss argv i a hi, hit]

/-! ## The four shapes of an option -/

theorem get_arg_positional (arg0 : CStr) (arg1 : Option CStr) (h : arg0.head? ≠ some '-') :
    get_arg arg0 arg1 = { argpair := 1, arg_name := "bootrom".toList, arg_val := arg0 } := by
  unfold get_arg
  rw [if_neg h]

theorem get_arg_with_eq (arg0 v : CStr) (arg1 : Option CStr) (h : arg0.head? = some '-')
    (he : find_eq (opt_name arg0) = some v) :
    get_arg arg0 arg1 = { argpair := 1, arg_name := opt_name arg0, arg_val := v } := by
  unfold get_arg
  rw [if_pos h]
  unfold opt_name at he ⊢
  simp only [he]

theorem get_arg_bare (arg0 : CStr) (arg1 : Option CStr) (h : arg0.head? = some '-')
    (he : find_eq (opt_name arg0) = none)
    (h1 : ∀ n, arg1 = some n → n.head? = some '-') :
    get_arg arg0 arg1 = { argpair := 1, arg_name := opt_name arg0, arg_val := [] } := by
  unfold get_arg
  rw [if_pos h]
  unfold opt_name at he ⊢
  simp only [he]
  cases arg1 with
  | none => rfl
  | some n => simp only [h1 n rfl, if_true]

theorem get_arg_pair (arg0 n : CStr) (h : arg0.head? = some '-')
    (he : find_eq (opt_name arg0) = none) (h1 : n.head? ≠ some '-') :
    get_arg arg0 (some n) = { argpair := 2, arg_name := opt_name arg0, arg_val := n } := by
  unfold get_arg
  rw [if_pos h]
  unfold opt_name at he ⊢
  simp only [he, if_neg h1]

theorem get_arg_name (arg0 : CStr) (arg1 : Option CStr) (h : arg0.head? = some '-') :
    (get_arg arg0 arg1).arg_name = opt_name arg0 := by
  cases he : find_eq (opt_name arg0) with
  | some v => rw [get_arg_with_eq arg0 v arg1 h he]
  | none =>
    cases arg1 with
    | none => rw [get_arg_bare arg0 none h he (fun n hn => by cases hn)]
    | some n =>
      by_cases h1 : n.head? = some '-'
      · rw [get_arg_bare arg0 (some n) h he (fun m hm => by cases hm; exact h1)]
      · rw [get_arg_pair arg0 n h he h1]

theorem getD_of_getElem? (argv : List CStr) (i : Nat) (t : CStr) (h : argv[i]? = some t) :
    argv.getD i [] = t := by
  rw [List.getD_eq_getElem?_getD, h]
  rfl

/-- A pass of the body at a token handled as `rv64` or `nogui` that has no `=`
moves the cursor by exactly one token. -/
theorem switch_cursor (argv : List CStr) (i : Nat) (t : CStr)
    (ht : argv[i]? = some t) (h : t.head? = some '-') (he : find_eq (opt_name t) = none) :
    (opt_at argv i).arg_name = opt_name t ∧
    (if (opt_at argv i).argpair = 2 then i + (opt_at argv i).argpair - 1
      else i + (opt_at argv i).argpair) = i + 1 := by
  unfold opt_at
  rw [getD_of_getElem? argv i t ht]
  cases h1 : argv[i + 1]? with
  | none => rw [get_arg_bare t none h he (fun n hn => by cases hn)]; exact ⟨rfl, rfl⟩
  | some n =>
    by_cases hn : n.head? = some '-'
    · rw [get_arg_bare t (some n) h he (fun m hm => by cases hm; exact hn)]; exact ⟨rfl, rfl⟩
    · rw [get_arg_pair t n h he hn]; exact ⟨rfl, rfl⟩

/-! ## Decimal numerals and `atoi` -/

theorem digitChar_isdigit : ∀ d, d < 10 →
    (isdigit (Nat.digitChar d) = true ∧ (Nat.digitChar d).toNat - 48 = d) := by decide

theorem isdigit_not_special (c : Char) (h : isdigit c = true) :
    isspace c = false ∧ c ≠ '-' ∧ c ≠ '+' ∧ c ≠ 'x' ∧ c ≠ '=' := by
  have h' : 48 ≤ c.toNat ∧ c.toNat ≤ 57 := by simpa [isdigit] using h
  have key : ∀ d : Char, (d.toNat < 48 ∨ 57 < d.toNat) → c ≠ d := by
    intro d hd e; subst e; omega
  refine ⟨?_, key _ (by decide), key _ (by decide), key _ (by decide), key _ (by decide)⟩
  simp only [isspace, Bool.or_eq_false_iff, decide_eq_false_iff_not]
  exact ⟨⟨⟨⟨⟨key _ (by decide), key _ (by decide)⟩, key _ (by decide)⟩, key _ (by decide)⟩,
    key _ (by decide)⟩, key _ (by decide)⟩

theorem atoi_digits_stop (acc : Nat) (rest : CStr)
    (h : ∀ c, rest.head? = some c → isdigit c = false) : atoi_digits acc rest = acc := by
  cases rest with
  | nil => rfl
  | cons c cs => simp [atoi_digits, h c rfl]

theorem toDigitsCore_atoi : ∀ (fuel n : Nat) (ds : CStr), n < fuel →
    ∃ pre : CStr, pre ≠ [] ∧ Nat.toDigitsCore 10 fuel n ds = pre ++ ds ∧
      (∀ d ∈ pre, isdigit d = true) ∧
      ∀ (acc : Nat) (rest : CStr),
        atoi_digits acc (pre ++ rest) = atoi_digits (acc * 10 ^ pre.length + n) rest := by
  intro fuel
  induction fuel with
  | zero => intro n ds h; omega
  | succ f ih =>
    intro n ds h
    have hd := digitChar_isdigit (n % 10) (Nat.mod_lt _ (by decide))
    by_cases h0 : n / 10 = 0
    · refine ⟨[Nat.digitChar (n % 10)], by simp, ?_, ?_, ?_⟩
      · simp [Nat.toDigitsCore, h0]
      · intro d hd'; simp at hd'; rw [hd']; exact hd.1
      · intro acc rest
        have hn : n % 10 = n := Nat.mod_eq_of_lt (by omega)
        rw [hn] at hd
        simp [atoi_digits, hd.1, hd.2, hn]
    · have hlt : n / 10 < f := by omega
      obtain ⟨pre, hne, he, hall, hval⟩ := ih (n / 10) (Nat.digitChar (n % 10) :: ds) hlt
      refine ⟨pre ++ [Nat.digitChar (n % 10)], by simp, ?_, ?_, ?_⟩
      · simp [Nat.toDigitsCore, h0, he]
      · intro d hd'
        rcases List.mem_append.mp hd' with h1 | h1
        · exact hall d h1
        · simp at h1; rw [h1]; exact hd.1
      · intro acc rest
        rw [List.append_assoc, hval]
        simp only [List.singleton_append, atoi_digits, hd.1, hd.2, if_true, List.length_append,
          List.length_singleton]
        congr 1
        have := Nat.div_add_mod n 10
        rw [pow_succ]
        nlinarith [this]

/-- `atoi` reads back a decimal numeral that is followed by no further digit. -/
theorem atoi_toDigits (n : Nat) (rest : CStr)
    (h : ∀ c, rest.head? = some c → isdigit c = false) :
    atoi (Nat.toDigits 10 n ++ rest) = (n : Int) := by
  obtain ⟨pre, hne, he, hall, hval⟩ := toDigitsCore_atoi (n + 1) n [] (Nat.lt_succ_self n)
  have e : Nat.toDigits 10 n = pre := by
    unfold Nat.toDigits; rw [he]; simp
  rw [e]
  cases pre with
  | nil => exact absurd rfl hne
  | cons c cs =>
    have hc := isdigit_not_special c (hall c (by simp))
    have hv := hval 0 rest
    rw [atoi_digits_stop _ rest h] at hv
    unfold atoi
    simp only [List.cons_append, List.dropWhile_cons, hc.1] 
    split
    · rename_i heq; injection heq with h1 h2; exact absurd h1 hc.2.1
    · rename_i heq; injection heq with h1 h2; exact absurd h1 hc.2.2.1
    · simp only [List.cons_append] at hv
      simp at hv ⊢
      exact_mod_cast hv

theorem toDigits_digits (n : Nat) :
    ∃ (c : Char) (cs : CStr), Nat.toDigits 10 n = c :: cs ∧ ∀ d ∈ c :: cs, isdigit d = true := by
  obtain ⟨pre, hne, he, hall, _⟩ := toDigitsCore_atoi (n + 1) n [] (Nat.lt_succ_self n)
  have e : Nat.toDigits 10 n = pre := by
    unfold Nat.toDigits; rw [he]; simp
  cases pre with
  | nil => exact absurd rfl hne
  | cons c cs => exact ⟨c, cs, e, hall⟩

theorem to_size_t_natCast (n : Nat) (h : n < 2 ^ 64) : to_size_t (n : Int) = n := by
  unfold to_size_t
  rw [Int.emod_eq_of_lt (by positivity) (by exact_mod_cast h)]
  simp

theorem to_uint32_natCast (n : Nat) (h : n < 2 ^ 32) : to_uint32 (n : Int) = n := by
  unfold to_uint32
  rw [Int.emod_eq_of_lt (by positivity) (by exact_mod_cast h)]
  simp

theorem find_x_append (pre rest : CStr) (h : 'x' ∉ pre) :
    find_x (pre ++ 'x' :: rest) = some rest := by
  induction pre with
  | nil => simp [find_x]
  | cons c cs ih =>
    have hc : c ≠ 'x' := fun e => h (by simp [e])
    have hcs : 'x' ∉ cs := fun e => h (by simp [e])
    simp [find_x, hc, ih hcs]

theorem find_x_none (s : CStr) (h : 'x' ∉ s) : find_x s = none := by
  induction s with
  | nil => rfl
  | cons c cs ih =>
    have hc : c ≠ 'x' := fun e => h (by simp [e])
    have hcs : 'x' ∉ cs := fun e => h (by simp [e])
    simp [find_x, hc, ih hcs]

/-! ## Names with a value attached -/

theorem cmp_arg_append_eq (pre v : CStr) (h : '=' ∉ pre) :
    ∀ name : CStr, cmp_arg (pre ++ '=' :: v) name = cmp_arg pre name := by
  induction pre with
  | nil => intro name; simp [cmp_arg]
  | cons c cs ih =>
    intro name
    have hc : c ≠ '=' := fun e => h (by simp [e])
    have hcs : '=' ∉ cs := fun e => h (by simp [e])
    cases name with
    | nil => simp [cmp_arg, hc]
    | cons n ns => simp [cmp_arg, hc, ih hcs ns]

theorem branch_append_eq (pre v : CStr) (h : '=' ∉ pre) :
    branch (pre ++ '=' :: v) = branch pre := by
  unfold branch
  simp only [cmp_arg_append_eq pre v h]

/-! ## C1: the option grammar of `get_arg` -/

/-- C1: `get_arg` implements the option grammar. For a token beginning with
`-` the name starts after one dash, or after two when the second character is
also `-`; when the name contains `=`, the value is the text after the first
`=` and one token is consumed; otherwise a next token that exists and does not
begin with `-` is the value and two tokens are consumed; otherwise the value
is empty and one token is consumed. A token not beginning with `-` gives the
name `bootrom`, itself as the value, and consumes one token. -/
theorem get_arg_grammar (arg0 : CStr) (arg1 : Option CStr) :
    (arg0.head? = some '-' →
      ∃ name : CStr,
        (arg0 = '-' :: '-' :: name ∨ (arg0 = '-' :: name ∧ name.head? ≠ some '-')) ∧
        (get_arg arg0 arg1).arg_name = name ∧
        (∀ pre v : CStr, name = pre ++ '=' :: v → '=' ∉ pre →
          (get_arg arg0 arg1).arg_val = v ∧ (get_arg arg0 arg1).argpair = 1) ∧
        ('=' ∉ name →
          (∀ nxt : CStr, arg1 = some nxt → nxt.head? ≠ some '-' →
            (get_arg arg0 arg1).arg_val = nxt ∧ (get_arg arg0 arg1).argpair = 2) ∧
          ((arg1 = none ∨ ∃ nxt : CStr, arg1 = some nxt ∧ nxt.head? = some '-') →
            (get_arg arg0 arg1).arg_val = [] ∧ (get_arg arg0 arg1).argpair = 1))) ∧
    (arg0.head? ≠ some '-' →
      get_arg arg0 arg1 = { argpair := 1, arg_name := "bootrom".toList, arg_val := arg0 }) := by
  refine ⟨fun h => ?_, get_arg_positional arg0 arg1⟩
  refine ⟨opt_name arg0, ?_, get_arg_name arg0 arg1 h, ?_, ?_⟩
  · cases arg0 with
    | nil => cases h
    | cons c r =>
      have hc : c = '-' := by simpa using h
      subst hc
      cases r with
      | nil => exact Or.inr ⟨rfl, by simp [opt_name]⟩
      | cons d r' =>
        by_cases hd : d = '-'
        · subst hd; exact Or.inl rfl
        · refine Or.inr ⟨by simp [opt_name, hd], by simp [opt_name, hd]⟩
  · intro pre v hname hpre
    have he : find_eq (opt_name arg0) = some v := by
      rw [hname]; exact find_eq_append pre v hpre
    rw [get_arg_with_eq arg0 v arg1 h he]
    exact ⟨rfl, rfl⟩
  · intro hno
    have he : find_eq (opt_name arg0) = none := find_eq_none _ hno
    refine ⟨?_, ?_⟩
    · intro nxt h1 hn
      rw [h1, get_arg_pair arg0 nxt h he hn]
      exact ⟨rfl, rfl⟩
    · intro h1
      have h1' : ∀ n, arg1 = some n → n.head? = some '-' := by
        intro n hn
        rcases h1 with h1 | ⟨m, hm, hm'⟩
        · rw [h1] at hn; cases hn
        · rw [hm] at hn; cases hn; exact hm'
      rw [get_arg_bare arg0 arg1 h he h1']
      exact ⟨rfl, rfl⟩

/-- The grammar of C1 at `--smp 4` and at the positional token `boot.bin`. -/
theorem get_arg_grammar_witness :
    (get_arg "--smp".toList (some "4".toList)).arg_val = "4".toList ∧
    get_arg "boot.bin".toList none =
      { argpair := 1, arg_name := "bootrom".toList, arg_val := "boot.bin".toList } := by
  refine ⟨?_, (get_arg_grammar "boot.bin".toList none).2 (by decide)⟩
  obtain ⟨name, _, hname, _, hno⟩ :=
    (get_arg_grammar "--smp".toList (some "4".toList)).1 (by decide)
  have hn : name = "smp".toList := by rw [← hname]; decide
  exact ((hno (by rw [hn]; decide)).1 _ rfl (by decide)).1

/-! ## C2: the switches `-rv64` and `-nogui` -/

/-- C2: a pass of the loop body at a token that is exactly `-rv64` (or
`-nogui`) sets the flag, changes nothing else, and leaves the cursor at the
very next token, whatever that token is; so `-rv64 -smp 2` gives rv64 and
smp = 2, and `-rv64 boot.bin` gives rv64 and bootrom = boot.bin. -/
theorem switch_resumes_at_next_token (mss : Char → Nat) (argv : List CStr) (i : Nat)
    (args : vm_args_t) :
    (argv[i]? = some "-rv64".toList →
      parse_iter mss argv i args = .next (i + 1) { args with rv64 := true }) ∧
    (argv[i]? = some "-nogui".toList →
      parse_iter mss argv i args = .next (i + 1) { args with nogui := true }) ∧
    parse_args mss (cmdline ["rvvm", "-rv64", "-smp", "2"]) vm_args_zero =
      some { ok := true, out := [],
             args := { parse_defaults vm_args_zero with rv64 := true, smp := 2 } } ∧
    parse_args mss (cmdline ["rvvm", "-rv64", "boot.bin"]) vm_args_zero =
      some { ok := true, out := [],
             args := { parse_defaults vm_args_zero with
                       rv64 := true, bootrom := some "boot.bin".toList } } := by
  refine ⟨fun h => ?_, fun h => ?_, by rfl, by rfl⟩
  · obtain ⟨hn, hc⟩ := switch_cursor argv i _ h (by decide) (by decide)
    rw [parse_iter_eq, hn]
    have hb : branch (opt_name "-rv64".toList) = .rv64 := by decide
    rw [hb]
    simp only [run_handler, hc]
  · obtain ⟨hn, hc⟩ := switch_cursor argv i _ h (by decide) (by decide)
    rw [parse_iter_eq, hn]
    have hb : branch (opt_name "-nogui".toList) = .nogui := by decide
    rw [hb]
    simp only [run_handler, hc]

/-- The switch rule of C2 at `rvvm -nogui boot.bin -rv64 -smp 2`: cursors 1
and 3 hold the switches. -/
theorem switch_resumes_at_next_token_witness :
    parse_iter mem_suffix_shift_spec (cmdline ["rvvm", "-nogui", "boot.bin", "-rv64", "-smp", "2"])
        3 vm_args_zero = .next 4 { vm_args_zero with rv64 := true } ∧
    parse_iter mem_suffix_shift_spec (cmdline ["rvvm", "-nogui", "boot.bin", "-rv64", "-smp", "2"])
        1 vm_args_zero = .next 2 { vm_args_zero with nogui := true } :=
  ⟨(switch_resumes_at_next_token mem_suffix_shift_spec
      (cmdline ["rvvm", "-nogui", "boot.bin", "-rv64", "-smp", "2"]) 3 vm_args_zero).1 (by decide),
   (switch_resumes_at_next_token mem_suffix_shift_spec
      (cmdline ["rvvm", "-nogui", "boot.bin", "-rv64", "-smp", "2"]) 1 vm_args_zero).2.1
      (by decide)⟩

/-! ## C3: a positional boot image after an option without argument -/

/-- C3 at `rvvm -verbose boot.bin`: the loop takes `boot.bin` for the value of
`-verbose` and ignores the pair, so `parse_args` succeeds with bootrom still
`NULL`, and `rvvm_main` prints the usage line instead of starting a machine. -/
theorem verbose_swallows_bootrom (lib : Lib) :
    parse_args lib.mem_suffix_shift (cmdline ["rvvm", "-verbose", "boot.bin"]) vm_args_zero =
      some { ok := true, out := [], args := parse_defaults vm_args_zero } ∧
    (parse_defaults vm_args_zero).bootrom = none ∧
    rvvm_main lib (cmdline ["rvvm", "-verbose", "boot.bin"]) =
      some [ .rvvm_set_args (cmdline ["rvvm", "-verbose", "boot.bin"]),
             .printf_usage (some "rvvm".toList) ] :=
  ⟨rfl, rfl, rfl⟩

/-! ## C4: the `mem` option -/

theorem mem_pair_iter (mss : Char → Nat) (argv : List CStr) (i : Nat) (args : vm_args_t)
    (n : Nat) (tail : CStr) (h0 : argv[i]? = some "-mem".toList)
    (h1 : argv[i + 1]? = some (Nat.toDigits 10 n ++ tail)) :
    parse_iter mss argv i args =
      run_handler mss .mem (Nat.toDigits 10 n ++ tail) 2 (i + 2) args := by
  obtain ⟨c, cs, hc, hall⟩ := toDigits_digits n
  have hnd : (Nat.toDigits 10 n ++ tail).head? ≠ some '-' := by
    rw [hc]
    simp only [List.cons_append, List.head?_cons]
    intro e
    injection e with e
    exact (isdigit_not_special c (hall c (by simp))).2.1 e
  have ho : opt_at argv i =
      { argpair := 2, arg_name := opt_name "-mem".toList,
        arg_val := Nat.toDigits 10 n ++ tail } := by
    unfold opt_at
    rw [getD_of_getElem? argv i _ h0, h1]
    exact get_arg_pair _ _ (by decide) (by decide) hnd
  rw [parse_iter_eq, ho]
  have hb : branch (opt_name "-mem".toList) = .mem := by decide
  rw [hb]

theorem run_mem_suffix (mss : Char → Nat) (n : Nat) (hn : n < 2 ^ 31) (suffix : Char)
    (hs : isdigit suffix = false) (shift : Nat) (hshift : mss suffix = shift)
    (hle : shift ≤ 30) (j : Nat) (args : vm_args_t) :
    run_handler mss .mem (Nat.toDigits 10 n ++ [suffix]) 2 j args =
      .next j { args with mem := n * 2 ^ shift } := by
  have ha : atoi (Nat.toDigits 10 n ++ [suffix]) = (n : Int) :=
    atoi_toDigits n [suffix] (by intro c hc; simp at hc; rw [← hc]; exact hs)
  have hlast : (Nat.toDigits 10 n ++ [suffix]).getLast? = some suffix := by simp
  have hpow : 2 ^ shift ≤ 2 ^ 30 := Nat.pow_le_pow_right (by decide) hle
  have hfit : n * 2 ^ shift < 2 ^ 64 := by
    calc n * 2 ^ shift ≤ n * 2 ^ 30 := Nat.mul_le_mul_left _ hpow
      _ < 2 ^ 31 * 2 ^ 30 := Nat.mul_lt_mul_of_pos_right hn (by decide)
      _ < 2 ^ 64 := by decide
  simp only [run_handler, hlast, ha, hshift]
  rw [to_size_t_natCast n (by omega)]
  unfold shl_size_t
  rw [Nat.mod_eq_of_lt hfit]

/-- C4: with `mem_suffix_shift` returning 10, 20, 30 for `K`, `M`, `G` and 0
for a digit, and `n` in the range of a C `int`, the option `-mem nK` sets the
memory size to `n * 2^10`, `-mem nM` to `n * 2^20`, `-mem nG` to `n * 2^30`,
and `-mem n` to `n`, where `n` is written in decimal; the cursor moves past
both tokens and no other field changes. -/
theorem mem_option_scales (mss : Char → Nat)
    (hK : mss 'K' = 10) (hM : mss 'M' = 20) (hG : mss 'G' = 30)
    (hdigit : ∀ c, isdigit c = true → mss c = 0)
    (n : Nat) (hn : n < 2 ^ 31)
    (argv : List CStr) (i : Nat) (args : vm_args_t)
    (h0 : argv[i]? = some "-mem".toList) :
    (argv[i + 1]? = some (Nat.toDigits 10 n ++ "K".toList) →
      parse_iter mss argv i args = .next (i + 2) { args with mem := n * 2 ^ 10 }) ∧
    (argv[i + 1]? = some (Nat.toDigits 10 n ++ "M".toList) →
      parse_iter mss argv i args = .next (i + 2) { args with mem := n * 2 ^ 20 }) ∧
    (argv[i + 1]? = some (Nat.toDigits 10 n ++ "G".toList) →
      parse_iter mss argv i args = .next (i + 2) { args with mem := n * 2 ^ 30 }) ∧
    (argv[i + 1]? = some (Nat.toDigits 10 n) →
      parse_iter mss argv i args = .next (i + 2) { args with mem := n }) := by
  refine ⟨fun h1 => ?_, fun h1 => ?_, fun h1 => ?_, fun h1 => ?_⟩
  · rw [mem_pair_iter mss argv i args n _ h0 h1]
    exact run_mem_suffix mss n hn 'K' (by decide) 10 hK (by decide) _ args
  · rw [mem_pair_iter mss argv i args n _ h0 h1]
    exact run_mem_suffix mss n hn 'M' (by decide) 20 hM (by decide) _ args
  · rw [mem_pair_iter mss argv i args n _ h0 h1]
    exact run_mem_suffix mss n hn 'G' (by decide) 30 hG (by decide) _ args
  · have h1' : argv[i + 1]? = some (Nat.toDigits 10 n ++ []) := by
      rw [List.append_nil]; exact h1
    rw [mem_pair_iter mss argv i args n _ h0 h1', List.append_nil]
    obtain ⟨c, cs, hc, hall⟩ := toDigits_digits n
    have ha : atoi (Nat.toDigits 10 n) = (n : Int) := by
      have := atoi_toDigits n [] (by intro c hc; cases hc)
      rwa [List.append_nil] at this
    have hne : c :: cs ≠ [] := by simp
    have hlast : (Nat.toDigits 10 n).getLast? = some ((c :: cs).getLast hne) := by
      rw [hc]; exact List.getLast?_eq_getLast _ hne
    have hd : mss ((c :: cs).getLast hne) = 0 := hdigit _ (hall _ (List.getLast_mem hne))
    simp only [run_handler, hlast, ha, hd]
    rw [to_size_t_natCast n (by omega)]
    unfold shl_size_t
    rw [pow_zero, Nat.mul_one, Nat.mod_eq_of_lt (by omega)]

/-- The rule of C4 at `rvvm -mem 512M`: 512 * 2^20 bytes. -/
theorem mem_option_scales_witness :
    parse_iter mem_suffix_shift_spec (cmdline ["rvvm", "-mem", "512M"]) 1
        (parse_defaults vm_args_zero) =
      .next 3 { parse_defaults vm_args_zero with mem := 512 * 2 ^ 20 } :=
  (mem_option_scales mem_suffix_shift_spec (by decide) (by decide) (by decide)
    (by
      intro c hc
      have h := isdigit_not_special c hc
      have h' : 48 ≤ c.toNat ∧ c.toNat ≤ 57 := by simpa [isdigit] using hc
      have key : ∀ d : Char, (d.toNat < 48 ∨ 57 < d.toNat) → c ≠ d := by
        intro d hd e; subst e; omega
      simp [mem_suffix_shift_spec, key 'K' (by decide), key 'M' (by decide),
        key 'G' (by decide)])
    512 (by decide) (cmdline ["rvvm", "-mem", "512M"]) 1 (parse_defaults vm_args_zero)
    (by decide)).2.1 (by decide)

/-! ## C5: the `res` option -/

theorem toDigits_no_x (n : Nat) : 'x' ∉ Nat.toDigits 10 n := by
  obtain ⟨c, cs, hc, hall⟩ := toDigits_digits n
  rw [hc]
  intro hx
  exact (isdigit_not_special 'x' (hall _ hx)).2.2.2.1 rfl

theorem run_res_value (mss : Char → Nat) (W H : Nat) (hW : W < 2 ^ 31) (hH : H < 2 ^ 31)
    (p j : Nat) (args : vm_args_t) :
    run_handler mss .res (Nat.toDigits 10 W ++ 'x' :: Nat.toDigits 10 H) p j args =
      .next j { args with fb_x := W, fb_y := H } := by
  have hx := find_x_append (Nat.toDigits 10 W) (Nat.toDigits 10 H) (toDigits_no_x W)
  have hw : atoi (Nat.toDigits 10 W ++ 'x' :: Nat.toDigits 10 H) = (W : Int) :=
    atoi_toDigits W _ (by intro c hc; simp at hc; rw [← hc]; decide)
  have hh : atoi (Nat.toDigits 10 H) = (H : Int) := by
    have := atoi_toDigits H [] (by intro c hc; cases hc)
    rwa [List.append_nil] at this
  simp only [run_handler, hx, hw, hh]
  rw [to_uint32_natCast W (by omega), to_uint32_natCast H (by omega)]

/-- C5: for `W` and `H` in the range of a C `int`, written in decimal, the
option `-res WxH` (two tokens) and the option `-res=WxH` (one token) set the
display width to `W` and the height to `H`: the value is split at its first
`x`, the text after it being the height. No other field changes and the
cursor moves past the option. -/
theorem res_option_splits (mss : Char → Nat) (W H : Nat) (hW : W < 2 ^ 31) (hH : H < 2 ^ 31)
    (argv : List CStr) (i : Nat) (args : vm_args_t) :
    find_x (Nat.toDigits 10 W ++ 'x' :: Nat.toDigits 10 H) = some (Nat.toDigits 10 H) ∧
    (argv[i]? = some "-res".toList →
      argv[i + 1]? = some (Nat.toDigits 10 W ++ 'x' :: Nat.toDigits 10 H) →
      parse_iter mss argv i args = .next (i + 2) { args with fb_x := W, fb_y := H }) ∧
    (argv[i]? = some ("-res=".toList ++ (Nat.toDigits 10 W ++ 'x' :: Nat.toDigits 10 H)) →
      parse_iter mss argv i args = .next (i + 1) { args with fb_x := W, fb_y := H }) := by
  refine ⟨find_x_append _ _ (toDigits_no_x W), fun h0 h1 => ?_, fun h0 => ?_⟩
  · obtain ⟨c, cs, hc, hall⟩ := toDigits_digits W
    have hnd : (Nat.toDigits 10 W ++ 'x' :: Nat.toDigits 10 H).head? ≠ some '-' := by
      rw [hc]
      simp only [List.cons_append, List.head?_cons]
      intro e
      injection e with e
      exact (isdigit_not_special c (hall c (by simp))).2.1 e
    have ho : opt_at argv i =
        { argpair := 2, arg_name := opt_name "-res".toList,
          arg_val := Nat.toDigits 10 W ++ 'x' :: Nat.toDigits 10 H } := by
      unfold opt_at
      rw [getD_of_getElem? argv i _ h0, h1]
      exact get_arg_pair _ _ (by decide) (by decide) hnd
    rw [parse_iter_eq, ho]
    have hb : branch (opt_name "-res".toList) = .res := by decide
    rw [hb]
    exact run_res_value mss W H hW hH _ _ args
  · generalize hv : Nat.toDigits 10 W ++ 'x' :: Nat.toDigits 10 H = val at h0
    have hname : opt_name ("-res=".toList ++ val) = "res".toList ++ '=' :: val := rfl
    have ho : opt_at argv i =
        { argpair := 1, arg_name := "res".toList ++ '=' :: val, arg_val := val } := by
      unfold opt_at
      rw [getD_of_getElem? argv i _ h0]
      have hhead : ("-res=".toList ++ val).head? = some '-' := rfl
      rw [get_arg_with_eq ("-res=".toList ++ val) val _ hhead
        (by rw [hname]; exact find_eq_append _ _ (by decide)), hname]
    rw [parse_iter_eq, ho]
    have hb : branch ("res".toList ++ '=' :: val) = .res := by
      rw [branch_append_eq _ _ (by decide)]; decide
    rw [hb, ← hv]
    exact run_res_value mss W H hW hH _ _ args

/-- The rule of C5 at `rvvm -res 1920x1080` and at `rvvm -res=1920x1080`. -/
theorem res_option_splits_witness :
    parse_iter mem_suffix_shift_spec (cmdline ["rvvm", "-res", "1920x1080"]) 1
        (parse_defaults vm_args_zero) =
      .next 3 { parse_defaults vm_args_zero with fb_x := 1920, fb_y := 1080 } ∧
    parse_iter mem_suffix_shift_spec (cmdline ["rvvm", "-res=1920x1080"]) 1
        (parse_defaults vm_args_zero) =
      .next 2 { parse_defaults vm_args_zero with fb_x := 1920, fb_y := 1080 } :=
  ⟨(res_option_splits mem_suffix_shift_spec 1920 1080 (by decide) (by decide)
      (cmdline ["rvvm", "-res", "1920x1080"]) 1 (parse_defaults vm_args_zero)).2.1
      (by decide) (by decide),
   (res_option_splits mem_suffix_shift_spec 1920 1080 (by decide) (by decide)
      (cmdline ["rvvm", "-res=1920x1080"]) 1 (parse_defaults vm_args_zero)).2.2
      (by decide)⟩

/-! ## Names and prefixes -/

/-- The comparison `cmp_arg` accepts exactly the names of which the name part
of the token is a prefix. -/
theorem cmp_arg_prefix_iff (arg : CStr) :
    ∀ name : CStr, cmp_arg arg name = true ↔ name_part arg <+: name := by
  unfold name_part
  induction arg with
  | nil => intro name; simp [cmp_arg]
  | cons c cs ih =>
    intro name
    by_cases hc : c = '='
    · simp [cmp_arg, hc]
    · cases name with
      | nil => simp [cmp_arg, hc]
      | cons n ns =>
        by_cases hn : c = n
        · subst hn
          simp [cmp_arg, hc, ih ns, List.prefix_cons_inj]
        · simp [cmp_arg, hc, hn, List.cons_prefix_cons]

/-- A name whose name part is a prefix of none of the known names takes no
branch of the `if` chain. -/
theorem branch_ignored (arg_name : CStr)
    (h : ∀ n ∈ known_names, ¬ (name_part arg_name <+: n)) : branch arg_name = .ignored := by
  have hf : ∀ n ∈ known_names, cmp_arg arg_name n = false := by
    intro n hn
    cases hc : cmp_arg arg_name n with
    | false => rfl
    | true => exact absurd ((cmp_arg_prefix_iff arg_name n).mp hc) (h n hn)
  unfold branch
  rw [hf "dtb".toList (by decide), hf "image".toList (by decide),
    hf "bootrom".toList (by decide), hf "kernel".toList (by decide),
    hf "mem".toList (by decide), hf "smp".toList (by decide), hf "res".toList (by decide),
    hf "dumpdtb".toList (by decide), hf "rv64".toList (by decide),
    hf "nogui".toList (by decide), hf "help".toList (by decide), hf "h".toList (by decide),
    hf "H".toList (by decide)]
  rfl

/-- The comparison `cmp_arg` reads its first argument only up to the end of
its name part, so the `if` chain takes the same branch for both. -/
theorem cmp_arg_name_part (arg name : CStr) :
    cmp_arg (name_part arg) name = cmp_arg arg name := by
  rw [Bool.eq_iff_iff, cmp_arg_prefix_iff, cmp_arg_prefix_iff]
  unfold name_part
  rw [List.takeWhile_idem]

theorem branch_name_part (arg_name : CStr) : branch (name_part arg_name) = branch arg_name := by
  unfold branch
  simp only [cmp_arg_name_part]

/-- A name that takes the branch `res` or `help` does not match `dtb`, and
matches `res`, or one of `help`, `h`, `H`. -/
theorem branch_fail_cases (arg_name : CStr) :
    (branch arg_name = .res →
      cmp_arg arg_name "dtb".toList = false ∧ cmp_arg arg_name "res".toList = true) ∧
    (branch arg_name = .help →
      cmp_arg arg_name "dtb".toList = false ∧
      (cmp_arg arg_name "help".toList || cmp_arg arg_name "h".toList
        || cmp_arg arg_name "H".toList) = true) := by
  unfold branch
  generalize cmp_arg arg_name "dtb".toList = b1
  generalize cmp_arg arg_name "image".toList = b2
  generalize cmp_arg arg_name "bootrom".toList = b3
  generalize cmp_arg arg_name "kernel".toList = b4
  generalize cmp_arg arg_name "mem".toList = b5
  generalize cmp_arg arg_name "smp".toList = b6
  generalize cmp_arg arg_name "res".toList = b7
  generalize cmp_arg arg_name "dumpdtb".toList = b8
  generalize cmp_arg arg_name "rv64".toList = b9
  generalize cmp_arg arg_name "nogui".toList = b10
  generalize cmp_arg arg_name "help".toList = b11
  generalize cmp_arg arg_name "h".toList = b12
  generalize cmp_arg arg_name "H".toList = b13
  cases b1
  swap
  · exact ⟨fun h => by simp at h, fun h => by simp at h⟩
  cases b2
  swap
  · exact ⟨fun h => by simp at h, fun h => by simp at h⟩
  cases b3
  swap
  · exact ⟨fun h => by simp at h, fun h => by simp at h⟩
  cases b4
  swap
  · exact ⟨fun h => by simp at h, fun h => by simp at h⟩
  cases b5
  swap
  · exact ⟨fun h => by simp at h, fun h => by simp at h⟩
  cases b6
  swap
  · exact ⟨fun h => by simp at h, fun h => by simp at h⟩
  cases b7
  swap
  · exact ⟨fun _ => ⟨rfl, rfl⟩, fun h => by simp at h⟩
  cases b8
  swap
  · exact ⟨fun h => by simp at h, fun h => by simp at h⟩
  cases b9
  swap
  · exact ⟨fun h => by simp at h, fun h => by simp at h⟩
  cases b10
  swap
  · exact ⟨fun h => by simp at h, fun h => by simp at h⟩
  cases b11 <;> cases b12 <;> cases b13 <;> simp

theorem name_part_ne_nil (arg_name : CStr) (h : cmp_arg arg_name "dtb".toList = false) :
    name_part arg_name ≠ [] := by
  intro hn
  have : cmp_arg arg_name "dtb".toList = true := by
    rw [cmp_arg_prefix_iff, hn]
    exact List.nil_prefix
  rw [this] at h
  cases h

/-- The names that take the branch `res`: `r`, `re` and `res`. -/
theorem branch_res_iff (arg_name : CStr) :
    branch arg_name = .res ↔ name_part arg_name ∈ res_names := by
  constructor
  · intro h
    obtain ⟨h1, h7⟩ := (branch_fail_cases arg_name).1 h
    have hne := name_part_ne_nil arg_name h1
    have hm := (List.mem_inits _ _).mpr ((cmp_arg_prefix_iff arg_name _).mp h7)
    have hi : "res".toList.inits = [[], "r".toList, "re".toList, "res".toList] := by decide
    rw [hi] at hm
    rcases List.mem_cons.mp hm with hm | hm
    · exact absurd hm hne
    · exact hm
  · intro h
    rw [← branch_name_part]
    revert h
    generalize name_part arg_name = l
    intro h
    have hall : ∀ l ∈ res_names, branch l = .res := by decide
    exact hall l h

/-- The names that take the branch `help`: `h`, `he`, `hel`, `help` and `H`. -/
theorem branch_help_iff (arg_name : CStr) :
    branch arg_name = .help ↔ name_part arg_name ∈ help_names := by
  constructor
  · intro h
    obtain ⟨h1, hh⟩ := (branch_fail_cases arg_name).2 h
    have hne := name_part_ne_nil arg_name h1
    have h1i : "help".toList.inits =
        [[], "h".toList, "he".toList, "hel".toList, "help".toList] := by decide
    have h2i : "h".toList.inits = [[], "h".toList] := by decide
    have h3i : "H".toList.inits = [[], "H".toList] := by decide
    simp only [Bool.or_eq_true] at hh
    rcases hh with (hh | hh) | hh
    · have hm := (List.mem_inits _ _).mpr ((cmp_arg_prefix_iff arg_name _).mp hh)
      rw [h1i] at hm
      rcases List.mem_cons.mp hm with hm | hm
      · exact absurd hm hne
      · have hsub : ∀ l ∈ ["h".toList, "he".toList, "hel".toList, "help".toList],
            l ∈ help_names := by decide
        exact hsub _ hm
    · have hm := (List.mem_inits _ _).mpr ((cmp_arg_prefix_iff arg_name _).mp hh)
      rw [h2i] at hm
      rcases List.mem_cons.mp hm with hm | hm
      · exact absurd hm hne
      · rw [List.mem_singleton.mp hm]
        decide
    · have hm := (List.mem_inits _ _).mpr ((cmp_arg_prefix_iff arg_name _).mp hh)
      rw [h3i] at hm
      rcases List.mem_cons.mp hm with hm | hm
      · exact absurd hm hne
      · rw [List.mem_singleton.mp hm]
        decide
  · intro h
    rw [← branch_name_part]
    have hall : ∀ l ∈ help_names, branch l = .help := by decide
    exact hall _ h

/-! ## C6: when `parse_args` fails -/

theorem find_x_eq_none_iff (s : CStr) : find_x s = none ↔ 'x' ∉ s := by
  induction s with
  | nil => simp [find_x]
  | cons c cs ih =>
    by_cases h : c = 'x'
    · simp [find_x, h]
    · simp [find_x, h, ih, Ne.symm h]

/-- The body of a branch returns false only in the two failing cases, and then
leaves the record as it was. -/
theorem run_handler_ret_false (mss : Char → Nat) (h : Handler) (v : CStr) (p j : Nat)
    (a : vm_args_t) :
    ((∃ out a', run_handler mss h v p j a = .ret_false out a') ↔
      ((h = .res ∧ 'x' ∉ v) ∨ h = .help)) ∧
    (∀ out a', run_handler mss h v p j a = .ret_false out a' → a' = a) := by
  cases h <;> simp only [run_handler]
  case mem =>
    cases v.getLast? <;> simp
  case res =>
    cases hx : find_x v with
    | none =>
      have := (find_x_eq_none_iff v).mp hx
      simp [this]
    | some r =>
      have : ¬ 'x' ∉ v := fun hn => by
        rw [(find_x_eq_none_iff v).mpr hn] at hx; cases hx
      simp [this]
  all_goals simp

theorem parse_iter_ret_false (mss : Char → Nat) (argv : List CStr) (i : Nat) (a : vm_args_t) :
    ((∃ out a', parse_iter mss argv i a = .ret_false out a') ↔ fails_at argv i) ∧
    (∀ out a', parse_iter mss argv i a = .ret_false out a' → a' = a) := by
  rw [parse_iter_eq]
  exact run_handler_ret_false mss _ _ _ _ a

/-- When the loop returns true it has reached a cursor at or beyond `argc` with
the record it returns; when it returns false it has reached a cursor at which
the body returned false. -/
theorem parse_loop_result (mss : Char → Nat) (argv : List CStr) (args0 : vm_args_t) :
    ∀ (fuel i : Nat) (a : vm_args_t) (p : Parsed), Reach mss argv args0 i a →
      parse_loop mss argv fuel i a = some p →
      (p.ok = true → p.out = [] ∧ ∃ j, argv.length ≤ j ∧ Reach mss argv args0 j p.args) ∧
      (p.ok = false → ∃ j b out, Reach mss argv args0 j b ∧ j < argv.length ∧
        parse_iter mss argv j b = .ret_false out p.args ∧ p.out = [out]) := by
  intro fuel
  induction fuel with
  | zero =>
    intro i a p hr hp
    by_cases hi : i < argv.length
    · simp only [parse_loop, if_pos hi] at hp; cases hp
    · rw [parse_loop_done mss argv 0 i a (by omega)] at hp
      cases hp
      exact ⟨fun _ => ⟨rfl, i, by omega, hr⟩, fun h => by cases h⟩
  | succ n ih =>
    intro i a p hr hp
    by_cases hi : i < argv.length
    · rw [parse_loop_succ, if_pos hi] at hp
      cases hit : parse_iter mss argv i a with
      | next i' a' =>
        rw [hit] at hp
        exact ih i' a' p (Reach.step hr hi hit) hp
      | ret_false out a' =>
        rw [hit] at hp
        cases hp
        exact ⟨fun h => (by cases h), fun _ => ⟨i, a, out, hr, hi, hit, rfl⟩⟩
    · rw [parse_loop_done mss argv (n + 1) i a (by omega)] at hp
      cases hp
      exact ⟨fun _ => ⟨rfl, i, by omega, hr⟩, fun h => by cases h⟩

/-- C6 as stated fails at `rvvm -he`: no option of this list is named res,
help, h or H (the only option is named `he`, which is none of the thirteen
names), yet `parse_args` returns false, the `if` chain handling `he` as
`help`. -/
theorem parse_fails_exactly_named_counterexample :
    ¬ (∀ (mss : Char → Nat) (argv : List CStr) (args0 : vm_args_t) (p : Parsed),
        parse_args mss argv args0 = some p →
        (p.ok = false ↔
          ∃ i a, Reach mss argv args0 i a ∧ i < argv.length ∧ named_fails_at argv i)) := by
  intro h
  have hp : parse_args mem_suffix_shift_spec (cmdline ["rvvm", "-he"]) vm_args_zero =
      some (Parsed.mk false (parse_defaults vm_args_zero) [.print_help]) := by rfl
  obtain ⟨i, a, _, hi, hf⟩ := (h _ _ _ _ hp).mp rfl
  have hi' : i < 2 := hi
  have hnot : ∀ j, j < 2 → ¬ named_fails_at (cmdline ["rvvm", "-he"]) j := by decide
  exact hnot i hi' hf

/-- C6, amended: `parse_args` always returns, and it returns false exactly
when the loop, going through the options from left to right, reaches an
option handled as `res` whose value has no `x`, or an option handled as
`help`, `h` or `H`, that is, an option that takes that branch of the `if`
chain. These are the options named `res`, `re` or `r` (for the first) and
`help`, `hel`, `he`, `h` or `H` (for the second), the name being the text up
to the first `=`. It then stops with the record as it was at that option. A
pass of the body returns false in these two cases only: an option with any
other name, and any value given to an option handled as `mem` or `smp`, never
make it fail. -/
theorem parse_args_fails_exactly (mss : Char → Nat) (argv : List CStr) (args0 : vm_args_t) :
    (branch "res".toList = .res ∧ branch "help".toList = .help ∧
      branch "h".toList = .help ∧ branch "H".toList = .help) ∧
    (∀ i a, (∃ out a', parse_iter mss argv i a = .ret_false out a') ↔ fails_at argv i) ∧
    (∀ i a, (branch (opt_at argv i).arg_name = .mem ∨ branch (opt_at argv i).arg_name = .smp ∨
        branch (opt_at argv i).arg_name = .ignored) →
      ∃ i' a', parse_iter mss argv i a = .next i' a') ∧
    (∀ i, fails_at argv i ↔
      (name_part (opt_at argv i).arg_name ∈ res_names ∧ 'x' ∉ (opt_at argv i).arg_val) ∨
        name_part (opt_at argv i).arg_name ∈ help_names) ∧
    (∀ i a, name_part (opt_at argv i).arg_name ∉ res_names →
      name_part (opt_at argv i).arg_name ∉ help_names →
      ∃ i' a', parse_iter mss argv i a = .next i' a') ∧
    ∃ p, parse_args mss argv args0 = some p ∧
      (p.ok = false ↔
        ∃ i a, Reach mss argv args0 i a ∧ i < argv.length ∧ fails_at argv i) ∧
      (∀ i a, Reach mss argv args0 i a → i < argv.length → fails_at argv i →
        p.ok = false ∧ p.args = a) := by
  have hstop : ∀ i a, Reach mss argv args0 i a → i < argv.length → fails_at argv i →
      ∃ out, parse_args mss argv args0 = some { ok := false, args := a, out := [out] } := by
    intro i a hr hi hf
    obtain ⟨out, a', hit⟩ := ((parse_iter_ret_false mss argv i a).1).mpr hf
    have ha : a' = a := (parse_iter_ret_false mss argv i a).2 out a' hit
    subst ha
    obtain ⟨h1, he⟩ := parse_args_of_reach mss argv args0 i a' hr
    exact ⟨out, by rw [he, parse_loop_step mss argv i a' hi, hit]⟩
  have hnext : ∀ i a, (branch (opt_at argv i).arg_name = .mem ∨
      branch (opt_at argv i).arg_name = .smp ∨ branch (opt_at argv i).arg_name = .ignored) →
      ∃ i' a', parse_iter mss argv i a = .next i' a' := by
    intro i a hb
    cases hit : parse_iter mss argv i a with
    | next i' a' => exact ⟨i', a', rfl⟩
    | ret_false out a' =>
      have hf := ((parse_iter_ret_false mss argv i a).1).mp ⟨out, a', hit⟩
      unfold fails_at at hf
      rcases hf with ⟨hf, _⟩ | hf <;> rcases hb with hb | hb | hb <;>
        (rw [hb] at hf; cases hf)
  have hnames : ∀ i, fails_at argv i ↔
      (name_part (opt_at argv i).arg_name ∈ res_names ∧ 'x' ∉ (opt_at argv i).arg_val) ∨
        name_part (opt_at argv i).arg_name ∈ help_names := by
    intro i
    unfold fails_at
    rw [branch_res_iff, branch_help_iff]
  refine ⟨by decide, fun i a => (parse_iter_ret_false mss argv i a).1, hnext, hnames, ?_, ?_⟩
  · intro i a hr hh
    cases hit : parse_iter mss argv i a with
    | next i' a' => exact ⟨i', a', rfl⟩
    | ret_false out a' =>
      have hf := ((parse_iter_ret_false mss argv i a).1).mp ⟨out, a', hit⟩
      rcases (hnames i).mp hf with ⟨h, _⟩ | h
      · exact absurd h hr
      · exact absurd h hh
  · obtain ⟨p, hp⟩ := parse_args_total mss argv args0
    refine ⟨p, hp, ⟨fun hok => ?_, fun ⟨i, a, hr, hi, hf⟩ => ?_⟩, fun i a hr hi hf => ?_⟩
    · have hp' : parse_loop mss argv argv.length 1 (parse_defaults args0) = some p := hp
      obtain ⟨j, b, out, hr, hj, hit, _⟩ :=
        (parse_loop_result mss argv args0 _ 1 _ p Reach.start hp').2 hok
      exact ⟨j, b, hr, hj, ((parse_iter_ret_false mss argv j b).1).mp ⟨out, _, hit⟩⟩
    · obtain ⟨out, h⟩ := hstop i a hr hi hf
      rw [hp] at h; cases h; rfl
    · obtain ⟨out, h⟩ := hstop i a hr hi hf
      rw [hp] at h; cases h; exact ⟨rfl, rfl⟩

/-- The rule of C6 at `rvvm -smp abc -res bogus -mem 1G`: the loop reaches
`-res bogus` at cursor 3 and stops there, the later `-mem 1G` being left
unprocessed and the malformed `-smp` having given 0 without failing. -/
theorem parse_args_fails_exactly_witness :
    ∃ p, parse_args mem_suffix_shift_spec
        (cmdline ["rvvm", "-smp", "abc", "-res", "bogus", "-mem", "1G"]) vm_args_zero = some p ∧
      p.ok = false ∧ p.args = { parse_defaults vm_args_zero with smp := 0 } := by
  obtain ⟨p, hp, _, hstop⟩ := (parse_args_fails_exactly mem_suffix_shift_spec
    (cmdline ["rvvm", "-smp", "abc", "-res", "bogus", "-mem", "1G"]) vm_args_zero).2.2.2.2.2
  have hr : Reach mem_suffix_shift_spec
      (cmdline ["rvvm", "-smp", "abc", "-res", "bogus", "-mem", "1G"]) vm_args_zero 3
      { parse_defaults vm_args_zero with smp := 0 } :=
    Reach.step Reach.start (by decide) (by rfl)
  exact ⟨p, hp, hstop 3 _ hr (by decide) (by decide)⟩

/-! ## C7: when `rvvm_main` creates a machine -/

theorem run_handler_out (mss : Char → Nat) (h : Handler) (v : CStr) (p j : Nat)
    (a a' : vm_args_t) (out : Call) (hr : run_handler mss h v p j a = .ret_false out a') :
    touches_machine out = false := by
  cases h <;> simp only [run_handler] at hr
  case mem => split at hr <;> cases hr
  case res =>
    split at hr
    · injection hr with h1 h2; rw [← h1]; rfl
    · cases hr
  case help => injection hr with h1 h2; rw [← h1]; rfl
  all_goals cases hr

theorem fb_block_no_create (lib : Lib) (machine plic : Nat) (args : vm_args_t) :
    (fb_block lib machine plic args).filter is_create = [] := by
  unfold fb_block
  split <;> rfl

theorem run_tail_no_create (lib : Lib) (machine plic : Nat) (args : vm_args_t) :
    (run_tail lib machine plic args).filter is_create = [] := by
  unfold run_tail
  cases lib.USE_NET <;> cases lib.USE_RTC <;> cases args.dumpdtb <;> rfl

theorem attach_devices_no_create (lib : Lib) (machine : Nat) (args : vm_args_t) :
    (attach_devices lib machine args).filter is_create = [] := by
  unfold attach_devices
  cases args.image with
  | none =>
    simp only [List.filter_append, fb_block_no_create, run_tail_no_create]
    rfl
  | some image =>
    dsimp only
    split
    · rfl
    · simp only [List.filter_append, fb_block_no_create, run_tail_no_create]
      rfl

/-- The function `rvvm_run_with_args` calls `rvvm_create_machine` exactly once,
first, with the memory size, core count and 64-bit flag of the record. -/
theorem run_with_args_creates_once (lib : Lib) (args : vm_args_t) :
    (rvvm_run_with_args lib args).filter is_create =
        [.rvvm_create_machine lib.RVVM_DEFAULT_MEMBASE args.mem args.smp args.rv64] ∧
    (rvvm_run_with_args lib args).head? =
        some (.rvvm_create_machine lib.RVVM_DEFAULT_MEMBASE args.mem args.smp args.rv64) := by
  unfold rvvm_run_with_args
  dsimp only
  cases lib.rvvm_create_machine lib.RVVM_DEFAULT_MEMBASE args.mem args.smp args.rv64 with
  | none => exact ⟨rfl, rfl⟩
  | some machine =>
    dsimp only
    cases lib.rvvm_load_bootrom machine args.bootrom
    · exact ⟨rfl, rfl⟩
    cases lib.rvvm_load_kernel machine args.kernel
    · exact ⟨rfl, rfl⟩
    cases lib.rvvm_load_dtb machine args.dtb
    · exact ⟨rfl, rfl⟩
    refine ⟨?_, rfl⟩
    simp only [Bool.not_true, Bool.false_eq_true, if_false, List.filter_append,
      attach_devices_no_create]
    rfl

/-- C7: `rvvm_main` creates a machine if and only if `parse_args` succeeded and
a boot image path was resolved. When `parse_args` fails, the calls of
`rvvm_main` are `rvvm_set_args` and the diagnostic of the parser, none of them
a machine, loader, device or event-loop call; when it succeeds with bootrom
unset, they are `rvvm_set_args` and the usage line; in every other case they
are `rvvm_set_args` followed by the calls of `rvvm_run_with_args`, among which
`rvvm_create_machine` occurs exactly once, first, with the parsed memory size,
core count and 64-bit flag. -/
theorem machine_created_iff (lib : Lib) (argv : List CStr) :
    ∃ p t, parse_args lib.mem_suffix_shift argv vm_args_zero = some p ∧
      rvvm_main lib argv = some t ∧
      (p.ok = false →
        t = .rvvm_set_args argv :: p.out ∧ ∀ c ∈ t, touches_machine c = false) ∧
      (p.ok = true → p.args.bootrom = none →
        t = [.rvvm_set_args argv, .printf_usage argv.head?] ∧
        ∀ c ∈ t, touches_machine c = false) ∧
      (p.ok = true → p.args.bootrom ≠ none →
        t = .rvvm_set_args argv :: rvvm_run_with_args lib p.args ∧
        t.filter is_create =
          [.rvvm_create_machine lib.RVVM_DEFAULT_MEMBASE p.args.mem p.args.smp p.args.rv64] ∧
        t[1]? =
          some (.rvvm_create_machine lib.RVVM_DEFAULT_MEMBASE p.args.mem p.args.smp
            p.args.rv64)) := by
  obtain ⟨p, hp⟩ := parse_args_total lib.mem_suffix_shift argv vm_args_zero
  have hres := parse_loop_result lib.mem_suffix_shift argv vm_args_zero _ 1 _ p Reach.start hp
  cases hok : p.ok with
  | false =>
    obtain ⟨j, b, out, _, _, hit, hout⟩ := hres.2 hok
    refine ⟨p, .rvvm_set_args argv :: p.out, hp, ?_, ?_, ?_, ?_⟩
    · unfold rvvm_main
      rw [hp]
      simp only [hok, Bool.not_false, if_true]
      rfl
    · intro _
      refine ⟨rfl, ?_⟩
      intro c hc
      rw [hout] at hc
      simp only [List.mem_cons, List.mem_singleton, List.not_mem_nil, or_false] at hc
      rcases hc with hc | hc
      · rw [hc]; rfl
      · rw [hc]
        rw [parse_iter_eq] at hit
        exact run_handler_out _ _ _ _ _ _ _ _ hit
    · intro h; rw [hok] at h; cases h
    · intro h; rw [hok] at h; cases h
  | true =>
    have hout : p.out = [] := (hres.1 hok).1
    cases hb : p.args.bootrom with
    | none =>
      refine ⟨p, [.rvvm_set_args argv, .printf_usage argv.head?], hp, ?_, ?_, ?_, ?_⟩
      · unfold rvvm_main
        rw [hp]
        simp only [hok, hb, hout, Bool.not_true, Bool.false_eq_true, if_false]
        rfl
      · intro h; rw [hok] at h; cases h
      · intro _ _
        refine ⟨rfl, ?_⟩
        intro c hc
        simp only [List.mem_cons, List.mem_singleton, List.not_mem_nil, or_false] at hc
        rcases hc with hc | hc <;> (rw [hc]; rfl)
      · intro _ h; exact absurd hb h
    | some b =>
      refine ⟨p, .rvvm_set_args argv :: rvvm_run_with_args lib p.args, hp, ?_, ?_, ?_, ?_⟩
      · unfold rvvm_main
        rw [hp]
        simp only [hok, hb, hout, Bool.not_true, Bool.false_eq_true, if_false]
        rfl
      · intro h; rw [hok] at h; cases h
      · intro _ h; rw [hb] at h; cases h
      · intro _ _
        refine ⟨rfl, ?_, ?_⟩
        · rw [List.filter_cons_of_neg (by simp [is_create])]
          exact (run_with_args_creates_once lib p.args).1
        · rw [List.getElem?_cons_succ, ← List.head?_eq_getElem?]
          exact (run_with_args_creates_once lib p.args).2

/-- The rule of C7 at `rvvm -res bogus` (parse failure: no machine call) and
at `rvvm -smp 2 boot.bin` (one machine, with the parsed sizes). -/
theorem machine_created_iff_witness :
    (∃ t, rvvm_main lib_all_ok (cmdline ["rvvm", "-res", "bogus"]) = some t ∧
      ∀ c ∈ t, touches_machine c = false) ∧
    (∃ t, rvvm_main lib_all_ok (cmdline ["rvvm", "-smp", "2", "boot.bin"]) = some t ∧
      t.filter is_create = [.rvvm_create_machine 0x80000000 (256 * 2 ^ 20) 2 false]) := by
  constructor
  · obtain ⟨p, t, hp, ht, hfail, _, _⟩ :=
      machine_created_iff lib_all_ok (cmdline ["rvvm", "-res", "bogus"])
    have e : parse_args lib_all_ok.mem_suffix_shift (cmdline ["rvvm", "-res", "bogus"])
        vm_args_zero = some { ok := false, args := parse_defaults vm_args_zero, out := [
          .rvvm_error "Invalid resoulution: %s, expects 640x480" (some "bogus".toList)] } := by
      rfl
    rw [e] at hp
    cases hp
    exact ⟨t, ht, (hfail rfl).2⟩
  · obtain ⟨p, t, hp, ht, _, _, hrun⟩ :=
      machine_created_iff lib_all_ok (cmdline ["rvvm", "-smp", "2", "boot.bin"])
    have e : parse_args lib_all_ok.mem_suffix_shift (cmdline ["rvvm", "-smp", "2", "boot.bin"])
        vm_args_zero = some (Parsed.mk true
          { parse_defaults vm_args_zero with smp := 2, bootrom := some "boot.bin".toList }
          []) := by rfl
    rw [e] at hp
    cases hp
    exact ⟨t, ht, (hrun rfl (by simp)).2.1⟩

/-! ## C8: names that match nothing -/

/-- C8 as stated fails at `rvvm -d x`: the name `d` is none of the thirteen
names, yet the pass at cursor 1 sets dtb, so that it does not leave the record
as it was. -/
theorem unknown_name_not_ignored_counterexample :
    ¬ (∀ (mss : Char → Nat) (argv : List CStr) (i : Nat) (a : vm_args_t),
        i < argv.length → name_part (opt_at argv i).arg_name ∉ known_names →
        ∃ i', parse_iter mss argv i a = .next i' a) := by
  intro h
  obtain ⟨i', hi'⟩ := h mem_suffix_shift_spec (cmdline ["rvvm", "-d", "x"]) 1 vm_args_zero
    (by decide) (by decide)
  have e : parse_iter mem_suffix_shift_spec (cmdline ["rvvm", "-d", "x"]) 1 vm_args_zero =
      .next 3 { vm_args_zero with dtb := some "x".toList } := by rfl
  rw [e] at hi'
  injection hi' with _ h2
  exact absurd h2 (by decide)

/-- C8, amended: an option whose name (the text up to its first `=`) is a
prefix of none of the thirteen names is ignored: the pass of the loop body does
not return, moves the cursor past the tokens `get_arg` consumed, and leaves
every field of the record as it was. -/
theorem unmatched_name_ignored (mss : Char → Nat) (argv : List CStr) (i : Nat)
    (a : vm_args_t)
    (h : ∀ n ∈ known_names, ¬ (name_part (opt_at argv i).arg_name <+: n)) :
    parse_iter mss argv i a = .next (i + (opt_at argv i).argpair) a := by
  rw [parse_iter_eq, branch_ignored _ h]
  rfl

/-- The amended rule of C8 at `rvvm -verbose boot.bin`. -/
theorem unmatched_name_ignored_witness :
    parse_iter mem_suffix_shift_spec (cmdline ["rvvm", "-verbose", "boot.bin"]) 1
        (parse_defaults vm_args_zero) =
      .next (1 + (opt_at (cmdline ["rvvm", "-verbose", "boot.bin"]) 1).argpair)
        (parse_defaults vm_args_zero) :=
  unmatched_name_ignored mem_suffix_shift_spec (cmdline ["rvvm", "-verbose", "boot.bin"]) 1
    (parse_defaults vm_args_zero) (by decide)

/-! ## C9: repeated options -/

theorem agree_refl (X : Handler) (a : vm_args_t) : agree X a a := by
  cases X <;> simp [agree]

theorem agree_trans (X : Handler) (a b c : vm_args_t) (h1 : agree X a b) (h2 : agree X b c) :
    agree X a c := by
  cases X <;> simp only [agree] at h1 h2 ⊢
  case res => exact ⟨h1.1.trans h2.1, h1.2.trans h2.2⟩
  all_goals exact h1.trans h2

theorem field_holds_of_agree (mss : Char → Nat) (X : Handler) (v : CStr) (a b : vm_args_t)
    (h : agree X a b) (hb : field_holds mss X v b) : field_holds mss X v a := by
  cases X <;> simp only [agree, field_holds] at h hb ⊢
  case res =>
    obtain ⟨rest, h1, h2, h3⟩ := hb
    exact ⟨rest, h1, h.1.trans h2, h.2.trans h3⟩
  all_goals exact h.trans hb

/-- The body of a branch leaves the fields of the other branches as they were. -/
theorem run_handler_frame (mss : Char → Nat) (h X : Handler) (hne : h ≠ X) (v : CStr)
    (p j j' : Nat) (a a' : vm_args_t) (hr : run_handler mss h v p j a = .next j' a') :
    agree X a' a := by
  cases h <;> simp only [run_handler] at hr
  case mem =>
    split at hr <;> injection hr with h1 h2 <;> subst h2 <;> cases X <;>
      first | exact absurd rfl hne | simp [agree]
  case res =>
    split at hr
    · cases hr
    · injection hr with h1 h2
      subst h2
      cases X <;> first | exact absurd rfl hne | simp [agree]
  case help => cases hr
  all_goals
    injection hr with h1 h2
    subst h2
    cases X <;> first | exact absurd rfl hne | simp [agree]

/-- The body of the branch `h` leaves its field holding what the value gives
it; for `mem`, when the value is not empty. -/
theorem run_handler_sets (mss : Char → Nat) (h : Handler) (v : CStr)
    (hv : h = .mem → v ≠ []) (p j j' : Nat) (a a' : vm_args_t)
    (hr : run_handler mss h v p j a = .next j' a') : field_holds mss h v a' := by
  cases h <;> simp only [run_handler] at hr
  case mem =>
    cases hl : v.getLast? with
    | none => exact absurd (List.getLast?_eq_none_iff.mp hl) (hv rfl)
    | some last =>
      rw [hl] at hr
      injection hr with h1 h2
      subst h2
      simp [field_holds, mem_value, hl]
  case res =>
    cases hx : find_x v with
    | none => rw [hx] at hr; cases hr
    | some rest =>
      rw [hx] at hr
      injection hr with h1 h2
      subst h2
      exact ⟨rest, hx, rfl, rfl⟩
  case help => trivial
  case ignored => trivial
  all_goals
    injection hr with h1 h2
    subst h2
    simp [field_holds]

/-- A property of the record that every pass of the body from cursor `i0` on
keeps is kept by the rest of the loop. -/
theorem parse_loop_invariant (mss : Char → Nat) (argv : List CStr) (args0 : vm_args_t)
    (P : vm_args_t → Prop) (i0 : Nat)
    (hstep : ∀ j b j' b', Reach mss argv args0 j b → i0 ≤ j → j < argv.length → P b →
      parse_iter mss argv j b = .next j' b' → P b') :
    ∀ (fuel j : Nat) (b : vm_args_t) (p : Parsed), Reach mss argv args0 j b → i0 ≤ j → P b →
      parse_loop mss argv fuel j b = some p → P p.args := by
  intro fuel
  induction fuel with
  | zero =>
    intro j b p hr hj hP hp
    by_cases hi : j < argv.length
    · simp only [parse_loop, if_pos hi] at hp; cases hp
    · rw [parse_loop_done mss argv 0 j b (by omega)] at hp
      cases hp; exact hP
  | succ n ih =>
    intro j b p hr hj hP hp
    by_cases hi : j < argv.length
    · rw [parse_loop_succ, if_pos hi] at hp
      cases hit : parse_iter mss argv j b with
      | next j' b' =>
        rw [hit] at hp
        have hc := parse_iter_cursor mss argv j j' b b' hi hit
        exact ih j' b' p (Reach.step hr hi hit) (by omega) (hstep j b j' b' hr hj hi hP hit) hp
      | ret_false out b' =>
        rw [hit] at hp
        cases hp
        have := (parse_iter_ret_false mss argv j b).2 out b' hit
        subst this
        exact hP
    · rw [parse_loop_done mss argv (n + 1) j b (by omega)] at hp
      cases hp; exact hP

/-- When `parse_args` succeeds, the field of `X` holds what the last reached
occurrence of `X` that assigns it gives. -/
theorem last_assignment_holds (mss : Char → Nat) (argv : List CStr) (args0 : vm_args_t)
    (p : Parsed) (i : Nat) (a : vm_args_t) (X : Handler)
    (hp : parse_args mss argv args0 = some p) (hok : p.ok = true)
    (hr : Reach mss argv args0 i a) (hi : i < argv.length)
    (hX : assigns argv i X)
    (hlast : ∀ j b, Reach mss argv args0 j b → i < j → j < argv.length → ¬ assigns argv j X) :
    field_holds mss X (opt_at argv i).arg_val p.args := by
  obtain ⟨h1, he⟩ := parse_args_of_reach mss argv args0 i a hr
  rw [he, parse_loop_step mss argv i a hi] at hp
  cases hit : parse_iter mss argv i a with
  | ret_false out a' =>
    rw [hit] at hp
    cases hp
    cases hok
  | next i' a' =>
    rw [hit] at hp
    have hc := parse_iter_cursor mss argv i i' a a' hi hit
    have hset : field_holds mss X (opt_at argv i).arg_val a' := by
      have hit' := hit
      rw [parse_iter_eq, hX.1] at hit'
      exact run_handler_sets mss X _ hX.2 _ _ _ _ _ hit'
    have hinv := parse_loop_invariant mss argv args0 (fun c => agree X c a') i'
      (by
        intro j b j' b' hrj hj hjl hP hitj
        have hna := hlast j b hrj (by omega) hjl
        refine agree_trans X b' b a' ?_ hP
        rw [parse_iter_eq] at hitj
        by_cases hb : branch (opt_at argv j).arg_name = X
        · have hmem : X = .mem ∧ (opt_at argv j).arg_val = [] := by
            by_contra hcon
            apply hna
            refine ⟨hb, fun hm hv => hcon ⟨hm, hv⟩⟩
          rw [hb, hmem.1, hmem.2] at hitj
          simp only [run_handler, List.getLast?_nil] at hitj
          injection hitj with _ h2
          rw [h2]
          exact agree_refl X b'
        · exact run_handler_frame mss _ X hb _ _ _ _ _ _ hitj)
      argv.length i' a' p (Reach.step hr hi hit) (le_refl _) (agree_refl X a') hp
    exact field_holds_of_agree mss X _ _ _ hinv hset

/-- C9 as stated fails at `rvvm -mem 64M -mem=`: `mem` occurs at cursors 1 and
3, the last occurrence gives the empty value, and the memory size is still the
64 * 2^20 of the first occurrence, not what the empty value denotes. -/
theorem last_occurrence_wins_counterexample :
    ¬ (∀ (mss : Char → Nat) (argv : List CStr) (args0 : vm_args_t) (p : Parsed)
        (i0 i : Nat) (a0 a : vm_args_t) (X : Handler),
        parse_args mss argv args0 = some p → p.ok = true → X ∈ value_options →
        Reach mss argv args0 i0 a0 → occurs argv i0 X → i0 < i →
        Reach mss argv args0 i a → i < argv.length → occurs argv i X →
        (∀ j b, Reach mss argv args0 j b → i < j → j < argv.length → ¬ occurs argv j X) →
        field_holds mss X (opt_at argv i).arg_val p.args) := by
  intro h
  have hr3 : Reach mem_suffix_shift_spec (cmdline ["rvvm", "-mem", "64M", "-mem="]) vm_args_zero 3
      { parse_defaults vm_args_zero with mem := 64 * 2 ^ 20 } :=
    Reach.step Reach.start (by decide) (by rfl)
  have hc := h mem_suffix_shift_spec (cmdline ["rvvm", "-mem", "64M", "-mem="]) vm_args_zero
    (Parsed.mk true { parse_defaults vm_args_zero with mem := 64 * 2 ^ 20 } [])
    1 3 _ _ .mem (by rfl) rfl (by decide) Reach.start (by decide) (by decide) hr3 (by decide)
    (by decide) (by
      intro j b _ h1 h2
      have : (cmdline ["rvvm", "-mem", "64M", "-mem="]).length = 4 := rfl
      omega)
  have hc' : 64 * 2 ^ 20 = mem_value mem_suffix_shift_spec [] := hc
  exact absurd hc' (by decide)

/-- C9, amended: when `parse_args` succeeds, the field of each value option
(dtb, image, bootrom, kernel, mem, smp, res, dumpdtb) holds the value given by
the last occurrence of the option that assigns it, where every occurrence
assigns except a `mem` with an empty value: if the loop reaches an assigning
occurrence of `X` at cursor `i` and no assigning occurrence of `X` after it,
the final record holds in the field of `X` what the value at `i` gives. -/
theorem last_occurrence_wins (mss : Char → Nat) (argv : List CStr) (args0 : vm_args_t)
    (p : Parsed) (i : Nat) (a : vm_args_t) (X : Handler)
    (hp : parse_args mss argv args0 = some p) (hok : p.ok = true)
    (_hX : X ∈ value_options)
    (hr : Reach mss argv args0 i a) (hi : i < argv.length)
    (hocc : assigns argv i X)
    (hlast : ∀ j b, Reach mss argv args0 j b → i < j → j < argv.length → ¬ assigns argv j X) :
    field_holds mss X (opt_at argv i).arg_val p.args :=
  last_assignment_holds mss argv args0 p i a X hp hok hr hi hocc hlast

/-- The amended rule of C9 at `rvvm -mem 64M -mem=`: the occurrence at cursor 1
is the last that assigns, and the memory size is what `64M` gives. -/
theorem last_occurrence_wins_witness :
    ∃ p, parse_args mem_suffix_shift_spec (cmdline ["rvvm", "-mem", "64M", "-mem="])
        vm_args_zero = some p ∧
      field_holds mem_suffix_shift_spec .mem "64M".toList p.args :=
  ⟨Parsed.mk true { parse_defaults vm_args_zero with mem := 64 * 2 ^ 20 } [], by rfl,
    last_occurrence_wins mem_suffix_shift_spec (cmdline ["rvvm", "-mem", "64M", "-mem="])
      vm_args_zero _ 1 _ .mem (by rfl) rfl (by decide) Reach.start (by decide) (by decide)
      (by
        intro j b _ h1 h2
        have hlen : (cmdline ["rvvm", "-mem", "64M", "-mem="]).length = 4 := rfl
        have hj : j = 2 ∨ j = 3 := by omega
        rcases hj with hj | hj <;> subst hj <;> decide)⟩

/-! ## C10: the order of the options -/

theorem opt_at_append (pre rest : List CStr) (k : Nat) :
    opt_at (pre ++ rest) (pre.length + k) = opt_at rest k := by
  unfold opt_at
  have h1 : (pre ++ rest).getD (pre.length + k) [] = rest.getD k [] := by
    rw [List.getD_eq_getElem?_getD, List.getD_eq_getElem?_getD,
      List.getElem?_append_right (by omega)]
    congr 2
    omega
  have h2 : (pre ++ rest)[pre.length + k + 1]? = rest[k + 1]? := by
    rw [List.getElem?_append_right (by omega)]
    congr 1
    omega
  rw [h1, h2]

theorem run_handler_shift (mss : Char → Nat) (h : Handler) (v : CStr) (p n j : Nat)
    (a : vm_args_t) (hj : 1 ≤ j) :
    run_handler mss h v p (n + j) a = (run_handler mss h v p j a).shift n := by
  cases h <;> simp only [run_handler, Iter.shift]
  case mem => split <;> rfl
  case res => split <;> rfl
  case rv64 =>
    by_cases hp : p = 2
    · simp only [if_pos hp]; congr 1; omega
    · simp only [if_neg hp]
  case nogui =>
    by_cases hp : p = 2
    · simp only [if_pos hp]; congr 1; omega
    · simp only [if_neg hp]

theorem parse_iter_append (mss : Char → Nat) (pre rest : List CStr) (k : Nat) (a : vm_args_t) :
    parse_iter mss (pre ++ rest) (pre.length + k) a = (parse_iter mss rest k a).shift pre.length := by
  rw [parse_iter_eq, parse_iter_eq, opt_at_append, Nat.add_assoc]
  refine run_handler_shift mss _ _ _ _ _ a ?_
  rcases opt_at_argpair rest k with h | ⟨h, _⟩ <;> omega

/-- The loop on `pre ++ rest` from a cursor inside `rest` is the loop on `rest`. -/
theorem parse_loop_append (mss : Char → Nat) (pre rest : List CStr) :
    ∀ (fuel k : Nat) (a : vm_args_t),
      parse_loop mss (pre ++ rest) fuel (pre.length + k) a = parse_loop mss rest fuel k a := by
  intro fuel
  induction fuel with
  | zero =>
    intro k a
    simp only [parse_loop, List.length_append, Nat.add_lt_add_iff_left]
  | succ n ih =>
    intro k a
    simp only [parse_loop_succ, List.length_append, Nat.add_lt_add_iff_left]
    rw [parse_iter_append]
    cases parse_iter mss rest k a with
    | next i' a' => simp only [Iter.shift]; rw [ih]
    | ret_false out a' => rfl

theorem run_from_eq (mss : Char → Nat) (toks : List CStr) (a : vm_args_t) (fuel : Nat)
    (h : toks.length ≤ fuel) : parse_loop mss toks fuel 0 a = run_from mss toks a :=
  (parse_loop_fuel mss toks toks.length 0 a (by omega)).2 fuel (by omega)

/-- The function `parse_args` runs the loop on the tokens after `argv[0]`. -/
theorem parse_args_cons (mss : Char → Nat) (prog : CStr) (toks : List CStr) (args0 : vm_args_t) :
    parse_args mss (prog :: toks) args0 = run_from mss toks (parse_defaults args0) := by
  unfold parse_args
  have := parse_loop_append mss [prog] toks (prog :: toks).length 0 (parse_defaults args0)
  simp only [List.singleton_append, List.length_singleton, Nat.add_zero] at this
  rw [this]
  exact run_from_eq mss toks _ _ (by simp)

/-- After a pass that leads from the first token of `u ++ rest` to the first
token of `rest`, the loop goes on as on `rest`. -/
theorem run_from_pass (mss : Char → Nat) (u rest : List CStr) (a a' : vm_args_t)
    (hu : u ≠ [])
    (h : parse_iter mss (u ++ rest) 0 a = .next u.length a') :
    run_from mss (u ++ rest) a = run_from mss rest a' := by
  have hlen : 0 < (u ++ rest).length := by
    cases u with
    | nil => exact absurd rfl hu
    | cons x xs => simp
  unfold run_from
  rw [parse_loop_step mss (u ++ rest) 0 a hlen, h]
  have := parse_loop_append mss u rest (u ++ rest).length 0 a'
  rw [Nat.add_zero] at this
  show parse_loop mss (u ++ rest) (u ++ rest).length u.length a' = _
  rw [this]
  exact run_from_eq mss rest a' _ (by simp)

theorem run_from_fail (mss : Char → Nat) (toks : List CStr) (a a' : vm_args_t) (out : Call)
    (hu : toks ≠ [])
    (h : parse_iter mss toks 0 a = .ret_false out a') :
    run_from mss toks a = some { ok := false, args := a', out := [out] } := by
  have hlen : 0 < toks.length := List.length_pos.mpr hu
  unfold run_from
  rw [parse_loop_step mss toks 0 a hlen, h]

theorem run_from_nil (mss : Char → Nat) (a : vm_args_t) :
    run_from mss [] a = some { ok := true, args := a, out := [] } := rfl

theorem opt_at_zero (t : CStr) (l : List CStr) : opt_at (t :: l) 0 = get_arg t l.head? := by
  unfold opt_at
  cases l <;> simp

/-- The body of a branch in terms of `apply_branch`: the cursor it leaves and
the record, whatever the cursor and token count it is run with. -/
theorem run_handler_apply (mss : Char → Nat) (h : Handler) (v : CStr) (p j : Nat)
    (a : vm_args_t) :
    (∀ a', apply_branch mss (h, v) a = some a' →
      run_handler mss h v p j a =
        .next (if (h = .rv64 ∨ h = .nogui) ∧ p = 2 then j - 1 else j) a') ∧
    (apply_branch mss (h, v) a = none → ∃ out, run_handler mss h v p j a = .ret_false out a) := by
  cases h <;> simp only [apply_branch, run_handler]
  case mem => cases v.getLast? <;> simp
  case res => cases find_x v <;> simp
  case rv64 => by_cases hp : p = 2 <;> simp [hp]
  case nogui => by_cases hp : p = 2 <;> simp [hp]
  all_goals simp

theorem apply_branch_switch (mss : Char → Nat) (h : Handler) (hs : h = .rv64 ∨ h = .nogui)
    (v v' : CStr) (a : vm_args_t) :
    apply_branch mss (h, v) a = apply_branch mss (h, v') a ∧
    ∃ a', apply_branch mss (h, v) a = some a' := by
  rcases hs with hs | hs <;> subst hs <;> exact ⟨rfl, _, rfl⟩

/-- A positional token at the head of a token list: one pass, through the
`bootrom` branch. -/
theorem run_from_positional (mss : Char → Nat) (t : CStr) (rest : List CStr) (a : vm_args_t)
    (ht : t.head? ≠ some '-') :
    run_from mss (t :: rest) a = run_from mss rest { a with bootrom := some t } := by
  have hit : parse_iter mss ([t] ++ rest) 0 a = .next [t].length { a with bootrom := some t } := by
    rw [parse_iter_eq]
    simp only [List.singleton_append, opt_at_zero, get_arg_positional t _ ht]
    have hb : branch "bootrom".toList = .bootrom := by decide
    rw [hb]
    rfl
  exact run_from_pass mss [t] rest a _ (by simp) hit

theorem mem_opt_name (t : CStr) (ht : t.head? = some '-') (he : '=' ∈ t) : '=' ∈ opt_name t := by
  cases t with
  | nil => cases ht
  | cons c r =>
    have hc : c = '-' := by simpa using ht
    subst hc
    have hr : '=' ∈ r := by
      rcases List.mem_cons.mp he with h | h
      · exact absurd h (by decide)
      · exact h
    cases r with
    | nil => cases hr
    | cons d r' =>
      by_cases hd : d = '-'
      · subst hd
        have : '=' ∈ r' := by
          rcases List.mem_cons.mp hr with h | h
          · exact absurd h (by decide)
          · exact h
        simpa [opt_name] using this
      · simpa [opt_name, hd] using hr

theorem not_mem_opt_name (t : CStr) (he : '=' ∉ t) : '=' ∉ opt_name t := by
  unfold opt_name
  exact fun h => he (List.mem_of_mem_drop h)

theorem find_eq_of_mem (s : CStr) (h : '=' ∈ s) : ∃ v, find_eq s = some v := by
  cases hf : find_eq s with
  | some v => exact ⟨v, rfl⟩
  | none =>
    induction s with
    | nil => cases h
    | cons c cs ih =>
      by_cases hc : c = '='
      · simp [find_eq, hc] at hf
      · simp only [find_eq, if_neg hc] at hf
        rcases List.mem_cons.mp h with h | h
        · exact absurd h.symm hc
        · exact ih h hf

/-- One complete option at the head of a token list: the loop runs its
branches and goes on with the tokens after it, or returns false when one of
the branches does. -/
theorem run_from_option (mss : Char → Nat) (u rest : List CStr) (a : vm_args_t)
    (hu : complete_option u) :
    (∀ a', apply_all mss (option_actions u) a = some a' →
      run_from mss (u ++ rest) a = run_from mss rest a') ∧
    (apply_all mss (option_actions u) a = none →
      ∃ p, run_from mss (u ++ rest) a = some p ∧ p.ok = false) := by
  -- a single pass through the branch `h` with value `v` that consumes all of `u`
  have single : ∀ (h : Handler) (v : CStr) (n : Nat), u ≠ [] → u.length = n →
      option_actions u = [(h, v)] →
      (∀ a', apply_branch mss (h, v) a = some a' →
        parse_iter mss (u ++ rest) 0 a = .next n a') →
      (apply_branch mss (h, v) a = none →
        ∃ out, parse_iter mss (u ++ rest) 0 a = .ret_false out a) →
      (∀ a', apply_all mss (option_actions u) a = some a' →
        run_from mss (u ++ rest) a = run_from mss rest a') ∧
      (apply_all mss (option_actions u) a = none →
        ∃ p, run_from mss (u ++ rest) a = some p ∧ p.ok = false) := by
    intro h v n hne hlen hact hnext hfail
    rw [hact]
    simp only [apply_all]
    cases hab : apply_branch mss (h, v) a with
    | some a1 =>
      refine ⟨fun a' ha' => ?_, fun hn => by cases hn⟩
      injection ha' with ha'
      subst ha'
      exact run_from_pass mss u rest a a1 hne (by rw [hlen]; exact hnext a1 hab)
    | none =>
      refine ⟨fun a' ha' => (by cases ha'), fun _ => ?_⟩
      obtain ⟨out, ho⟩ := hfail hab
      exact ⟨_, run_from_fail mss (u ++ rest) a a out (by simp [hne]) ho, rfl⟩
  match u, hu with
  | [t], hu =>
    simp only [complete_option] at hu
    rcases hu with hpos | ⟨hd, he⟩ | ⟨hd, he, hs⟩
    · -- positional token
      have hg : ∀ x, get_arg t x = ⟨1, "bootrom".toList, t⟩ := fun x => get_arg_positional t x hpos
      refine single (branch "bootrom".toList) t 1 (by simp) rfl ?_ ?_ ?_
      · simp [option_actions, hg]
      · intro a' ha'
        rw [parse_iter_eq]
        simp only [List.singleton_append, opt_at_zero, hg]
        rw [(run_handler_apply mss _ t 1 (0 + 1) a).1 a' ha']
        simp
      · intro hn
        rw [parse_iter_eq]
        simp only [List.singleton_append, opt_at_zero, hg]
        exact (run_handler_apply mss _ t 1 (0 + 1) a).2 hn
    · -- token with `=`
      obtain ⟨v, hv⟩ := find_eq_of_mem _ (mem_opt_name t hd he)
      have hg : ∀ x, get_arg t x = ⟨1, opt_name t, v⟩ := fun x => get_arg_with_eq t v x hd hv
      refine single (branch (opt_name t)) v 1 (by simp) rfl ?_ ?_ ?_
      · simp [option_actions, hg]
      · intro a' ha'
        rw [parse_iter_eq]
        simp only [List.singleton_append, opt_at_zero, hg]
        rw [(run_handler_apply mss _ v 1 (0 + 1) a).1 a' ha']
        simp
      · intro hn
        rw [parse_iter_eq]
        simp only [List.singleton_append, opt_at_zero, hg]
        exact (run_handler_apply mss _ v 1 (0 + 1) a).2 hn
    · -- switch
      have hne : find_eq (opt_name t) = none := find_eq_none _ (not_mem_opt_name t he)
      have hg0 : get_arg t none = ⟨1, opt_name t, []⟩ :=
        get_arg_bare t none hd hne (fun n hn => by cases hn)
      refine single (branch (opt_name t)) [] 1 (by simp) rfl ?_ ?_ ?_
      · simp [option_actions, hg0]
      · intro a' ha'
        rw [parse_iter_eq]
        simp only [List.singleton_append, opt_at_zero]
        have hname : (get_arg t rest.head?).arg_name = opt_name t := get_arg_name t _ hd
        rw [hname]
        rw [(apply_branch_switch mss _ hs [] (get_arg t rest.head?).arg_val a).1] at ha'
        rw [(run_handler_apply mss _ _ _ _ a).1 a' ha']
        congr 1
        rcases get_arg_argpair t rest.head? with h1 | ⟨h2, _⟩
        · rw [h1]; simp
        · rw [h2]; simp [hs]
      · intro hn
        obtain ⟨a', ha'⟩ := (apply_branch_switch mss _ hs [] [] a).2
        rw [ha'] at hn
        cases hn
  | [t, v], hu =>
    simp only [complete_option] at hu
    obtain ⟨hd, he, hv⟩ := hu
    have hne : find_eq (opt_name t) = none := find_eq_none _ (not_mem_opt_name t he)
    have hg : get_arg t (some v) = ⟨2, opt_name t, v⟩ := get_arg_pair t v hd hne hv
    by_cases hs : branch (opt_name t) = .rv64 ∨ branch (opt_name t) = .nogui
    · -- a switch followed by a token: the token is given back
      have hact : option_actions [t, v] = [(branch (opt_name t), v), (.bootrom, v)] := by
        simp [option_actions, hg, hs]
      obtain ⟨a1, ha1⟩ := (apply_branch_switch mss _ hs v v a).2
      have h1 : parse_iter mss ([t] ++ (v :: rest)) 0 a = .next [t].length a1 := by
        rw [parse_iter_eq]
        simp only [List.singleton_append, opt_at_zero, List.head?_cons, hg]
        rw [(run_handler_apply mss _ v 2 (0 + 2) a).1 a1 ha1]
        simp [hs]
      have e1 : run_from mss ([t, v] ++ rest) a = run_from mss (v :: rest) a1 :=
        run_from_pass mss [t] (v :: rest) a a1 (by simp) h1
      have e2 := run_from_positional mss v rest a1 hv
      rw [hact]
      simp only [apply_all, ha1]
      have hb : apply_branch mss (.bootrom, v) a1 = some { a1 with bootrom := some v } := rfl
      rw [hb]
      refine ⟨fun a' ha' => ?_, fun hn => by cases hn⟩
      injection ha' with ha'
      subst ha'
      rw [e1, e2]
    · -- a pair
      refine single (branch (opt_name t)) v 2 (by simp) rfl ?_ ?_ ?_
      · simp [option_actions, hg, hs]
      · intro a' ha'
        rw [parse_iter_eq]
        simp only [List.cons_append, List.nil_append, opt_at_zero, List.head?_cons, hg]
        rw [(run_handler_apply mss _ v 2 (0 + 2) a).1 a' ha']
        simp [hs]
      · intro hn
        rw [parse_iter_eq]
        simp only [List.cons_append, List.nil_append, opt_at_zero, List.head?_cons, hg]
        exact (run_handler_apply mss _ v 2 (0 + 2) a).2 hn

theorem apply_all_append (mss : Char → Nat) (l1 l2 : List (Handler × CStr)) :
    ∀ a, apply_all mss (l1 ++ l2) a =
      match apply_all mss l1 a with
      | some a' => apply_all mss l2 a'
      | none => none := by
  induction l1 with
  | nil => intro a; rfl
  | cons hv l ih =>
    intro a
    simp only [List.cons_append, apply_all]
    cases apply_branch mss hv a with
    | some a1 => exact ih a1
    | none => rfl

/-- The loop on a token list made of complete options runs the branches of the
options in order. -/
theorem run_from_options (mss : Char → Nat) :
    ∀ (us : List (List CStr)) (a : vm_args_t), (∀ u ∈ us, complete_option u) →
      (∀ a', apply_all mss (us.flatMap option_actions) a = some a' →
        run_from mss us.flatten a = some { ok := true, args := a', out := [] }) ∧
      (apply_all mss (us.flatMap option_actions) a = none →
        ∃ p, run_from mss us.flatten a = some p ∧ p.ok = false) := by
  intro us
  induction us with
  | nil =>
    intro a _
    refine ⟨fun a' ha' => ?_, fun hn => by cases hn⟩
    injection ha' with ha'
    subst ha'
    rfl
  | cons u us ih =>
    intro a hc
    have hu := run_from_option mss u us.flatten a (hc u (by simp))
    have hrest : ∀ v ∈ us, complete_option v := fun v hv => hc v (by simp [hv])
    simp only [List.flatMap_cons, List.flatten_cons, apply_all_append]
    cases h1 : apply_all mss (option_actions u) a with
    | some a1 =>
      simp only []
      rw [hu.1 a1 h1]
      exact ih a1 hrest
    | none =>
      refine ⟨fun a' ha' => (by cases ha'), fun _ => hu.2 h1⟩

theorem agree_symm (X : Handler) (a b : vm_args_t) (h : agree X a b) : agree X b a := by
  cases X <;> simp only [agree] at h ⊢
  case res => exact ⟨h.1.symm, h.2.symm⟩
  all_goals exact h.symm

/-- Whether the body of a branch returns false does not depend on the record. -/
theorem apply_branch_isSome (mss : Char → Nat) (hv : Handler × CStr) (a b : vm_args_t) :
    (apply_branch mss hv a).isSome = (apply_branch mss hv b).isSome := by
  obtain ⟨h, v⟩ := hv
  cases h <;> simp only [apply_branch, run_handler]
  case mem => cases v.getLast? <;> rfl
  case res => cases find_x v <;> rfl
  all_goals rfl

theorem apply_branch_frame (mss : Char → Nat) (hv : Handler × CStr) (X : Handler)
    (hne : hv.1 ≠ X) (a a' : vm_args_t) (h : apply_branch mss hv a = some a') :
    agree X a' a := by
  unfold apply_branch at h
  cases hr : run_handler mss hv.1 hv.2 1 1 a with
  | next i r =>
    rw [hr] at h
    injection h with h
    subst h
    exact run_handler_frame mss hv.1 X hne hv.2 1 1 i a r hr
  | ret_false out r => rw [hr] at h; cases h

/-- The body of a branch gives its own field a content that depends on the
value only, or leaves it as it was. -/
theorem apply_branch_own (mss : Char → Nat) (h : Handler) (v : CStr) (a b a' b' : vm_args_t)
    (hab : agree h a b) (ha : apply_branch mss (h, v) a = some a')
    (hb : apply_branch mss (h, v) b = some b') : agree h a' b' := by
  cases h <;> simp only [apply_branch, run_handler] at ha hb
  case mem =>
    cases hl : v.getLast? with
    | none =>
      rw [hl] at ha hb
      injection ha with ha
      injection hb with hb
      subst ha
      subst hb
      exact hab
    | some last =>
      rw [hl] at ha hb
      injection ha with ha
      injection hb with hb
      subst ha
      subst hb
      rfl
  case res =>
    cases hx : find_x v with
    | none => rw [hx] at ha; cases ha
    | some rest =>
      rw [hx] at ha hb
      injection ha with ha
      injection hb with hb
      subst ha
      subst hb
      exact ⟨rfl, rfl⟩
  case help => cases ha
  case ignored => trivial
  all_goals
    injection ha with ha
    injection hb with hb
    subst ha
    subst hb
    rfl

theorem apply_branch_congr (mss : Char → Nat) (hv : Handler × CStr) (X : Handler)
    (a b a' b' : vm_args_t) (hab : agree X a b) (ha : apply_branch mss hv a = some a')
    (hb : apply_branch mss hv b = some b') : agree X a' b' := by
  by_cases hX : hv.1 = X
  · obtain ⟨h, v⟩ := hv
    simp only at hX
    subst hX
    exact apply_branch_own mss h v a b a' b' hab ha hb
  · exact agree_trans X a' a b' (apply_branch_frame mss hv X hX a a' ha)
      (agree_trans X a b b' hab (agree_symm X b' b (apply_branch_frame mss hv X hX b b' hb)))

theorem run_handler_sbi (mss : Char → Nat) (h : Handler) (v : CStr) (p j j' : Nat)
    (a a' : vm_args_t) (hr : run_handler mss h v p j a = .next j' a') :
    a'.sbi_align_fix = a.sbi_align_fix := by
  cases h <;> simp only [run_handler] at hr
  case mem => split at hr <;> (injection hr with h1 h2; subst h2; rfl)
  case res =>
    split at hr
    · cases hr
    · injection hr with h1 h2; subst h2; rfl
  case help => cases hr
  all_goals (injection hr with h1 h2; subst h2; rfl)

theorem apply_branch_sbi (mss : Char → Nat) (hv : Handler × CStr) (a a' : vm_args_t)
    (h : apply_branch mss hv a = some a') : a'.sbi_align_fix = a.sbi_align_fix := by
  unfold apply_branch at h
  cases hr : run_handler mss hv.1 hv.2 1 1 a with
  | next i r =>
    rw [hr] at h
    injection h with h
    subst h
    exact run_handler_sbi mss hv.1 hv.2 1 1 i a r hr
  | ret_false out r => rw [hr] at h; cases h

theorem apply_all_sbi (mss : Char → Nat) :
    ∀ (l : List (Handler × CStr)) (a r : vm_args_t), apply_all mss l a = some r →
      r.sbi_align_fix = a.sbi_align_fix := by
  intro l
  induction l with
  | nil => intro a r h; injection h with h; rw [h]
  | cons hv l ih =>
    intro a r h
    simp only [apply_all] at h
    cases h1 : apply_branch mss hv a with
    | none => rw [h1] at h; cases h
    | some a1 =>
      rw [h1] at h
      rw [ih a1 r h, apply_branch_sbi mss hv a a1 h1]

/-- The body of a branch that does not write the field of `X` leaves that
field as it was. -/
theorem apply_branch_no_write (mss : Char → Nat) (hv : Handler × CStr) (X : Handler)
    (hw : ¬ writes hv X) (a a' : vm_args_t) (h : apply_branch mss hv a = some a') :
    agree X a' a := by
  by_cases hX : hv.1 = X
  · obtain ⟨h', v⟩ := hv
    simp only at hX
    subst hX
    by_cases hhelp : h' = .help
    · subst hhelp; trivial
    by_cases hign : h' = .ignored
    · subst hign; trivial
    have hmem : h' = .mem ∧ v = [] := by
      by_contra hcon
      exact hw ⟨rfl, hhelp, hign, fun hm hv => hcon ⟨hm, hv⟩⟩
    obtain ⟨hm, hv⟩ := hmem
    subst hm
    subst hv
    simp only [apply_branch, run_handler, List.getLast?_nil] at h
    injection h with h
    subst h
    exact agree_refl _ _
  · exact apply_branch_frame mss hv X hX a a' h

/-- The field of `X` after a list of branches is the one that the branches in
the list that write it give, run alone. -/
theorem apply_all_filter (mss : Char → Nat) (X : Handler) :
    ∀ (l : List (Handler × CStr)) (a b r : vm_args_t), agree X a b →
      apply_all mss l a = some r →
      ∃ r', apply_all mss (l.filter (fun hv => decide (writes hv X))) b = some r' ∧
        agree X r r' := by
  intro l
  induction l with
  | nil =>
    intro a b r hab h
    injection h with h
    subst h
    exact ⟨b, rfl, hab⟩
  | cons hv l ih =>
    intro a b r hab h
    simp only [apply_all] at h
    cases h1 : apply_branch mss hv a with
    | none => rw [h1] at h; cases h
    | some a1 =>
      rw [h1] at h
      by_cases hX : writes hv X
      · rw [List.filter_cons_of_pos (by simpa using hX)]
        have hs := apply_branch_isSome mss hv a b
        rw [h1] at hs
        cases h2 : apply_branch mss hv b with
        | none => rw [h2] at hs; cases hs
        | some b1 =>
          simp only [apply_all, h2]
          exact ih a1 b1 r (apply_branch_congr mss hv X a b a1 b1 hab h1 h2) h
      · rw [List.filter_cons_of_neg (by simpa using hX)]
        exact ih a1 b r
          (agree_trans X a1 a b (apply_branch_no_write mss hv X hX a a1 h1) hab) h

theorem apply_all_total (mss : Char → Nat) :
    ∀ (l : List (Handler × CStr)) (a : vm_args_t),
      (∀ hv ∈ l, ∀ b, (apply_branch mss hv b).isSome = true) →
      ∃ r, apply_all mss l a = some r := by
  intro l
  induction l with
  | nil => intro a _; exact ⟨a, rfl⟩
  | cons hv l ih =>
    intro a h
    have h1 := h hv (by simp) a
    cases h2 : apply_branch mss hv a with
    | none => rw [h2] at h1; cases h1
    | some a1 =>
      simp only [apply_all, h2]
      exact ih a1 (fun x hx => h x (by simp [hx]))

theorem apply_all_each (mss : Char → Nat) :
    ∀ (l : List (Handler × CStr)) (a r : vm_args_t), apply_all mss l a = some r →
      ∀ hv ∈ l, ∀ b, (apply_branch mss hv b).isSome = true := by
  intro l
  induction l with
  | nil => intro a r _ hv hm; cases hm
  | cons x l ih =>
    intro a r h hv hm b
    simp only [apply_all] at h
    cases h1 : apply_branch mss x a with
    | none => rw [h1] at h; cases h
    | some a1 =>
      rw [h1] at h
      rcases List.mem_cons.mp hm with e | hm'
      · rw [e, apply_branch_isSome mss x b a, h1]; rfl
      · exact ih a1 r h hv hm' b

theorem vm_args_ext (a b : vm_args_t) (h : ∀ X, agree X a b)
    (hs : a.sbi_align_fix = b.sbi_align_fix) : a = b := by
  have h1 := h .dtb
  have h2 := h .image
  have h3 := h .bootrom
  have h4 := h .kernel
  have h5 := h .mem
  have h6 := h .smp
  have h7 := h .res
  have h8 := h .dumpdtb
  have h9 := h .rv64
  have h10 := h .nogui
  simp only [agree] at h1 h2 h3 h4 h5 h6 h7 h8 h9 h10
  cases a
  cases b
  simp only [vm_args_t.mk.injEq]
  simp only at h1 h2 h3 h4 h5 h6 h7 h8 h9 h10 hs
  exact ⟨h3, h4, h1, h8, h2, h5, h6, h7.1, h7.2, h9, hs, h10⟩

/-- Two lists of branches with the same members and, for every field, the
same branches writing that field in the same order lead to the same record. -/
theorem apply_all_reorder (mss : Char → Nat) (l l' : List (Handler × CStr)) (a r : vm_args_t)
    (hmem : ∀ hv ∈ l', hv ∈ l)
    (hord : ∀ X, l.filter (fun hv => decide (writes hv X)) =
      l'.filter (fun hv => decide (writes hv X)))
    (h : apply_all mss l a = some r) : apply_all mss l' a = some r := by
  have hall := apply_all_each mss l a r h
  obtain ⟨r', hr'⟩ := apply_all_total mss l' a (fun hv hm b => hall hv (hmem hv hm) b)
  rw [hr']
  congr 1
  refine vm_args_ext r' r (fun X => ?_) ?_
  · obtain ⟨x, hx, hxa⟩ := apply_all_filter mss X l a a r (agree_refl X a) h
    obtain ⟨y, hy, hya⟩ := apply_all_filter mss X l' a a r' (agree_refl X a) hr'
    rw [← hord X, hx] at hy
    injection hy with hy
    subst hy
    exact agree_trans X r' x r hya (agree_symm X r x hxa)
  · rw [apply_all_sbi mss l a r h, apply_all_sbi mss l' a r' hr']

theorem flatMap_actions_filter (X : Handler) (us : List (List CStr)) :
    (us.flatMap option_actions).filter (fun hv => decide (writes hv X)) =
      (us.filter (fun u => decide (option_sets u X))).flatMap
        (fun u => (option_actions u).filter (fun hv => decide (writes hv X))) := by
  induction us with
  | nil => rfl
  | cons u us ih =>
    rw [List.flatMap_cons, List.filter_append, ih]
    by_cases hs : option_sets u X
    · rw [List.filter_cons_of_pos (by simpa using hs), List.flatMap_cons]
    · rw [List.filter_cons_of_neg (by simpa using hs)]
      have hnil : (option_actions u).filter (fun hv => decide (writes hv X)) = [] := by
        rw [List.filter_eq_nil_iff]
        intro hv hm
        simp only [decide_eq_true_eq]
        exact fun e => hs ⟨hv, hm, e⟩
      rw [hnil, List.nil_append]

/-- C10: the parsed configuration does not depend on the order of the
options, except that the last write wins for options setting the same field.
For an argument list `prog :: us.flatten` made of complete options `us` that
`parse_args` parses successfully, and every reordering `vs` of these options
in which, for each field, the options setting that field come in the same
order as in `us`, `parse_args` succeeds on `prog :: vs.flatten` with the same
record. Options that set no field (an unknown name, a `mem` with an empty
value) may move freely. -/
theorem option_order_independent (mss : Char → Nat) (prog : CStr) (us vs : List (List CStr))
    (args0 : vm_args_t) (p : Parsed)
    (hc : ∀ u ∈ us, complete_option u)
    (hperm : us.Perm vs)
    (hord : ∀ X : Handler, us.filter (fun u => decide (option_sets u X)) =
      vs.filter (fun u => decide (option_sets u X)))
    (hp : parse_args mss (prog :: us.flatten) args0 = some p) (hok : p.ok = true) :
    parse_args mss (prog :: vs.flatten) args0 = some p := by
  rw [parse_args_cons] at hp ⊢
  have hus := run_from_options mss us (parse_defaults args0) hc
  have hvs := run_from_options mss vs (parse_defaults args0)
    (fun u hu => hc u (hperm.mem_iff.mpr hu))
  cases h : apply_all mss (us.flatMap option_actions) (parse_defaults args0) with
  | none =>
    obtain ⟨q, hq, hqok⟩ := hus.2 h
    rw [hq] at hp
    injection hp with hp
    rw [hp] at hqok
    rw [hok] at hqok
    cases hqok
  | some r =>
    have hpr := hus.1 r h
    rw [hp] at hpr
    rw [hpr]
    refine hvs.1 r (apply_all_reorder mss _ _ _ r ?_ ?_ h)
    · intro hv hm
      obtain ⟨u, hu, hvu⟩ := List.mem_flatMap.mp hm
      exact List.mem_flatMap.mpr ⟨u, hperm.mem_iff.mpr hu, hvu⟩
    · intro X
      rw [flatMap_actions_filter, flatMap_actions_filter, hord X]

/-- The rule of C10 at `rvvm -foo=1 -mem=1G -rv64 -bar 2 -mem= boot.bin`,
reordered to `rvvm -mem= -bar 2 boot.bin -rv64 -foo=1 -mem=1G`: the unknown
options and the empty `-mem=` set no field, no two of the others set the same
field, and the record is the same. -/
theorem option_order_independent_witness :
    parse_args mem_suffix_shift_spec
        ("rvvm".toList ::
          [cmdline ["-mem="], cmdline ["-bar", "2"], cmdline ["boot.bin"], cmdline ["-rv64"],
            cmdline ["-foo=1"], cmdline ["-mem=1G"]].flatten) vm_args_zero =
      some (Parsed.mk true
        { parse_defaults vm_args_zero with
          rv64 := true, bootrom := some "boot.bin".toList, mem := 2 ^ 30 } []) :=
  option_order_independent mem_suffix_shift_spec "rvvm".toList
    [cmdline ["-foo=1"], cmdline ["-mem=1G"], cmdline ["-rv64"], cmdline ["-bar", "2"],
      cmdline ["-mem="], cmdline ["boot.bin"]]
    [cmdline ["-mem="], cmdline ["-bar", "2"], cmdline ["boot.bin"], cmdline ["-rv64"],
      cmdline ["-foo=1"], cmdline ["-mem=1G"]]
    vm_args_zero _ (by decide) (by decide) (by intro X; cases X <;> decide) (by rfl) rfl

/-! ## The shape of a run of `rvvm_run_with_args` -/

/-- When the machine is created and the boot artifacts are loaded, the run is
the four calls that did so, followed by the device part. -/
theorem run_with_args_boot_ok (lib : Lib) (args : vm_args_t) (m : Nat)
    (h : boot_ok lib args = some m) :
    rvvm_run_with_args lib args =
      [ .rvvm_create_machine lib.RVVM_DEFAULT_MEMBASE args.mem args.smp args.rv64,
        .rvvm_load_bootrom m args.bootrom, .rvvm_load_kernel m args.kernel,
        .rvvm_load_dtb m args.dtb ] ++ attach_devices lib m args := by
  unfold boot_ok at h
  unfold rvvm_run_with_args
  cases hc : lib.rvvm_create_machine lib.RVVM_DEFAULT_MEMBASE args.mem args.smp args.rv64 with
  | none => rw [hc] at h; cases h
  | some machine =>
    rw [hc] at h
    dsimp only at h ⊢
    cases h1 : lib.rvvm_load_bootrom machine args.bootrom with
    | false => simp [h1] at h
    | true =>
      cases h2 : lib.rvvm_load_kernel machine args.kernel with
      | false => simp [h1, h2] at h
      | true =>
        cases h3 : lib.rvvm_load_dtb machine args.dtb with
        | false => simp [h1, h2, h3] at h
        | true =>
          simp only [h1, h2, h3, Bool.and_self, if_true, Option.some.injEq] at h
          subst h
          simp [h1, h2, h3]

/-- When the creation or a loader fails, the run makes no call but those of
the creation and loading part and an error report. -/
theorem run_with_args_boot_fail (lib : Lib) (args : vm_args_t)
    (h : boot_ok lib args = none) :
    ∀ c ∈ rvvm_run_with_args lib args, boot_call c = true := by
  unfold boot_ok at h
  unfold rvvm_run_with_args
  cases hc : lib.rvvm_create_machine lib.RVVM_DEFAULT_MEMBASE args.mem args.smp args.rv64 with
  | none => simp [boot_call]
  | some machine =>
    rw [hc] at h
    dsimp only at h ⊢
    cases h1 : lib.rvvm_load_bootrom machine args.bootrom with
    | false => simp [boot_call]
    | true =>
      cases h2 : lib.rvvm_load_kernel machine args.kernel with
      | false => simp [boot_call]
      | true =>
        cases h3 : lib.rvvm_load_dtb machine args.dtb with
        | false => simp [boot_call]
        | true => simp [h1, h2, h3] at h

/-- The device part when no storage image is configured or the storage
controller attaches: every step up to the release of the machine. -/
theorem attach_devices_ok (lib : Lib) (m : Nat) (args : vm_args_t)
    (h : ∀ image, args.image = some image →
      lib.nvme_init (lib.pci_bus_init_auto m (lib.plic_init_auto m)) image true = true) :
    attach_devices lib m args =
      [ .clint_init_auto m, .plic_init_auto m,
        .pci_bus_init_auto m (lib.plic_init_auto m),
        .ns16550a_init_auto m (lib.plic_init_auto m), .syscon_init_auto m ]
      ++ (match args.image with
          | some image =>
            [ .rvvm_cmdline_append m "root=/dev/nvme0n1 rootflags=discard rw",
              .nvme_init (lib.pci_bus_init_auto m (lib.plic_init_auto m)) image true ]
          | none => [])
      ++ fb_block lib m (lib.plic_init_auto m) args
      ++ run_tail lib m (lib.plic_init_auto m) args := by
  unfold attach_devices
  cases hi : args.image with
  | none => simp
  | some image => simp [h image hi]

/-- The device part when the storage controller cannot open its image: it
ends with the error report, right after `nvme_init`. -/
theorem attach_devices_nvme_fail (lib : Lib) (m : Nat) (args : vm_args_t) (image : CStr)
    (hi : args.image = some image)
    (h : lib.nvme_init (lib.pci_bus_init_auto m (lib.plic_init_auto m)) image true = false) :
    attach_devices lib m args =
      [ .clint_init_auto m, .plic_init_auto m,
        .pci_bus_init_auto m (lib.plic_init_auto m),
        .ns16550a_init_auto m (lib.plic_init_auto m), .syscon_init_auto m,
        .rvvm_cmdline_append m "root=/dev/nvme0n1 rootflags=discard rw",
        .nvme_init (lib.pci_bus_init_auto m (lib.plic_init_auto m)) image true,
        .rvvm_error "Unable to open image file %s" (some image) ] := by
  unfold attach_devices
  simp [hi, h]

theorem boot_call_not_after_storage (c : Call) (h : boot_call c = true) :
    after_storage c = false := by
  cases c <;> first | rfl | cases h

/-! ## C11: a storage image that cannot be opened -/

/-- C11: when a storage image is configured and the storage controller cannot
open it, `rvvm_run_with_args` makes none of the calls that follow the storage
step: no display, network or clock device, no device-tree dump, no
`rvvm_start_machine`, no `rvvm_run_eventloop`. When the run gets as far as the
devices, it is exactly the calls up to `nvme_init`, followed by the report
`Unable to open image file`. -/
theorem storage_failure_aborts (lib : Lib) (args : vm_args_t) (image : CStr)
    (himg : args.image = some image)
    (hfail : ∀ bus, lib.nvme_init bus image true = false) :
    (∀ c ∈ rvvm_run_with_args lib args, after_storage c = false) ∧
    (∀ m, boot_ok lib args = some m →
      rvvm_run_with_args lib args =
        [ .rvvm_create_machine lib.RVVM_DEFAULT_MEMBASE args.mem args.smp args.rv64,
          .rvvm_load_bootrom m args.bootrom, .rvvm_load_kernel m args.kernel,
          .rvvm_load_dtb m args.dtb,
          .clint_init_auto m, .plic_init_auto m,
          .pci_bus_init_auto m (lib.plic_init_auto m),
          .ns16550a_init_auto m (lib.plic_init_auto m), .syscon_init_auto m,
          .rvvm_cmdline_append m "root=/dev/nvme0n1 rootflags=discard rw",
          .nvme_init (lib.pci_bus_init_auto m (lib.plic_init_auto m)) image true,
          .rvvm_error "Unable to open image file %s" (some image) ]) := by
  have hrun : ∀ m, boot_ok lib args = some m →
      rvvm_run_with_args lib args =
        [ .rvvm_create_machine lib.RVVM_DEFAULT_MEMBASE args.mem args.smp args.rv64,
          .rvvm_load_bootrom m args.bootrom, .rvvm_load_kernel m args.kernel,
          .rvvm_load_dtb m args.dtb,
          .clint_init_auto m, .plic_init_auto m,
          .pci_bus_init_auto m (lib.plic_init_auto m),
          .ns16550a_init_auto m (lib.plic_init_auto m), .syscon_init_auto m,
          .rvvm_cmdline_append m "root=/dev/nvme0n1 rootflags=discard rw",
          .nvme_init (lib.pci_bus_init_auto m (lib.plic_init_auto m)) image true,
          .rvvm_error "Unable to open image file %s" (some image) ] := by
    intro m hm
    rw [run_with_args_boot_ok lib args m hm,
      attach_devices_nvme_fail lib m args image himg (hfail _)]
    rfl
  refine ⟨?_, hrun⟩
  cases hb : boot_ok lib args with
  | none =>
    intro c hc
    exact boot_call_not_after_storage c (run_with_args_boot_fail lib args hb c hc)
  | some m =>
    rw [hrun m hb]
    intro c hc
    simp only [List.mem_cons, List.mem_singleton, List.not_mem_nil, or_false] at hc
    rcases hc with e | e | e | e | e | e | e | e | e | e | e | e <;> (rw [e]; rfl)

/-- The rule of C11 at the record of `rvvm -mem 128M -smp 2 -image disk.img
boot.bin` with a `disk.img` that cannot be opened. -/
theorem storage_failure_aborts_witness :
    parse_args mem_suffix_shift_spec
        (cmdline ["rvvm", "-mem", "128M", "-smp", "2", "-image", "disk.img", "boot.bin"])
        vm_args_zero = some (Parsed.mk true args_with_image []) ∧
    (∀ c ∈ rvvm_run_with_args lib_nvme_fails args_with_image, after_storage c = false) ∧
    (rvvm_run_with_args lib_nvme_fails args_with_image).getLast? =
      some (.rvvm_error "Unable to open image file %s" (some "disk.img".toList)) :=
  ⟨by rfl,
   (storage_failure_aborts lib_nvme_fails args_with_image "disk.img".toList rfl
      (fun _ => rfl)).1,
   by
    rw [(storage_failure_aborts lib_nvme_fails args_with_image "disk.img".toList rfl
      (fun _ => rfl)).2 1 rfl]
    rfl⟩

/-! ## C12: what is appended to the boot command line -/

theorem cmdline_appends_boot (t : List Call) (h : ∀ c ∈ t, boot_call c = true) :
    cmdline_appends t = [] := by
  unfold cmdline_appends
  rw [List.filterMap_eq_nil_iff]
  intro c hc
  have := h c hc
  cases c <;> first | rfl | cases this

theorem cmdline_appends_append (t1 t2 : List Call) :
    cmdline_appends (t1 ++ t2) = cmdline_appends t1 ++ cmdline_appends t2 := by
  unfold cmdline_appends
  exact List.filterMap_append _ _ _

theorem cmdline_appends_run_tail (lib : Lib) (m plic : Nat) (args : vm_args_t) :
    cmdline_appends (run_tail lib m plic args) = [] := by
  unfold run_tail
  cases lib.USE_NET <;> cases lib.USE_RTC <;> cases args.dumpdtb <;> rfl

theorem cmdline_appends_fb_block (lib : Lib) (m plic : Nat) (args : vm_args_t) :
    cmdline_appends (fb_block lib m plic args) =
      if (lib.USE_FB && !args.nogui) = true then ["console=tty0"] else [] := by
  unfold fb_block
  split <;> rfl

/-- C12 as stated fails when the storage controller cannot open its image:
`root=/dev/nvme0n1 rootflags=discard rw` is appended before `nvme_init` is
called, so it is in the buffer although no call of `nvme_init` succeeded. -/
theorem root_appended_only_if_attached_counterexample :
    ¬ (∀ (lib : Lib) (args : vm_args_t),
        "root=/dev/nvme0n1 rootflags=discard rw" ∈ cmdline_appends (rvvm_run_with_args lib args) →
        ∃ image bus, args.image = some image ∧ lib.nvme_init bus image true = true) := by
  intro h
  obtain ⟨image, bus, _, hok⟩ := h lib_nvme_fails args_with_image (by decide)
  cases hok

/-- C12, amended: the strings appended to the boot command-line buffer are
determined as follows, for every configuration and every outcome of the
library calls. Nothing is appended when the machine is not created or a boot
artifact is not loaded. Otherwise `root=/dev/nvme0n1 rootflags=discard rw` is
appended, once, if and only if a storage image is configured (it is appended
before `nvme_init` is called, whatever `nvme_init` returns), and
`console=tty0` is appended, once and after it, if and only if the display
chain is built: the storage step let the run go on, the display is compiled
in and nogui is not set. Nothing else is appended. -/
theorem cmdline_appends_exact (lib : Lib) (args : vm_args_t) :
    cmdline_appends (rvvm_run_with_args lib args) =
      match boot_ok lib args with
      | none => []
      | some m =>
        (match args.image with
         | some _ => ["root=/dev/nvme0n1 rootflags=discard rw"]
         | none => [])
        ++ (if (storage_ok lib m args && lib.USE_FB && !args.nogui) = true then ["console=tty0"]
            else []) := by
  cases hb : boot_ok lib args with
  | none => exact cmdline_appends_boot _ (run_with_args_boot_fail lib args hb)
  | some m =>
    rw [run_with_args_boot_ok lib args m hb, cmdline_appends_append]
    have h4 : cmdline_appends
        [ .rvvm_create_machine lib.RVVM_DEFAULT_MEMBASE args.mem args.smp args.rv64,
          .rvvm_load_bootrom m args.bootrom, .rvvm_load_kernel m args.kernel,
          .rvvm_load_dtb m args.dtb ] = [] := rfl
    rw [h4, List.nil_append]
    cases hi : args.image with
    | none =>
      rw [attach_devices_ok lib m args (fun image h => by rw [hi] at h; cases h)]
      simp only [hi, cmdline_appends_append, cmdline_appends_fb_block,
        cmdline_appends_run_tail, storage_ok, Bool.true_and, List.append_nil]
      rfl
    | some image =>
      cases hn : lib.nvme_init (lib.pci_bus_init_auto m (lib.plic_init_auto m)) image true with
      | false =>
        rw [attach_devices_nvme_fail lib m args image hi hn]
        simp only [storage_ok, hi, hn, Bool.false_and, Bool.false_eq_true, if_false]
        rfl
      | true =>
        rw [attach_devices_ok lib m args (fun img h => by rw [hi] at h; cases h; exact hn)]
        simp only [hi, cmdline_appends_append, cmdline_appends_fb_block,
          cmdline_appends_run_tail, storage_ok, hn, Bool.true_and, List.append_nil]
        rfl

/-! ## C13: the interrupt lines of the display chain -/

theorem irq_calls_append (t1 t2 : List Call) :
    irq_calls (t1 ++ t2) = irq_calls t1 ++ irq_calls t2 := by
  unfold irq_calls
  exact List.filter_append _ _

theorem irq_calls_boot (t : List Call) (h : ∀ c ∈ t, boot_call c = true) :
    irq_calls t = [] := by
  unfold irq_calls
  rw [List.filter_eq_nil_iff]
  intro c hc
  have := h c hc
  cases c <;> first | (cases this; done) | simp

theorem irq_calls_run_tail (lib : Lib) (m plic : Nat) (args : vm_args_t) :
    irq_calls (run_tail lib m plic args) = [] := by
  unfold run_tail
  cases lib.USE_NET <;> cases lib.USE_RTC <;> cases args.dumpdtb <;> rfl

theorem irq_calls_fb_block (lib : Lib) (m plic : Nat) (args : vm_args_t) :
    irq_calls (fb_block lib m plic args) =
      if (lib.USE_FB && !args.nogui) = true then
        [ .plic_alloc_irq plic,
          .altps2_init m 0x20000000 plic (lib.plic_alloc_irq plic 0) .ps2_mouse,
          .plic_alloc_irq plic,
          .altps2_init m 0x20001000 plic (lib.plic_alloc_irq plic 1) .ps2_keyboard ]
      else [] := by
  unfold fb_block
  split <;> rfl

/-- The requests for interrupt lines in a run of `rvvm_run_with_args` are
those of the display chain, when the run builds it. -/
theorem irq_calls_run (lib : Lib) (args : vm_args_t) :
    irq_calls (rvvm_run_with_args lib args) =
      match boot_ok lib args with
      | none => []
      | some m =>
        if (storage_ok lib m args && lib.USE_FB && !args.nogui) = true then
          [ .plic_alloc_irq (lib.plic_init_auto m),
            .altps2_init m 0x20000000 (lib.plic_init_auto m)
              (lib.plic_alloc_irq (lib.plic_init_auto m) 0) .ps2_mouse,
            .plic_alloc_irq (lib.plic_init_auto m),
            .altps2_init m 0x20001000 (lib.plic_init_auto m)
              (lib.plic_alloc_irq (lib.plic_init_auto m) 1) .ps2_keyboard ]
        else [] := by
  cases hb : boot_ok lib args with
  | none => exact irq_calls_boot _ (run_with_args_boot_fail lib args hb)
  | some m =>
    rw [run_with_args_boot_ok lib args m hb, irq_calls_append]
    have h4 : irq_calls
        [ .rvvm_create_machine lib.RVVM_DEFAULT_MEMBASE args.mem args.smp args.rv64,
          .rvvm_load_bootrom m args.bootrom, .rvvm_load_kernel m args.kernel,
          .rvvm_load_dtb m args.dtb ] = [] := rfl
    rw [h4, List.nil_append]
    cases hi : args.image with
    | none =>
      rw [attach_devices_ok lib m args (fun image h => by rw [hi] at h; cases h)]
      simp only [hi, irq_calls_append, irq_calls_fb_block, irq_calls_run_tail, storage_ok,
        Bool.true_and, List.append_nil]
      rfl
    | some image =>
      cases hn : lib.nvme_init (lib.pci_bus_init_auto m (lib.plic_init_auto m)) image true with
      | false =>
        rw [attach_devices_nvme_fail lib m args image hi hn]
        simp only [storage_ok, hi, hn, Bool.false_and, Bool.false_eq_true, if_false]
        rfl
      | true =>
        rw [attach_devices_ok lib m args (fun img h => by rw [hi] at h; cases h; exact hn)]
        simp only [hi, irq_calls_append, irq_calls_fb_block, irq_calls_run_tail, storage_ok, hn,
          Bool.true_and, List.append_nil]
        rfl

/-- C13 as stated fails at the record of
`rvvm -mem 128M -smp 2 -image disk.img boot.bin` with a library whose
`nvme_init` fails: the display is enabled (compiled in, nogui not set) and the
allocator hands out increasing lines, yet the run asks for no interrupt line
at all, since it returns at line 248, before the display chain. -/
theorem display_enabled_allocates_two_counterexample :
    ¬ (∀ (lib : Lib) (args : vm_args_t),
        (∀ plic j k, j < k → lib.plic_alloc_irq plic j < lib.plic_alloc_irq plic k) →
        lib.USE_FB = true → args.nogui = false →
        ∃ m plic,
          irq_calls (rvvm_run_with_args lib args) =
            [ .plic_alloc_irq plic,
              .altps2_init m 0x20000000 plic (lib.plic_alloc_irq plic 0) .ps2_mouse,
              .plic_alloc_irq plic,
              .altps2_init m 0x20001000 plic (lib.plic_alloc_irq plic 1) .ps2_keyboard ]) := by
  intro h
  obtain ⟨m, plic, hh⟩ := h lib_nvme_fails args_with_image
    (fun _ _ _ hjk => Nat.succ_lt_succ hjk) rfl rfl
  have hnone : irq_calls (rvvm_run_with_args lib_nvme_fails args_with_image) = [] := by rfl
  rw [hnone] at hh
  cases hh

/-- C13, amended: with the display enabled (compiled in, nogui not set), the
display chain asks the distributor for exactly two interrupt lines, gives the
first to the pointer device at MMIO base 0x20000000 and the second to the
keyboard device at 0x20001000, and the two lines differ when the allocator
hands out strictly increasing lines; a run that reaches the display chain (the
machine was created, the boot artifacts loaded and the storage step passed)
makes exactly these requests. A run that stops before the display chain (a
failed create or loader, or a failed `nvme_init`) asks for no line, and with
the display disabled no run asks for a line. -/
theorem display_irq_lines (lib : Lib) (args : vm_args_t)
    (hmono : ∀ plic j k, j < k → lib.plic_alloc_irq plic j < lib.plic_alloc_irq plic k) :
    (lib.USE_FB = true → args.nogui = false →
      (∀ m plic,
        irq_calls (fb_block lib m plic args) =
          [ .plic_alloc_irq plic,
            .altps2_init m 0x20000000 plic (lib.plic_alloc_irq plic 0) .ps2_mouse,
            .plic_alloc_irq plic,
            .altps2_init m 0x20001000 plic (lib.plic_alloc_irq plic 1) .ps2_keyboard ] ∧
        lib.plic_alloc_irq plic 0 ≠ lib.plic_alloc_irq plic 1) ∧
      (∀ m, boot_ok lib args = some m → storage_ok lib m args = true →
        irq_calls (rvvm_run_with_args lib args) =
          [ .plic_alloc_irq (lib.plic_init_auto m),
            .altps2_init m 0x20000000 (lib.plic_init_auto m)
              (lib.plic_alloc_irq (lib.plic_init_auto m) 0) .ps2_mouse,
            .plic_alloc_irq (lib.plic_init_auto m),
            .altps2_init m 0x20001000 (lib.plic_init_auto m)
              (lib.plic_alloc_irq (lib.plic_init_auto m) 1) .ps2_keyboard ])) ∧
    ((lib.USE_FB = false ∨ args.nogui = true) →
      irq_calls (rvvm_run_with_args lib args) = []) ∧
    (boot_ok lib args = none → irq_calls (rvvm_run_with_args lib args) = []) ∧
    (∀ m, boot_ok lib args = some m → storage_ok lib m args = false →
      irq_calls (rvvm_run_with_args lib args) = []) := by
  refine ⟨fun hfb hgui => ⟨fun m plic => ⟨?_, ?_⟩, fun m hb hs => ?_⟩, fun hoff => ?_,
    fun hb => ?_, fun m hb hs => ?_⟩
  · rw [irq_calls_fb_block, hfb, hgui]
    rfl
  · exact Nat.ne_of_lt (hmono plic 0 1 (by decide))
  · rw [irq_calls_run, hb]
    simp only [hs, hfb, hgui, Bool.not_false, Bool.and_self, if_true]
  · rw [irq_calls_run]
    cases hb : boot_ok lib args with
    | none => rfl
    | some m =>
      rcases hoff with h | h <;> simp [h]
  · rw [irq_calls_run, hb]
  · rw [irq_calls_run, hb]
    simp only [hs, Bool.false_and, Bool.false_eq_true, if_false]

/-- The rule of C13 at the record of `rvvm boot.bin`, with a library in which
every call succeeds and the allocator hands out the lines 1, 2, ... -/
theorem display_irq_lines_witness :
    irq_calls (rvvm_run_with_args lib_all_ok
        { parse_defaults vm_args_zero with bootrom := some "boot.bin".toList }) =
      [ .plic_alloc_irq 2, .altps2_init 1 0x20000000 2 1 .ps2_mouse,
        .plic_alloc_irq 2, .altps2_init 1 0x20001000 2 2 .ps2_keyboard ] :=
  ((display_irq_lines lib_all_ok
      { parse_defaults vm_args_zero with bootrom := some "boot.bin".toList }
      (fun _ _ _ h => Nat.succ_lt_succ h)).1 rfl rfl).2 1 rfl rfl

/-! ## C14: the defaults -/

theorem field_default_of_agree (X : Handler) (c : vm_args_t)
    (h : agree X c (parse_defaults vm_args_zero)) : field_default X c := by
  cases X <;> simp only [agree] at h <;> simp only [field_default]
  case res => exact ⟨h.1.trans rfl, h.2.trans rfl⟩
  all_goals exact h.trans rfl

/-- The field of a branch that no reached option takes keeps the content it
had before the loop. -/
theorem untouched_field_kept (mss : Char → Nat) (argv : List CStr) (args0 : vm_args_t)
    (p : Parsed) (X : Handler)
    (hp : parse_args mss argv args0 = some p)
    (hno : ∀ j b, Reach mss argv args0 j b → j < argv.length → ¬ occurs argv j X) :
    agree X p.args (parse_defaults args0) := by
  refine parse_loop_invariant mss argv args0 (fun c => agree X c (parse_defaults args0)) 1
    ?_ argv.length 1 (parse_defaults args0) p Reach.start (le_refl _) (agree_refl X _) hp
  intro j b j' b' hr _ hj hP hit
  rw [parse_iter_eq] at hit
  exact agree_trans X b' b _ (run_handler_frame mss _ X (hno j b hr hj) _ _ _ _ _ _ hit) hP

/-- C14: after `parse_args` on the zeroed record of `rvvm_main`, a field whose
option the loop never reaches holds its default: with no option handled as
mem, smp or res the memory size is 256 * 2^20, the core count 1 and the
display 640x480, and a path (bootrom, kernel, dtb, dumpdtb, image) or flag
(rv64, nogui) that no option sets is `NULL` or false. -/
theorem defaults_without_option (mss : Char → Nat) (argv : List CStr) (p : Parsed)
    (X : Handler)
    (hp : parse_args mss argv vm_args_zero = some p)
    (hno : ∀ j b, Reach mss argv vm_args_zero j b → j < argv.length → ¬ occurs argv j X) :
    field_default X p.args :=
  field_default_of_agree X p.args (untouched_field_kept mss argv vm_args_zero p X hp hno)

/-- The rule of C14 at `rvvm -kernel k.img boot.bin`, which has no option
handled as mem: the memory size is 256 * 2^20. -/
theorem defaults_without_option_witness :
    ∃ p, parse_args mem_suffix_shift_spec (cmdline ["rvvm", "-kernel", "k.img", "boot.bin"])
        vm_args_zero = some p ∧ p.args.mem = 256 * 2 ^ 20 :=
  ⟨Parsed.mk true
      { parse_defaults vm_args_zero with
        kernel := some "k.img".toList, bootrom := some "boot.bin".toList } [],
    by rfl,
    defaults_without_option mem_suffix_shift_spec
      (cmdline ["rvvm", "-kernel", "k.img", "boot.bin"]) _ .mem (by rfl)
      (by
        intro j b _ hj
        have hj' : j < 4 := hj
        interval_cases j <;> decide)⟩

/-! ## C15: `cmp_arg` -/

theorem cmp_arg_traced_fst (arg : CStr) :
    ∀ (name : CStr) (i : Nat), (cmp_arg_traced arg name i).1 = cmp_arg arg name := by
  induction arg with
  | nil => intro name i; rfl
  | cons c cs ih =>
    intro name i
    by_cases hc : c = '='
    · simp [cmp_arg_traced, cmp_arg, hc]
    · cases name with
      | nil => simp [cmp_arg_traced, cmp_arg, hc]
      | cons n ns =>
        by_cases hn : c = n
        · subst hn
          simp [cmp_arg_traced, cmp_arg, hc, ih ns (i + 1)]
        · simp [cmp_arg_traced, cmp_arg, hc, hn]

theorem cmp_arg_traced_reads (arg : CStr) :
    ∀ (name : CStr) (i k : Nat), k ∈ (cmp_arg_traced arg name i).2 →
      i ≤ k ∧ k ≤ i + name.length := by
  induction arg with
  | nil => intro name i k hk; cases hk
  | cons c cs ih =>
    intro name i k hk
    by_cases hc : c = '='
    · simp [cmp_arg_traced, hc] at hk
    · cases name with
      | nil =>
        simp [cmp_arg_traced, hc] at hk
        subst hk
        simp
      | cons n ns =>
        by_cases hn : c = n
        · subst hn
          simp only [cmp_arg_traced, hc, if_false, ne_eq, not_true_eq_false,
            List.mem_cons] at hk
          rcases hk with hk | hk
          · subst hk; simp
          · have := ih ns (i + 1) k hk
            simp only [List.length_cons]
            omega
        · simp [cmp_arg_traced, hc, hn] at hk
          subst hk
          simp

/-- C15: `cmp_arg` is a prefix comparison: `cmp_arg(arg, name)` is true if and
only if the part of `arg` before its first `=` (all of `arg` when it has none)
is a prefix of `name`; so it is true for the empty part, false whenever that
part is longer than `name`, and its loop, which gives the same result with
its reads of `name` recorded, reads `name` at no index beyond its terminator
(index `name.length`). -/
theorem cmp_arg_prefix_comparison (arg name : CStr) :
    (cmp_arg arg name = true ↔ name_part arg <+: name) ∧
    (name_part arg = [] → cmp_arg arg name = true) ∧
    (name.length < (name_part arg).length → cmp_arg arg name = false) ∧
    (cmp_arg_traced arg name 0).1 = cmp_arg arg name ∧
    (∀ k ∈ (cmp_arg_traced arg name 0).2, k ≤ name.length) := by
  refine ⟨cmp_arg_prefix_iff arg name, fun h => ?_, fun h => ?_,
    cmp_arg_traced_fst arg name 0, fun k hk => ?_⟩
  · rw [cmp_arg_prefix_iff, h]
    exact List.nil_prefix
  · cases hc : cmp_arg arg name with
    | false => rfl
    | true =>
      have := ((cmp_arg_prefix_iff arg name).mp hc).length_le
      omega
  · have := (cmp_arg_traced_reads arg name 0 k hk).2
    omega

/-- The rule of C15 at the name `d=x` (true for `dtb`) and at the name
`dumpdtbs`, longer than `dumpdtb` (false). -/
theorem cmp_arg_prefix_comparison_witness :
    cmp_arg "=x".toList "dtb".toList = true ∧
    cmp_arg "dumpdtbs".toList "dumpdtb".toList = false :=
  ⟨(cmp_arg_prefix_comparison "=x".toList "dtb".toList).2.1 (by decide),
   (cmp_arg_prefix_comparison "dumpdtbs".toList "dumpdtb".toList).2.2.1 (by decide)⟩

/-! ## C16: ordered first match -/

theorem cmp_arg_eq_decide (arg name : CStr) :
    cmp_arg arg name = decide (name_part arg <+: name) := by
  cases h : cmp_arg arg name with
  | true => exact (decide_eq_true ((cmp_arg_prefix_iff arg name).mp h)).symm
  | false =>
    refine (decide_eq_false ?_).symm
    intro hp
    rw [(cmp_arg_prefix_iff arg name).mpr hp] at h
    cases h

/-- The `if` chain takes the branch of the first name, in the order of the
source, of which the name part is a prefix. -/
theorem branch_eq_first_match (arg_name : CStr) : branch arg_name = first_match arg_name := by
  unfold branch first_match dispatch_table
  simp only [cmp_arg_eq_decide, List.find?_cons]
  generalize decide (name_part arg_name <+: "dtb".toList) = b1
  generalize decide (name_part arg_name <+: "image".toList) = b2
  generalize decide (name_part arg_name <+: "bootrom".toList) = b3
  generalize decide (name_part arg_name <+: "kernel".toList) = b4
  generalize decide (name_part arg_name <+: "mem".toList) = b5
  generalize decide (name_part arg_name <+: "smp".toList) = b6
  generalize decide (name_part arg_name <+: "res".toList) = b7
  generalize decide (name_part arg_name <+: "dumpdtb".toList) = b8
  generalize decide (name_part arg_name <+: "rv64".toList) = b9
  generalize decide (name_part arg_name <+: "nogui".toList) = b10
  generalize decide (name_part arg_name <+: "help".toList) = b11
  generalize decide (name_part arg_name <+: "h".toList) = b12
  generalize decide (name_part arg_name <+: "H".toList) = b13
  cases b1
  swap; rfl
  cases b2
  swap; rfl
  cases b3
  swap; rfl
  cases b4
  swap; rfl
  cases b5
  swap; rfl
  cases b6
  swap; rfl
  cases b7
  swap; rfl
  cases b8
  swap; rfl
  cases b9
  swap; rfl
  cases b10
  swap; rfl
  cases b11 <;> cases b12 <;> cases b13 <;> rfl

/-- C16: options are dispatched by ordered first match over the name list
dtb, image, bootrom, kernel, mem, smp, res, dumpdtb, rv64, nogui, help, h, H:
a pass of the loop body runs the body of the branch of the first name, in
that order, of which the name part of the option is a prefix, and no other
body. So `d` is handled as dtb (`-d v` sets dtb), `r` as res, and an empty
name part (`-`, `--`, `-=v`) as dtb. -/
theorem dispatch_by_first_match (mss : Char → Nat) (argv : List CStr) (i : Nat)
    (a : vm_args_t) :
    dispatch_table.map Prod.fst = known_names ∧
    (∀ arg_name, branch arg_name = first_match arg_name) ∧
    parse_iter mss argv i a =
      run_handler mss (first_match (opt_at argv i).arg_name) (opt_at argv i).arg_val
        (opt_at argv i).argpair (i + (opt_at argv i).argpair) a ∧
    first_match "d".toList = .dtb ∧ first_match "r".toList = .res ∧
    parse_iter mss (cmdline ["rvvm", "-d", "v"]) 1 a =
      .next 3 { a with dtb := some "v".toList } ∧
    (∀ arg1, first_match (get_arg "-".toList arg1).arg_name = .dtb) ∧
    (∀ arg1, first_match (get_arg "--".toList arg1).arg_name = .dtb) ∧
    (∀ v arg1, first_match (get_arg ("-=".toList ++ v) arg1).arg_name = .dtb ∧
      (get_arg ("-=".toList ++ v) arg1).arg_val = v) := by
  refine ⟨rfl, branch_eq_first_match, ?_, by decide, by decide, rfl, ?_, ?_, ?_⟩
  · rw [parse_iter_eq, branch_eq_first_match]
  · intro arg1
    rw [get_arg_name _ arg1 (by decide)]
    decide
  · intro arg1
    rw [get_arg_name _ arg1 (by decide)]
    decide
  · intro v arg1
    have hh : ("-=".toList ++ v).head? = some '-' := rfl
    have hn : opt_name ("-=".toList ++ v) = '=' :: v := rfl
    have hf : find_eq (opt_name ("-=".toList ++ v)) = some v := by
      rw [hn]; simp [find_eq]
    rw [get_arg_with_eq _ v arg1 hh hf, hn, ← branch_eq_first_match]
    refine ⟨?_, rfl⟩
    unfold branch
    simp [cmp_arg]

/-! ## C17: the life of the machine -/

/-- A run in which nothing fails: every step of the life of the machine, once,
the release of the machine being the last call, right after the event loop. -/
theorem run_steps_ok (lib : Lib) (args : vm_args_t) (m : Nat)
    (hb : boot_ok lib args = some m) (hs : storage_ok lib m args = true) :
    steps (rvvm_run_with_args lib args) = lifecycle args.dumpdtb.isSome ∧
    (rvvm_run_with_args lib args).getLast? = some (.rvvm_free_machine m) ∧
    (rvvm_run_with_args lib args).dropLast.getLast? = some .rvvm_run_eventloop ∧
    (rvvm_run_with_args lib args).filter is_free = [.rvvm_free_machine m] := by
  have hok : ∀ image, args.image = some image →
      lib.nvme_init (lib.pci_bus_init_auto m (lib.plic_init_auto m)) image true = true := by
    intro image hi
    simpa [storage_ok, hi] using hs
  rw [run_with_args_boot_ok lib args m hb, attach_devices_ok lib m args hok]
  unfold fb_block run_tail
  generalize lib.plic_init_auto m = plic
  generalize lib.pci_bus_init_auto m plic = bus
  generalize lib.plic_alloc_irq plic 0 = irq0
  generalize lib.plic_alloc_irq plic 1 = irq1
  cases args.image <;> cases lib.USE_FB <;> cases args.nogui <;> cases lib.USE_NET <;>
    cases lib.USE_RTC <;> cases args.dumpdtb <;> exact ⟨rfl, rfl, rfl, rfl⟩

/-- A run in which the storage controller cannot open its image: the steps up
to the attach step, and no more; the run is exactly the four boot calls, the
five core devices, the root entry of the command line, the failed `nvme_init`
and the error report, so that no call on the machine follows the failed
`nvme_init`. -/
theorem run_steps_storage_fail (lib : Lib) (args : vm_args_t) (m : Nat)
    (hb : boot_ok lib args = some m) (hs : storage_ok lib m args = false) :
    steps (rvvm_run_with_args lib args) =
      [.create, .load_bootrom, .load_kernel, .load_dtb, .attach] ∧
      ∃ image, args.image = some image ∧
        rvvm_run_with_args lib args =
          [ .rvvm_create_machine lib.RVVM_DEFAULT_MEMBASE args.mem args.smp args.rv64,
            .rvvm_load_bootrom m args.bootrom, .rvvm_load_kernel m args.kernel,
            .rvvm_load_dtb m args.dtb,
            .clint_init_auto m, .plic_init_auto m,
            .pci_bus_init_auto m (lib.plic_init_auto m),
            .ns16550a_init_auto m (lib.plic_init_auto m), .syscon_init_auto m,
            .rvvm_cmdline_append m "root=/dev/nvme0n1 rootflags=discard rw",
            .nvme_init (lib.pci_bus_init_auto m (lib.plic_init_auto m)) image true,
            .rvvm_error "Unable to open image file %s" (some image) ] := by
  cases hi : args.image with
  | none => simp [storage_ok, hi] at hs
  | some image =>
    have hn : lib.nvme_init (lib.pci_bus_init_auto m (lib.plic_init_auto m)) image true
        = false := by
      simpa [storage_ok, hi] using hs
    rw [run_with_args_boot_ok lib args m hb, attach_devices_nvme_fail lib m args image hi hn]
    exact ⟨rfl, image, rfl, rfl⟩

/-- A run in which the creation or a loader fails: the steps up to the one that
failed. -/
theorem run_steps_boot_fail (lib : Lib) (args : vm_args_t) :
    (lib.rvvm_create_machine lib.RVVM_DEFAULT_MEMBASE args.mem args.smp args.rv64 = none →
      steps (rvvm_run_with_args lib args) = [.create]) ∧
    (∀ m, lib.rvvm_create_machine lib.RVVM_DEFAULT_MEMBASE args.mem args.smp args.rv64 = some m →
      (lib.rvvm_load_bootrom m args.bootrom = false →
        steps (rvvm_run_with_args lib args) = [.create, .load_bootrom]) ∧
      (lib.rvvm_load_bootrom m args.bootrom = true →
        lib.rvvm_load_kernel m args.kernel = false →
        steps (rvvm_run_with_args lib args) = [.create, .load_bootrom, .load_kernel]) ∧
      (lib.rvvm_load_bootrom m args.bootrom = true →
        lib.rvvm_load_kernel m args.kernel = true →
        lib.rvvm_load_dtb m args.dtb = false →
        steps (rvvm_run_with_args lib args) =
          [.create, .load_bootrom, .load_kernel, .load_dtb])) := by
  refine ⟨fun hc => ?_, fun m hc => ⟨fun h1 => ?_, fun h1 h2 => ?_, fun h1 h2 h3 => ?_⟩⟩
  · unfold rvvm_run_with_args
    simp only [hc]
    rfl
  · unfold rvvm_run_with_args
    simp only [hc, h1]
    rfl
  · unfold rvvm_run_with_args
    simp only [hc, h1, h2]
    rfl
  · unfold rvvm_run_with_args
    simp only [hc, h1, h2, h3]
    rfl

theorem boot_ok_none_cases (lib : Lib) (args : vm_args_t) (h : boot_ok lib args = none) :
    lib.rvvm_create_machine lib.RVVM_DEFAULT_MEMBASE args.mem args.smp args.rv64 = none ∨
    ∃ m, lib.rvvm_create_machine lib.RVVM_DEFAULT_MEMBASE args.mem args.smp args.rv64 = some m ∧
      (lib.rvvm_load_bootrom m args.bootrom = false ∨
       (lib.rvvm_load_bootrom m args.bootrom = true ∧
          lib.rvvm_load_kernel m args.kernel = false) ∨
       (lib.rvvm_load_bootrom m args.bootrom = true ∧
          lib.rvvm_load_kernel m args.kernel = true ∧
          lib.rvvm_load_dtb m args.dtb = false)) := by
  unfold boot_ok at h
  cases hc : lib.rvvm_create_machine lib.RVVM_DEFAULT_MEMBASE args.mem args.smp args.rv64 with
  | none => exact Or.inl rfl
  | some m =>
    refine Or.inr ⟨m, rfl, ?_⟩
    rw [hc] at h
    dsimp only at h
    cases h1 : lib.rvvm_load_bootrom m args.bootrom with
    | false => exact Or.inl rfl
    | true =>
      cases h2 : lib.rvvm_load_kernel m args.kernel with
      | false => exact Or.inr (Or.inl ⟨rfl, rfl⟩)
      | true =>
        cases h3 : lib.rvvm_load_dtb m args.dtb with
        | false => exact Or.inr (Or.inr ⟨rfl, rfl, rfl⟩)
        | true => simp [h1, h2, h3] at h

/-- C17: in every run of `rvvm_run_with_args`, whatever the library calls
return, the steps on the machine are a prefix of create, load bootrom, load
kernel, load device tree, attach devices, device-tree dump (when asked for),
start, run event loop, free, none skipped or repeated. The steps end at the
first that fails: a failed create or loader is followed by no later step, and
a failed storage attach is followed by no call on the machine at all, the run
being exactly the four boot calls, the five core devices, the root entry of
the command line, the failed `nvme_init` and the error report. When nothing
fails all steps are made, and `rvvm_free_machine` is called exactly once, as
the last call, right after `rvvm_run_eventloop`. -/
theorem lifecycle_sequential (lib : Lib) (args : vm_args_t) :
    steps (rvvm_run_with_args lib args) <+: lifecycle args.dumpdtb.isSome ∧
    (lib.rvvm_create_machine lib.RVVM_DEFAULT_MEMBASE args.mem args.smp args.rv64 = none →
      steps (rvvm_run_with_args lib args) = [.create]) ∧
    (∀ m, lib.rvvm_create_machine lib.RVVM_DEFAULT_MEMBASE args.mem args.smp args.rv64 = some m →
      (lib.rvvm_load_bootrom m args.bootrom = false →
        steps (rvvm_run_with_args lib args) = [.create, .load_bootrom]) ∧
      (lib.rvvm_load_bootrom m args.bootrom = true →
        lib.rvvm_load_kernel m args.kernel = false →
        steps (rvvm_run_with_args lib args) = [.create, .load_bootrom, .load_kernel]) ∧
      (lib.rvvm_load_bootrom m args.bootrom = true →
        lib.rvvm_load_kernel m args.kernel = true →
        lib.rvvm_load_dtb m args.dtb = false →
        steps (rvvm_run_with_args lib args) =
          [.create, .load_bootrom, .load_kernel, .load_dtb])) ∧
    (∀ m, boot_ok lib args = some m → storage_ok lib m args = false →
      steps (rvvm_run_with_args lib args) =
        [.create, .load_bootrom, .load_kernel, .load_dtb, .attach] ∧
      ∃ image, args.image = some image ∧
        rvvm_run_with_args lib args =
          [ .rvvm_create_machine lib.RVVM_DEFAULT_MEMBASE args.mem args.smp args.rv64,
            .rvvm_load_bootrom m args.bootrom, .rvvm_load_kernel m args.kernel,
            .rvvm_load_dtb m args.dtb,
            .clint_init_auto m, .plic_init_auto m,
            .pci_bus_init_auto m (lib.plic_init_auto m),
            .ns16550a_init_auto m (lib.plic_init_auto m), .syscon_init_auto m,
            .rvvm_cmdline_append m "root=/dev/nvme0n1 rootflags=discard rw",
            .nvme_init (lib.pci_bus_init_auto m (lib.plic_init_auto m)) image true,
            .rvvm_error "Unable to open image file %s" (some image) ]) ∧
    (∀ m, boot_ok lib args = some m → storage_ok lib m args = true →
      steps (rvvm_run_with_args lib args) = lifecycle args.dumpdtb.isSome ∧
      (rvvm_run_with_args lib args).getLast? = some (.rvvm_free_machine m) ∧
      (rvvm_run_with_args lib args).dropLast.getLast? = some .rvvm_run_eventloop ∧
      (rvvm_run_with_args lib args).filter is_free = [.rvvm_free_machine m]) := by
  refine ⟨?_, (run_steps_boot_fail lib args).1, (run_steps_boot_fail lib args).2,
    run_steps_storage_fail lib args, run_steps_ok lib args⟩
  cases hb : boot_ok lib args with
  | none =>
    rcases boot_ok_none_cases lib args hb with hc | ⟨m, hc, h1 | ⟨h1, h2⟩ | ⟨h1, h2, h3⟩⟩
    · rw [(run_steps_boot_fail lib args).1 hc]
      generalize args.dumpdtb.isSome = d
      cases d <;> decide
    · rw [((run_steps_boot_fail lib args).2 m hc).1 h1]
      generalize args.dumpdtb.isSome = d
      cases d <;> decide
    · rw [((run_steps_boot_fail lib args).2 m hc).2.1 h1 h2]
      generalize args.dumpdtb.isSome = d
      cases d <;> decide
    · rw [((run_steps_boot_fail lib args).2 m hc).2.2 h1 h2 h3]
      generalize args.dumpdtb.isSome = d
      cases d <;> decide
  | some m =>
    cases hs : storage_ok lib m args with
    | false =>
      rw [(run_steps_storage_fail lib args m hb hs).1]
      generalize args.dumpdtb.isSome = d
      cases d <;> decide
    | true =>
      rw [(run_steps_ok lib args m hb hs).1]

/-- The rule of C17 at the record of `rvvm boot.bin` with a library in which
every call succeeds, and at the record of
`rvvm -mem 128M -smp 2 -image disk.img boot.bin` with a storage image that
cannot be opened. -/
theorem lifecycle_sequential_witness :
    steps (rvvm_run_with_args lib_all_ok
        { parse_defaults vm_args_zero with bootrom := some "boot.bin".toList }) =
      [.create, .load_bootrom, .load_kernel, .load_dtb, .attach, .start, .run, .free] ∧
    steps (rvvm_run_with_args lib_nvme_fails args_with_image) =
      [.create, .load_bootrom, .load_kernel, .load_dtb, .attach] :=
  ⟨((lifecycle_sequential lib_all_ok
      { parse_defaults vm_args_zero with bootrom := some "boot.bin".toList }).2.2.2.2
      1 rfl rfl).1,
   ((lifecycle_sequential lib_nvme_fails args_with_image).2.2.2.1 1 rfl rfl).1⟩

/-! ## C18: the order of the device constructors -/

theorem boot_call_no_device (c : Call) (h : boot_call c = true) :
    is_constructor c = false ∧ uses_plic c = none ∧ uses_bus c = none := by
  cases c <;> first | (cases h; done) | exact ⟨rfl, rfl, rfl⟩

theorem fb_block_handles (lib : Lib) (m plic : Nat) (args : vm_args_t) :
    ∀ c ∈ fb_block lib m plic args,
      (∀ h, uses_plic c = some h → h = plic) ∧ uses_bus c = none := by
  unfold fb_block
  split
  · intro c hc
    simp only [List.mem_cons, List.mem_singleton, List.not_mem_nil, or_false] at hc
    rcases hc with e | e | e | e | e | e | e | e <;> subst e <;>
      exact ⟨fun h hh => (by cases hh <;> rfl), rfl⟩
  · intro c hc; cases hc

theorem run_tail_handles (lib : Lib) (m plic : Nat) (args : vm_args_t) :
    ∀ c ∈ run_tail lib m plic args,
      (∀ h, uses_plic c = some h → h = plic) ∧ uses_bus c = none := by
  unfold run_tail
  intro c hc
  simp only [List.mem_append, List.mem_cons, List.mem_singleton, List.not_mem_nil,
    or_false] at hc
  rcases hc with ((hc | hc) | hc) | hc
  · split at hc
    · simp only [List.mem_singleton] at hc
      subst hc
      exact ⟨fun h hh => (by cases hh; rfl), rfl⟩
    · cases hc
  · split at hc
    · simp only [List.mem_singleton] at hc
      subst hc
      exact ⟨fun h hh => (by cases hh; rfl), rfl⟩
    · cases hc
  · split at hc
    · simp only [List.mem_singleton] at hc
      subst hc
      exact ⟨fun h hh => (by cases hh), rfl⟩
    · cases hc
  · rcases hc with e | e | e | e <;> subst e <;> exact ⟨fun h hh => (by cases hh), rfl⟩

/-- The device constructors of a run in which nothing fails before the
devices are attached: all of them, in the fixed order. -/
theorem constructors_ok (lib : Lib) (args : vm_args_t) (m : Nat)
    (hb : boot_ok lib args = some m) (hs : storage_ok lib m args = true) :
    (rvvm_run_with_args lib args).filter is_constructor = device_order lib m args := by
  have hok : ∀ image, args.image = some image →
      lib.nvme_init (lib.pci_bus_init_auto m (lib.plic_init_auto m)) image true = true := by
    intro image hi
    simpa [storage_ok, hi] using hs
  rw [run_with_args_boot_ok lib args m hb, attach_devices_ok lib m args hok]
  unfold fb_block run_tail device_order
  generalize lib.plic_init_auto m = plic
  generalize lib.pci_bus_init_auto m plic = bus
  generalize lib.plic_alloc_irq plic 0 = irq0
  generalize lib.plic_alloc_irq plic 1 = irq1
  cases args.image <;> cases lib.USE_FB <;> cases args.nogui <;> cases lib.USE_NET <;>
    cases lib.USE_RTC <;> cases args.dumpdtb <;> rfl

/-- The device constructors of a run in which the storage controller cannot
open its image: those up to the storage controller. -/
theorem constructors_storage_fail (lib : Lib) (args : vm_args_t) (m : Nat)
    (hb : boot_ok lib args = some m) (hs : storage_ok lib m args = false) :
    (rvvm_run_with_args lib args).filter is_constructor <+: device_order lib m args := by
  cases hi : args.image with
  | none => simp [storage_ok, hi] at hs
  | some image =>
    have hn : lib.nvme_init (lib.pci_bus_init_auto m (lib.plic_init_auto m)) image true
        = false := by
      simpa [storage_ok, hi] using hs
    rw [run_with_args_boot_ok lib args m hb, attach_devices_nvme_fail lib m args image hi hn]
    unfold device_order
    rw [hi]
    exact (List.prefix_append _ _).trans
      ((List.prefix_append _ _).trans (List.prefix_append _ _))

/-- The device part begins with the five constructors that every machine
gets; every call after them is given the handles that `plic_init_auto` and
`pci_bus_init_auto` returned. -/
theorem attach_devices_split (lib : Lib) (m : Nat) (args : vm_args_t) :
    ∃ R, attach_devices lib m args =
        [ .clint_init_auto m, .plic_init_auto m,
          .pci_bus_init_auto m (lib.plic_init_auto m),
          .ns16550a_init_auto m (lib.plic_init_auto m), .syscon_init_auto m ] ++ R ∧
      ∀ c ∈ R, (∀ h, uses_plic c = some h → h = lib.plic_init_auto m) ∧
        (∀ h, uses_bus c = some h → h = lib.pci_bus_init_auto m (lib.plic_init_auto m)) := by
  have hfb := fb_block_handles lib m (lib.plic_init_auto m) args
  have htl := run_tail_handles lib m (lib.plic_init_auto m) args
  have hrest : ∀ c ∈ fb_block lib m (lib.plic_init_auto m) args
        ++ run_tail lib m (lib.plic_init_auto m) args,
      (∀ h, uses_plic c = some h → h = lib.plic_init_auto m) ∧
        (∀ h, uses_bus c = some h → h = lib.pci_bus_init_auto m (lib.plic_init_auto m)) := by
    intro c hc
    rcases List.mem_append.mp hc with h | h
    · exact ⟨(hfb c h).1, fun x hx => by rw [(hfb c h).2] at hx; cases hx⟩
    · exact ⟨(htl c h).1, fun x hx => by rw [(htl c h).2] at hx; cases hx⟩
  cases hi : args.image with
  | none =>
    refine ⟨fb_block lib m (lib.plic_init_auto m) args
      ++ run_tail lib m (lib.plic_init_auto m) args, ?_, hrest⟩
    rw [attach_devices_ok lib m args (fun image h => by rw [hi] at h; cases h), hi]
    simp only [List.append_nil, List.append_assoc]
  | some image =>
    cases hn : lib.nvme_init (lib.pci_bus_init_auto m (lib.plic_init_auto m)) image true with
    | false =>
      refine ⟨[ .rvvm_cmdline_append m "root=/dev/nvme0n1 rootflags=discard rw",
        .nvme_init (lib.pci_bus_init_auto m (lib.plic_init_auto m)) image true,
        .rvvm_error "Unable to open image file %s" (some image) ], ?_, ?_⟩
      · rw [attach_devices_nvme_fail lib m args image hi hn]
        rfl
      · intro c hc
        simp only [List.mem_cons, List.mem_singleton, List.not_mem_nil, or_false] at hc
        rcases hc with e | e | e <;> subst e <;>
          exact ⟨fun h hh => (by cases hh), fun h hh => (by cases hh <;> rfl)⟩
    | true =>
      refine ⟨[ .rvvm_cmdline_append m "root=/dev/nvme0n1 rootflags=discard rw",
        .nvme_init (lib.pci_bus_init_auto m (lib.plic_init_auto m)) image true ]
        ++ (fb_block lib m (lib.plic_init_auto m) args
          ++ run_tail lib m (lib.plic_init_auto m) args), ?_, ?_⟩
      · rw [attach_devices_ok lib m args (fun img h => by rw [hi] at h; cases h; exact hn), hi]
        simp only [List.append_assoc]
      · intro c hc
        rcases List.mem_append.mp hc with h | h
        · simp only [List.mem_cons, List.mem_singleton, List.not_mem_nil, or_false] at h
          rcases h with e | e <;> subst e <;>
            exact ⟨fun h hh => (by cases hh), fun h hh => (by cases hh <;> rfl)⟩
        · exact hrest c h

/-- C18: the device constructors are called in one fixed order: core-local
timer unit, interrupt distributor, bus controller, serial console, system
controller, then the storage controller (when an image is configured), then
pointer, keyboard and framebuffer (when the display is enabled), then network
adapter and real-time clock (when compiled in): the constructor calls of a run
are a prefix of that list, all of it when the run gets past the storage step,
and none when the machine is not created or a boot artifact is not loaded.
Every distributor handle given to a call is the one returned by the
`plic_init_auto` call earlier in the run, and every bus handle the one
returned by the earlier `pci_bus_init_auto` call. -/
theorem device_build_order (lib : Lib) (args : vm_args_t) :
    (boot_ok lib args = none →
      (rvvm_run_with_args lib args).filter is_constructor = [] ∧
      ∀ c ∈ rvvm_run_with_args lib args, uses_plic c = none ∧ uses_bus c = none) ∧
    (∀ m, boot_ok lib args = some m →
      (rvvm_run_with_args lib args).filter is_constructor <+: device_order lib m args ∧
      (storage_ok lib m args = true →
        (rvvm_run_with_args lib args).filter is_constructor = device_order lib m args) ∧
      (∃ pre post, rvvm_run_with_args lib args = pre ++ .plic_init_auto m :: post ∧
        (∀ c ∈ pre, uses_plic c = none) ∧
        ∀ c ∈ post, ∀ h, uses_plic c = some h → h = lib.plic_init_auto m) ∧
      (∃ pre post, rvvm_run_with_args lib args =
          pre ++ .pci_bus_init_auto m (lib.plic_init_auto m) :: post ∧
        (∀ c ∈ pre, uses_bus c = none) ∧
        ∀ c ∈ post, ∀ h, uses_bus c = some h →
          h = lib.pci_bus_init_auto m (lib.plic_init_auto m))) := by
  refine ⟨fun hb => ⟨?_, fun c hc => ?_⟩, fun m hb => ⟨?_, constructors_ok lib args m hb, ?_, ?_⟩⟩
  · rw [List.filter_eq_nil_iff]
    intro c hc
    rw [(boot_call_no_device c (run_with_args_boot_fail lib args hb c hc)).1]
    exact Bool.false_ne_true
  · exact (boot_call_no_device c (run_with_args_boot_fail lib args hb c hc)).2
  · cases hs : storage_ok lib m args with
    | true => rw [constructors_ok lib args m hb hs]
    | false => exact constructors_storage_fail lib args m hb hs
  · obtain ⟨R, hR, huse⟩ := attach_devices_split lib m args
    refine ⟨[ .rvvm_create_machine lib.RVVM_DEFAULT_MEMBASE args.mem args.smp args.rv64,
        .rvvm_load_bootrom m args.bootrom, .rvvm_load_kernel m args.kernel,
        .rvvm_load_dtb m args.dtb, .clint_init_auto m ],
      [ .pci_bus_init_auto m (lib.plic_init_auto m),
        .ns16550a_init_auto m (lib.plic_init_auto m), .syscon_init_auto m ] ++ R, ?_, ?_, ?_⟩
    · rw [run_with_args_boot_ok lib args m hb, hR]
      rfl
    · intro c hc
      simp only [List.mem_cons, List.mem_singleton, List.not_mem_nil, or_false] at hc
      rcases hc with e | e | e | e | e <;> subst e <;> rfl
    · intro c hc h hh
      rcases List.mem_append.mp hc with h1 | h1
      · simp only [List.mem_cons, List.mem_singleton, List.not_mem_nil, or_false] at h1
        rcases h1 with e | e | e <;> subst e <;> cases hh <;> rfl
      · exact (huse c h1).1 h hh
  · obtain ⟨R, hR, huse⟩ := attach_devices_split lib m args
    refine ⟨[ .rvvm_create_machine lib.RVVM_DEFAULT_MEMBASE args.mem args.smp args.rv64,
        .rvvm_load_bootrom m args.bootrom, .rvvm_load_kernel m args.kernel,
        .rvvm_load_dtb m args.dtb, .clint_init_auto m, .plic_init_auto m ],
      [ .ns16550a_init_auto m (lib.plic_init_auto m), .syscon_init_auto m ] ++ R, ?_, ?_, ?_⟩
    · rw [run_with_args_boot_ok lib args m hb, hR]
      rfl
    · intro c hc
      simp only [List.mem_cons, List.mem_singleton, List.not_mem_nil, or_false] at hc
      rcases hc with e | e | e | e | e | e <;> subst e <;> rfl
    · intro c hc h hh
      rcases List.mem_append.mp hc with h1 | h1
      · simp only [List.mem_cons, List.mem_singleton, List.not_mem_nil, or_false] at h1
        rcases h1 with e | e <;> subst e <;> cases hh
      · exact (huse c h1).2 h hh

/-- The rule of C18 at the record of
`rvvm -mem 128M -smp 2 -image disk.img boot.bin` with a library in which every
call succeeds: every constructor, in order. -/
theorem device_build_order_witness :
    (rvvm_run_with_args lib_all_ok args_with_image).filter is_constructor =
      [ .clint_init_auto 1, .plic_init_auto 1, .pci_bus_init_auto 1 2,
        .ns16550a_init_auto 1 2, .syscon_init_auto 1,
        .nvme_init 3 "disk.img".toList true,
        .ps2_mouse_create, .altps2_init 1 0x20000000 2 1 .ps2_mouse,
        .ps2_keyboard_create, .altps2_init 1 0x20001000 2 2 .ps2_keyboard,
        .init_fb 1 0x30000000 640 480,
        .ethoc_init_auto 1 2, .rtc_goldfish_init_auto 1 2 ] :=
  ((device_build_order lib_all_ok args_with_image).2 1 rfl).2.1 rfl

/-! ## C19: the loop is safe and terminates -/

theorem reach_bounds (mss : Char → Nat) (argv : List CStr) (args0 : vm_args_t)
    (hargc : 1 ≤ argv.length) (i : Nat) (a : vm_args_t) (h : Reach mss argv args0 i a) :
    1 ≤ i ∧ i ≤ argv.length := by
  induction h with
  | start => exact ⟨le_refl _, hargc⟩
  | step hr hi hit ih =>
    rename_i i i' a a'
    have hc := parse_iter_cursor mss argv i i' a a' hi hit
    omega

theorem opt_at_congr (argv argv' : List CStr) (i : Nat)
    (h0 : argv'[i]? = argv[i]?) (h1 : argv'[i + 1]? = argv[i + 1]?) :
    opt_at argv' i = opt_at argv i := by
  unfold opt_at
  rw [List.getD_eq_getElem?_getD, List.getD_eq_getElem?_getD, h0, h1]

/-- C19: for `argc >= 1`, the loop of `parse_args` is safe and terminates.
Every cursor the loop reaches lies between 1 and `argc`; the body runs only at
a cursor below `argc`, where `get_arg` depends on `argv[i]` and `argv[i+1]`
alone, `i + 1` being at most `argc`, the index of the `NULL` entry; a pass
that does not return leaves the cursor greater than it was, by one or two, and
at most `argc`, also after the give-back of rv64 and nogui; and the loop
returns within `argc - 1` passes. -/
theorem parse_loop_safe (mss : Char → Nat) (argv : List CStr) (args0 : vm_args_t)
    (hargc : 1 ≤ argv.length) :
    (∀ i a, Reach mss argv args0 i a → 1 ≤ i ∧ i ≤ argv.length) ∧
    (∀ i a, Reach mss argv args0 i a → i < argv.length →
      i + 1 ≤ argv.length ∧
      (∀ argv' : List CStr, argv'[i]? = argv[i]? → argv'[i + 1]? = argv[i + 1]? →
        opt_at argv' i = opt_at argv i) ∧
      (∀ i' a', parse_iter mss argv i a = .next i' a' →
        i < i' ∧ i' ≤ i + 2 ∧ i' ≤ argv.length)) ∧
    (∃ p, parse_loop mss argv (argv.length - 1) 1 (parse_defaults args0) = some p ∧
      parse_args mss argv args0 = some p) := by
  refine ⟨reach_bounds mss argv args0 hargc, fun i a _ hi => ⟨hi, ?_, ?_⟩, ?_⟩
  · exact fun argv' h0 h1 => opt_at_congr argv argv' i h0 h1
  · exact fun i' a' hit => parse_iter_cursor mss argv i i' a a' hi hit
  · have hf := parse_loop_fuel mss argv (argv.length - 1) 1 (parse_defaults args0) (by omega)
    obtain ⟨p, hp⟩ := hf.1
    refine ⟨p, hp, ?_⟩
    unfold parse_args
    rw [hf.2 argv.length (by omega), hp]

/-- The rule of C19 at `rvvm -rv64 boot.bin`, where `argc` is 3: two passes
are enough. -/
theorem parse_loop_safe_witness :
    ∃ p, parse_loop mem_suffix_shift_spec (cmdline ["rvvm", "-rv64", "boot.bin"]) 2 1
        (parse_defaults vm_args_zero) = some p ∧
      parse_args mem_suffix_shift_spec (cmdline ["rvvm", "-rv64", "boot.bin"]) vm_args_zero =
        some p :=
  (parse_loop_safe mem_suffix_shift_spec (cmdline ["rvvm", "-rv64", "boot.bin"]) vm_args_zero
    (by decide)).2.2

/-! ## C20: the two spellings of a valued option -/

theorem get_arg_argpair_two (arg0 : CStr) (arg1 : Option CStr)
    (h : (get_arg arg0 arg1).argpair = 2) : ∃ a1, arg1 = some a1 ∧ a1.head? ≠ some '-' := by
  unfold get_arg at h
  split at h
  · dsimp only at h
    split at h
    · cases h
    · split at h
      · cases h
      · rename_i a1
        split at h
        · cases h
        · rename_i hd
          exact ⟨a1, rfl, hd⟩
  · cases h

/-- What `get_arg` reads of the next token is whether it begins with `-`. -/
theorem get_arg_next_dash (arg0 a1 a1' : CStr) (h : a1.head? = some '-')
    (h' : a1'.head? = some '-') : get_arg arg0 (some a1) = get_arg arg0 (some a1') := by
  unfold get_arg
  simp only [h, h', if_true]

theorem run_handler_one_more (mss : Char → Nat) (h : Handler) (hr : h ≠ .rv64)
    (hn : h ≠ .nogui) (v : CStr) (p p' j : Nat) (a : vm_args_t) :
    run_handler mss h v p' (1 + j) a = (run_handler mss h v p j a).shift 1 := by
  cases h <;> simp only [run_handler, Iter.shift]
  case mem => split <;> rfl
  case res => split <;> rfl
  case rv64 => exact absurd rfl hr
  case nogui => exact absurd rfl hn

theorem value_name_props (N : CStr) (hN : N ∈ value_names) :
    N.head? ≠ some '-' ∧ '=' ∉ N ∧ branch N ≠ .rv64 ∧ branch N ≠ .nogui := by
  simp only [value_names, List.mem_cons, List.mem_singleton, List.not_mem_nil, or_false] at hN
  rcases hN with e | e | e | e | e | e | e | e <;> subst e <;> decide

/-- The loop on the two spellings of an option, from a cursor at or before the
option: the same result. -/
theorem parse_loop_spellings (mss : Char → Nat) (P post : List CStr) (N V : CStr)
    (hh : N.head? ≠ some '-') (he : '=' ∉ N) (hr : branch N ≠ .rv64) (hn : branch N ≠ .nogui)
    (hV : V.head? ≠ some '-') :
    ∀ (fuel i : Nat) (a : vm_args_t), i ≤ P.length →
      parse_loop mss (P ++ ('-' :: (N ++ '=' :: V)) :: post) fuel i a =
        parse_loop mss (P ++ ('-' :: N) :: V :: post) fuel i a := by
  -- the two tokens and what `get_arg` makes of them
  have hname1 : opt_name ('-' :: (N ++ '=' :: V)) = N ++ '=' :: V := by
    cases N with
    | nil => rfl
    | cons c cs =>
      have hc : c ≠ '-' := fun e => hh (by simp [e])
      simp [opt_name, hc]
  have hname2 : opt_name ('-' :: N) = N := by
    cases N with
    | nil => rfl
    | cons c cs =>
      have hc : c ≠ '-' := fun e => hh (by simp [e])
      simp [opt_name, hc]
  have hg1 : ∀ x, get_arg ('-' :: (N ++ '=' :: V)) x = ⟨1, N ++ '=' :: V, V⟩ := by
    intro x
    rw [get_arg_with_eq ('-' :: (N ++ '=' :: V)) V x rfl
      (by rw [hname1]; exact find_eq_append N V he), hname1]
  have hg2 : get_arg ('-' :: N) (some V) = ⟨2, N, V⟩ := by
    rw [get_arg_pair ('-' :: N) V rfl (by rw [hname2]; exact find_eq_none N he) hV, hname2]
  have hlen1 : (P ++ ('-' :: (N ++ '=' :: V)) :: post).length = P.length + 1 + post.length := by
    simp; omega
  have hlen2 : (P ++ ('-' :: N) :: V :: post).length = P.length + 2 + post.length := by
    simp; omega
  -- after the option
  have hafter : ∀ fuel a,
      parse_loop mss (P ++ ('-' :: (N ++ '=' :: V)) :: post) fuel (P.length + 1) a =
        parse_loop mss (P ++ ('-' :: N) :: V :: post) fuel (P.length + 2) a := by
    intro fuel a
    have e1 := parse_loop_append mss (P ++ [('-' :: (N ++ '=' :: V))]) post fuel 0 a
    have e2 := parse_loop_append mss (P ++ [('-' :: N), V]) post fuel 0 a
    simp only [List.append_assoc, List.singleton_append, List.cons_append, List.nil_append,
      List.length_append, List.length_singleton, List.length_cons, List.length_nil,
      Nat.add_zero] at e1 e2
    rw [e1, e2]
  -- at the option
  have hat : ∀ a,
      parse_iter mss (P ++ ('-' :: N) :: V :: post) P.length a =
        (parse_iter mss (P ++ ('-' :: (N ++ '=' :: V)) :: post) P.length a).shift 1 := by
    intro a
    have o1 : opt_at (P ++ ('-' :: (N ++ '=' :: V)) :: post) P.length =
        ⟨1, N ++ '=' :: V, V⟩ := by
      have := opt_at_append P (('-' :: (N ++ '=' :: V)) :: post) 0
      rw [Nat.add_zero] at this
      rw [this, opt_at_zero, hg1]
    have o2 : opt_at (P ++ ('-' :: N) :: V :: post) P.length = ⟨2, N, V⟩ := by
      have := opt_at_append P (('-' :: N) :: V :: post) 0
      rw [Nat.add_zero] at this
      rw [this, opt_at_zero, List.head?_cons, hg2]
    rw [parse_iter_eq, parse_iter_eq, o1, o2, branch_append_eq N V he]
    dsimp only
    have := run_handler_one_more mss (branch N) hr hn V 1 2 (P.length + 1) a
    rw [← this]
    congr 1
    omega
  -- before the option
  have hbefore : ∀ i a, i < P.length →
      parse_iter mss (P ++ ('-' :: (N ++ '=' :: V)) :: post) i a =
        parse_iter mss (P ++ ('-' :: N) :: V :: post) i a ∧
      ∀ i' a', parse_iter mss (P ++ ('-' :: (N ++ '=' :: V)) :: post) i a = .next i' a' →
        i' ≤ P.length := by
    intro i a hi
    have h0 : ∀ t, (P ++ t).getD i [] = P.getD i [] := by
      intro t
      rw [List.getD_eq_getElem?_getD, List.getD_eq_getElem?_getD,
        List.getElem?_append_left hi]
    have ho : opt_at (P ++ ('-' :: (N ++ '=' :: V)) :: post) i =
        opt_at (P ++ ('-' :: N) :: V :: post) i ∧
        ((opt_at (P ++ ('-' :: (N ++ '=' :: V)) :: post) i).argpair = 2 →
          i + 2 ≤ P.length) := by
      unfold opt_at
      rw [h0, h0]
      by_cases hi1 : i + 1 < P.length
      · rw [List.getElem?_append_left hi1, List.getElem?_append_left hi1]
        exact ⟨rfl, fun _ => hi1⟩
      · have hin : i + 1 = P.length := by omega
        have g1 : (P ++ ('-' :: (N ++ '=' :: V)) :: post)[i + 1]? =
            some ('-' :: (N ++ '=' :: V)) := by
          rw [hin, List.getElem?_append_right (le_refl _)]; simp
        have g2 : (P ++ ('-' :: N) :: V :: post)[i + 1]? = some ('-' :: N) := by
          rw [hin, List.getElem?_append_right (le_refl _)]; simp
        rw [g1, g2]
        refine ⟨get_arg_next_dash _ _ _ rfl rfl, fun h2 => ?_⟩
        obtain ⟨a1, ha1, hd⟩ := get_arg_argpair_two _ _ h2
        injection ha1 with ha1
        subst ha1
        exact absurd rfl hd
    refine ⟨by rw [parse_iter_eq, parse_iter_eq, ho.1], fun i' a' hit => ?_⟩
    rw [parse_iter_eq] at hit
    have hc := run_handler_cursor _ _ _ _ _ _ _ _ hit
    rcases opt_at_argpair (P ++ ('-' :: (N ++ '=' :: V)) :: post) i with h1 | ⟨h2, _⟩
    · rw [h1] at hc
      rcases hc with hc | ⟨hc, _⟩ <;> omega
    · have := ho.2 h2
      rw [h2] at hc
      rcases hc with hc | ⟨_, hc⟩ <;> omega
  intro fuel
  induction fuel with
  | zero =>
    intro i a hi
    have h1 : i < (P ++ ('-' :: (N ++ '=' :: V)) :: post).length := by rw [hlen1]; omega
    have h2 : i < (P ++ ('-' :: N) :: V :: post).length := by rw [hlen2]; omega
    simp only [parse_loop, if_pos h1, if_pos h2]
  | succ n ih =>
    intro i a hi
    have h1 : i < (P ++ ('-' :: (N ++ '=' :: V)) :: post).length := by rw [hlen1]; omega
    have h2 : i < (P ++ ('-' :: N) :: V :: post).length := by rw [hlen2]; omega
    rw [parse_loop_succ, parse_loop_succ, if_pos h1, if_pos h2]
    by_cases hlt : i < P.length
    · rw [← (hbefore i a hlt).1]
      cases hit : parse_iter mss (P ++ ('-' :: (N ++ '=' :: V)) :: post) i a with
      | next i' a' => exact ih i' a' ((hbefore i a hlt).2 i' a' hit)
      | ret_false out a' => rfl
    · have hin : i = P.length := by omega
      subst hin
      rw [hat a]
      cases hit : parse_iter mss (P ++ ('-' :: (N ++ '=' :: V)) :: post) P.length a with
      | next i' a' =>
        have hi' : i' = P.length + 1 := by
          have o1 : opt_at (P ++ ('-' :: (N ++ '=' :: V)) :: post) P.length =
              ⟨1, N ++ '=' :: V, V⟩ := by
            have := opt_at_append P (('-' :: (N ++ '=' :: V)) :: post) 0
            rw [Nat.add_zero] at this
            rw [this, opt_at_zero, hg1]
          rw [parse_iter_eq, o1] at hit
          have hc := run_handler_cursor _ _ _ _ _ _ _ _ hit
          rcases hc with hc | ⟨hc, _⟩
          · exact hc
          · cases hc
        subst hi'
        simp only [Iter.shift]
        rw [hafter n a']
        congr 1
        omega
      | ret_false out a' => rfl

/-- C20: the two spellings of a valued option are equivalent. For a name `N`
among dtb, image, bootrom, kernel, mem, smp, res, dumpdtb, a value `V` that
does not begin with `-` (empty or containing `=` as it may be) and any tokens
before and after, `parse_args` gives the same result, record and output
included, on the argument list with the token `-N=V` and on the list with the
two tokens `-N` `V` in its place. -/
theorem spellings_equivalent (mss : Char → Nat) (prog : CStr) (pre post : List CStr)
    (N V : CStr) (args0 : vm_args_t) (hN : N ∈ value_names) (hV : V.head? ≠ some '-') :
    parse_args mss (prog :: pre ++ ('-' :: (N ++ '=' :: V)) :: post) args0 =
      parse_args mss (prog :: pre ++ ('-' :: N) :: V :: post) args0 := by
  obtain ⟨hh, he, hr, hn⟩ := value_name_props N hN
  have hs := parse_loop_spellings mss (prog :: pre) post N V hh he hr hn hV
    (prog :: pre ++ ('-' :: (N ++ '=' :: V)) :: post).length 1 (parse_defaults args0)
    (by simp)
  have hf := (parse_loop_fuel mss (prog :: pre ++ ('-' :: N) :: V :: post)
    (prog :: pre ++ ('-' :: N) :: V :: post).length 1 (parse_defaults args0) (by omega)).2
    (prog :: pre ++ ('-' :: (N ++ '=' :: V)) :: post).length (by simp; omega)
  unfold parse_args
  rw [← hf]
  exact hs

/-- The rule of C20 at `rvvm -smp 2 -kernel=k.img boot.bin` and
`rvvm -smp 2 -kernel k.img boot.bin`. -/
theorem spellings_equivalent_witness :
    parse_args mem_suffix_shift_spec
        (cmdline ["rvvm", "-smp", "2", "-kernel=k.img", "boot.bin"]) vm_args_zero =
      parse_args mem_suffix_shift_spec
        (cmdline ["rvvm", "-smp", "2", "-kernel", "k.img", "boot.bin"]) vm_args_zero :=
  spellings_equivalent mem_suffix_shift_spec "rvvm".toList (cmdline ["-smp", "2"])
    (cmdline ["boot.bin"]) "kernel".toList "k.img".toList vm_args_zero (by decide) (by decide)

end RVVM
